import Mathlib

/-!
# asio `experimental::co_composed`: a shallow embedding

The development follows `asio/experimental/impl/co_composed.hpp`.  Each
class of the header becomes a structure, each member function a function on
that structure, and the coroutine machinery of the language (which calls the
promise's customisation points) becomes the interpreter `run` over a small
syntax of coroutine bodies.
-/

namespace CoComposed

/-! ## Values, error codes and exceptions -/

/-- Element types that occur in the completion signatures of the unit tests. -/
inductive Ty where
  | int
  | char
  deriving DecidableEq, Repr

/-- Values carried by completions. -/
inductive Val where
  | int (n : Int)
  | char (c : Nat)
  deriving DecidableEq, Repr

/-- Static type of a value. -/
def Val.ty : Val → Ty
  | .int _ => .int
  | .char _ => .char

/-- An `asio::error_code`: only its numeric value matters here, and
`operator bool` is `value != 0`. -/
structure error_code where
  value : Int
  deriving DecidableEq, Repr

/-- Where a `system_error` was raised from (the `location` string handed to
`throw_error`). -/
inductive Location where
  | unspecified
  | co_await
  deriving DecidableEq, Repr

/-- Exception objects.  `thrown n` stands for any exception object other
than a `system_error` (the tests use `throw 42`). -/
inductive Exc where
  | system_error (ec : error_code) (location : Location)
  | thrown (id : Nat)
  deriving DecidableEq, Repr

/-- Modelled from the spec: `asio::detail::throw_error(err)` lives in
`asio/detail/throw_error.hpp`, which is not part of the sources at hand.  The
spec says that a non-empty error raises a failure carrying that error and an
empty one raises nothing. -/
def throw_error (err : error_code) : Except Exc Unit :=
  if err.value ≠ 0 then .error (.system_error err .unspecified) else .ok ()

/-- Modelled from the spec: the two-argument `throw_error(err, location)` of
`asio/detail/throw_error.hpp`; as `throw_error`, with the location recorded. -/
def throw_error_at (err : error_code) (location : Location) : Except Exc Unit :=
  if err.value ≠ 0 then .error (.system_error err location) else .ok ()

/-- Modelled from the spec: `asio::error::operation_aborted` (`asio/error.hpp`
is not part of the sources at hand), the non-empty error code of a Cancelled
failure; `ECANCELED` on POSIX systems. -/
def operation_aborted : error_code := ⟨125⟩

/-! ## The completion bridge: `co_composed_handler` -/

/-- What `on_resume` hands to the body: nothing, the bare value, or the
tuple (the three `if constexpr` branches on `sizeof...(Ts)`). -/
inductive Unwrapped where
  | nothing
  | single (v : Val)
  | tuple (t : List Val)
  deriving DecidableEq, Repr

/-- The tail shared by the three `on_resume` functions:
`if constexpr (sizeof...(Ts) == 0) return; else if constexpr
(sizeof...(Ts) == 1) return std::move(std::get<0>(t)); else return
std::move(t);`.  The tuple `t` has exactly `sizeof...(Ts)` elements. -/
def unwrap (t : List Val) : Unwrapped :=
  match t with
  | [] => .nothing
  | [v] => .single v
  | _ => .tuple t

namespace co_composed_handler_plain

/-- The `result_type` of `co_composed_handler<..., R(Ts...)>`:
`std::tuple<decay_t<Ts>...>`. -/
abbrev result_type := List Val

/-- The stored result built by `operator()(Args&&... args)`:
`result_type result(std::forward<Args>(args)...)`. -/
def store (args : List Val) : result_type := args

/-- The static `on_resume(void* result)` of the plain shape. -/
def on_resume (result : result_type) : Except Exc Unwrapped :=
  .ok (unwrap result)

end co_composed_handler_plain

namespace co_composed_handler_error

/-- The `result_type` of `co_composed_handler<..., R(asio::error_code, Ts...)>`:
`std::tuple<asio::error_code, std::tuple<decay_t<Ts>...>>`. -/
abbrev result_type := error_code × List Val

/-- The stored result built by `operator()(const asio::error_code& ec, Args&&... args)`. -/
def store (ec : error_code) (args : List Val) : result_type := (ec, args)

/-- The static `on_resume(void* result)` of the error-led shape:
`throw_error(ec)` comes first, the unwrapping after it. -/
def on_resume (result : result_type) : Except Exc Unwrapped :=
  match throw_error result.1 with
  | .error e => .error e
  | .ok () => .ok (unwrap result.2)

end co_composed_handler_error

namespace co_composed_handler_exception

/-- The `result_type` of `co_composed_handler<..., R(std::exception_ptr, Ts...)>`:
`std::tuple<std::exception_ptr, std::tuple<decay_t<Ts>...>>`; a null
`exception_ptr` is `none`. -/
abbrev result_type := Option Exc × List Val

/-- The stored result built by `operator()(std::exception_ptr ex, Args&&... args)`. -/
def store (ex : Option Exc) (args : List Val) : result_type := (ex, args)

/-- The static `on_resume(void* result)` of the exception-led shape:
`if (ex) std::rethrow_exception(ex);` comes first. -/
def on_resume (result : result_type) : Except Exc Unwrapped :=
  match result.1 with
  | some e => .error e
  | none => .ok (unwrap result.2)

end co_composed_handler_exception

/-- The arguments a sub-operation passes to its completion handler, by the
shape of its completion signature. -/
inductive Completion where
  | plain (args : List Val)
  | error_led (ec : error_code) (args : List Val)
  | exception_led (ex : Option Exc) (args : List Val)
  deriving DecidableEq, Repr

/-- The result stored by the bridge, one alternative per specialisation of
`co_composed_handler` (what `void* result_` points to). -/
inductive Stored where
  | plain (t : co_composed_handler_plain.result_type)
  | error_led (t : co_composed_handler_error.result_type)
  | exception_led (t : co_composed_handler_exception.result_type)
  deriving DecidableEq, Repr

/-- The first statement of `co_composed_handler::operator()`: the
specialisation selected by the signature builds its `result_type`. -/
def co_composed_handler_store : Completion → Stored
  | .plain args => .plain (co_composed_handler_plain.store args)
  | .error_led ec args => .error_led (co_composed_handler_error.store ec args)
  | .exception_led ex args => .exception_led (co_composed_handler_exception.store ex args)

/-- The `await_resume` of the awaitable returned by `await_transform`: calls
the `on_resume` of the specialisation selected by the signature. -/
def await_resume : Stored → Except Exc Unwrapped
  | .plain t => co_composed_handler_plain.on_resume t
  | .error_led t => co_composed_handler_error.on_resume t
  | .exception_led t => co_composed_handler_exception.on_resume t

/-! ## Cancellation bookkeeping: `co_composed_state_cancellation` -/

/-- Modelled from the spec: `asio::cancellation_state`
(`asio/cancellation_state.hpp` is not part of the sources at hand).  Only
what the header under study reads or writes is kept: whether the state is
attached to the final continuation's slot, the cancellation types observed so
far (a bit mask, `0` being `cancellation_type::none`), and whether a handler
is installed in its slot. -/
structure cancellation_state where
  attached : Bool
  cancelled_ : Nat
  slot_handler : Bool
  deriving DecidableEq, Repr

/-- The default-constructed `cancellation_state`: attached to nothing. -/
def cancellation_state.default : cancellation_state := ⟨false, 0, false⟩

/-- The `cancellation_state(slot, ...)` constructors used by
`reset_cancellation_state`: a fresh state attached to the slot. -/
def cancellation_state.from_slot : cancellation_state := ⟨true, 0, false⟩

/-- Delivery of a cancellation request of type `ct` by the environment: it is
recorded only by a state attached to the slot. -/
def cancellation_state.emit (cs : cancellation_state) (ct : Nat) : cancellation_state :=
  if cs.attached then { cs with cancelled_ := cs.cancelled_ ||| ct } else cs

/-- The two specialisations of `co_composed_state_cancellation`: the primary
template (the final continuation has a cancellation slot) with its two data
members, and the one for an unspecialised `associated_cancellation_slot`,
which has no data members. -/
inductive co_composed_state_cancellation where
  | slot (cancellation_state_ : cancellation_state) (throw_if_cancelled_ : Bool)
  | unspecialised
  deriving DecidableEq, Repr

namespace co_composed_state_cancellation

/-- Initial value: the default member initialisers of the primary template
(`cancellation_state_` default-constructed, `throw_if_cancelled_ = false`),
the specialisation being chosen statically from the handler type. -/
def init (has_slot : Bool) : co_composed_state_cancellation :=
  if has_slot then .slot cancellation_state.default false else .unspecialised

/-- All three overloads of `reset_cancellation_state`. -/
def reset_cancellation_state : co_composed_state_cancellation → co_composed_state_cancellation
  | .slot _ b => .slot cancellation_state.from_slot b
  | .unspecialised => .unspecialised

/-- The member `cancelled()`. -/
def cancelled : co_composed_state_cancellation → Nat
  | .slot cs _ => cs.cancelled_
  | .unspecialised => 0

/-- The member `clear_cancellation_slot()`. -/
def clear_cancellation_slot : co_composed_state_cancellation → co_composed_state_cancellation
  | .slot cs b => .slot { cs with slot_handler := false } b
  | .unspecialised => .unspecialised

/-- The getter `throw_if_cancelled()`. -/
def throw_if_cancelled : co_composed_state_cancellation → Bool
  | .slot _ b => b
  | .unspecialised => false

/-- The setter `throw_if_cancelled(bool)`. -/
def set_throw_if_cancelled (b : Bool) : co_composed_state_cancellation → co_composed_state_cancellation
  | .slot cs _ => .slot cs b
  | .unspecialised => .unspecialised

/-- The member `check_for_cancellation()`:
`if (throw_if_cancelled_ && !!cancelled()) throw_error(operation_aborted, "co_await");`
in the primary template, an empty body in the other. -/
def check_for_cancellation : co_composed_state_cancellation → Except Exc Unit
  | .slot cs b =>
    if b && (cancelled (.slot cs b) != 0) then
      throw_error_at operation_aborted .co_await
    else .ok ()
  | .unspecialised => .ok ()

/-- A cancellation request reaching the slot of the final continuation. -/
def emit (ct : Nat) : co_composed_state_cancellation → co_composed_state_cancellation
  | .slot cs b => .slot (cs.emit ct) b
  | .unspecialised => .unspecialised

/-- The overload `reset_cancellation_state(Filter filter)`.  In the primary
template the filter goes to the constructor of `cancellation_state`, of
which the model keeps no filter. -/
def reset_cancellation_state_filter (_filter : Nat) :
    co_composed_state_cancellation → co_composed_state_cancellation
  | .slot _ b => .slot cancellation_state.from_slot b
  | .unspecialised => .unspecialised

/-- The overload `reset_cancellation_state(InFilter&&, OutFilter&&)`; as
for the one-filter overload. -/
def reset_cancellation_state_filters (_in_filter _out_filter : Nat) :
    co_composed_state_cancellation → co_composed_state_cancellation
  | .slot _ b => .slot cancellation_state.from_slot b
  | .unspecialised => .unspecialised

end co_composed_state_cancellation

/-- The calls that can change the cancellation bookkeeping of a composition
state: the member functions that are not `const`, and a cancellation request
made by the environment. -/
inductive CancellationCall where
  | reset_cancellation_state
  | reset_cancellation_state_filter (filter : Nat)
  | reset_cancellation_state_filters (in_filter out_filter : Nat)
  | clear_cancellation_slot
  | throw_if_cancelled (b : Bool)
  | request (ct : Nat)
  deriving DecidableEq, Repr

/-- The bookkeeping after one call. -/
def co_composed_state_cancellation.call (s : co_composed_state_cancellation) :
    CancellationCall → co_composed_state_cancellation
  | .reset_cancellation_state => s.reset_cancellation_state
  | .reset_cancellation_state_filter f => s.reset_cancellation_state_filter f
  | .reset_cancellation_state_filters i o => s.reset_cancellation_state_filters i o
  | .clear_cancellation_slot => s.clear_cancellation_slot
  | .throw_if_cancelled b => s.set_throw_if_cancelled b
  | .request ct => s.emit ct

/-- The bookkeeping after a sequence of calls. -/
def co_composed_state_cancellation.calls (s : co_composed_state_cancellation)
    (history : List CancellationCall) : co_composed_state_cancellation :=
  history.foldl co_composed_state_cancellation.call s

/-! ## Pending continuation, composition state, promise -/

/-- The functions `co_composed_on_suspend::fn_` can point to: the lambda
installed by the awaitable of `await_transform`, the one installed by the
awaitable of `yield_value`, and the one installed by `return_value` of the
overload with the given index.  (`arg_` points to that awaitable or promise,
which lives in the coroutine frame.) -/
inductive Pending where
  | start_operation
  | complete_yield
  | complete_return (overload : Nat)
  deriving DecidableEq, Repr

/-- The struct `co_composed_on_suspend`; `fn_ = none` is the null pointer. -/
structure co_composed_on_suspend where
  fn_ : Option Pending
  deriving DecidableEq, Repr

/-- The class `co_composed_state`: the cancellation base class, the liveness
token `work_` (`true` while it keeps the executors busy), the final
continuation `handler_` (`true` until it is moved from) and the holder
`on_suspend_` points to. -/
structure co_composed_state where
  cancellation : co_composed_state_cancellation
  work_ : Bool
  handler_ : Bool
  on_suspend_ : co_composed_on_suspend
  deriving DecidableEq, Repr

/-- The constructor of `co_composed_state`, the cancellation specialisation
being fixed by the handler type. -/
def co_composed_state.ctor (has_slot : Bool) (on_suspend : co_composed_on_suspend) :
    co_composed_state :=
  ⟨co_composed_state_cancellation.init has_slot, true, true, on_suspend⟩

/-- The `Return` parameter of the promise: `void`, or `co_returns<Signatures...>`
with the argument types of each declared signature. -/
inductive Return where
  | void
  | co_returns (signatures : List (List Ty))
  deriving DecidableEq, Repr

/-- The class `co_composed_promise` with the composition state it refers to
(both live in the coroutine frame).  `rid` names the record in the event
trace.  `owner_` is `true` when the pointer `owner_` is non-null, and
`owner_p_` is the value of `*owner_`: whether the `p_` of the bridge that made
the latest resume points (again) to this promise.  `return_value_` is the
variant of `co_composed_promise_return`: `none` is `std::monostate`,
`some (i, t)` is alternative `i` holding the tuple `t`. -/
structure co_composed_promise where
  rid : Nat
  return_type : Return
  state_ : co_composed_state
  owner_ : Bool
  owner_p_ : Bool
  result_ : Option Stored
  return_value_ : Option (Nat × List Val)
  deriving DecidableEq, Repr

/-! ## Events, world, handlers and call stacks -/

/-- Observable events of a run, each tagged with the record it concerns. -/
inductive Event where
  /-- The promise's `operator new` ran: the frame is allocated. -/
  | frame_allocated (rid : Nat)
  /-- The body evaluated `co_yield state.complete(vs...)`: `yield_value` was called. -/
  | yield_value (rid : Nat) (vs : List Val)
  /-- The body evaluated `co_return {vs...}`: `return_value` was called. -/
  | return_value (rid : Nat) (vs : List Val)
  /-- The body returned without a value: `return_void` was called. -/
  | return_void (rid : Nat)
  /-- An exception left the body: `unhandled_exception` was called. -/
  | unhandled_exception (rid : Nat) (e : Exc)
  /-- The program is rejected by the compiler (no matching `return_value` or `return_void`). -/
  | ill_formed (rid : Nat)
  /-- A driver found `on_suspend.fn_` set and called it. -/
  | pending_invoked (rid : Nat) (fn : Pending)
  /-- The pending continuation built a fresh bridge and initiated the sub-operation with it. -/
  | operation_started (rid : Nat)
  /-- A bridge was invoked and entered `co_composed_handler_base::resume`. -/
  | resume (rid : Nat)
  /-- The liveness token stopped keeping the executors busy. -/
  | work_released (rid : Nat)
  /-- The final continuation and the payload were moved out of the frame. -/
  | moved_out (rid : Nat) (vs : List Val)
  /-- The coroutine frame was destroyed (and `operator delete` called). -/
  | frame_destroyed (rid : Nat)
  /-- The final continuation was called with these arguments. -/
  | handler_invoked (rid : Nat) (args : List Val)
  /-- The call `initiate_co_composed::operator()` returned normally. -/
  | initiate_returned (rid : Nat)
  /-- An exception left `initiate_co_composed::operator()`. -/
  | initiate_raised (rid : Nat) (e : Exc)
  /-- The bridge call (`operator()`, hence `resume`) returned normally. -/
  | resume_returned (rid : Nat)
  /-- An exception left the bridge call (`resume`, hence `operator()`). -/
  | resume_raised (rid : Nat) (e : Exc)
  deriving DecidableEq, Repr

/-- The world: the events so far and the next unused record name. -/
structure World where
  trace : List Event
  next_id : Nat
  deriving DecidableEq, Repr

/-- Append an event. -/
def World.emit (w : World) (e : Event) : World :=
  { w with trace := w.trace ++ [e] }

/-- The final continuation held by a composition state: the caller's own
one, or (for a composed operation awaited by another one) a
`co_composed_handler` whose `p_` points to the awaiting promise, paired with
the final continuation that promise's state holds. -/
inductive Handler where
  | final
  | bridge (p : co_composed_promise) (h : Handler)
  deriving DecidableEq, Repr

/-- The two functions that run a step of a record and then fire the pending
continuation: `initiate_co_composed::operator()` and
`co_composed_handler_base::resume`. -/
inductive Driver where
  | initiate
  | resume
  deriving DecidableEq, Repr

/-- A driver that is on the call stack, inside the pending continuation it
fired. -/
structure Activation where
  driver : Driver
  promise : co_composed_promise
  handler : Handler
  deriving DecidableEq, Repr

/-- The drivers on the call stack, innermost first; the environment (the
caller of the initiating function, or the scheduler that invokes a bridge)
is below the last one. -/
abbrev Stack := List Activation

/-- The composed work guard going away (`work_.reset()` or its destructor):
the token is released if it is still held. -/
def release_work (p : co_composed_promise) (w : World) : World :=
  if p.state_.work_ then w.emit (.work_released p.rid) else w

/-- The member `destroy()`: `coroutine_handle::from_promise(*this).destroy()`.
The frame goes away, and with it the composition state: its `handler_`
(when it still holds a bridge, that bridge's destructor destroys the frame
its `p_` points to) and its `work_`. -/
def co_composed_promise.destroy (p : co_composed_promise) : Handler → World → World
  | .final, w => release_work p (w.emit (.frame_destroyed p.rid))
  | .bridge p' h', w =>
    let w1 := w.emit (.frame_destroyed p.rid)
    let w2 := if p.state_.handler_ then co_composed_promise.destroy p' h' w1 else w1
    release_work p w2

/-- The destructor of `co_composed_handler_base`: `if (p_) p_->destroy();`. -/
def co_composed_handler_base_dtor (p_ : Bool) (p : co_composed_promise) (h : Handler)
    (w : World) : World :=
  if p_ then p.destroy h w else w

/-- A driver that is on the stack returns normally.  For `resume` the bridge
that was invoked is destroyed afterwards by whoever invoked it. -/
def Activation.leave (a : Activation) (w : World) : World :=
  match a.driver with
  | .initiate => w.emit (.initiate_returned a.promise.rid)
  | .resume =>
    co_composed_handler_base_dtor a.promise.owner_p_ a.promise a.handler
      (w.emit (.resume_returned a.promise.rid))

/-- An exception leaves a driver that is on the stack; nothing in the
header catches it.  For `resume` the bridge that was invoked is destroyed
during unwinding. -/
def Activation.unwind (a : Activation) (e : Exc) (w : World) : World :=
  match a.driver with
  | .initiate => w.emit (.initiate_raised a.promise.rid e)
  | .resume =>
    co_composed_handler_base_dtor a.promise.owner_p_ a.promise a.handler
      (w.emit (.resume_raised a.promise.rid e))

/-- Control returns normally through every driver on the stack. -/
def Stack.ret : Stack → World → World
  | [], w => w
  | a :: s, w => Stack.ret s (a.leave w)

/-- An exception propagates through every driver on the stack and reaches
the environment. -/
def Stack.unwind : Stack → Exc → World → World
  | [], _, w => w
  | a :: s, e, w => Stack.unwind s e (a.unwind e w)

/-! ## Member functions of the promise -/

/-- The position, among the declared signatures, of the first one whose
argument types are `types`. -/
def find_overload (types : List Ty) : List (List Ty) → Option Nat
  | [] => none
  | signature :: rest =>
    if signature = types then some 0 else (find_overload types rest).map (· + 1)

namespace co_composed_promise

/-- The constructor of the promise for a fresh record, together with the
composition state it refers to. -/
def ctor (rid : Nat) (return_type : Return) (has_slot : Bool) : co_composed_promise :=
  ⟨rid, return_type, co_composed_state.ctor has_slot ⟨none⟩, false, false, none, none⟩

/-- The member `resume(owner, result, on_suspend)` up to the resumption of
the coroutine: `state_.on_suspend_ = &on_suspend` (a fresh, empty holder),
`state_.clear_cancellation_slot()`, `owner_ = &owner` (the caller's `p_`,
which `std::exchange` has just set to null), `result_ = result`. -/
def resume (p : co_composed_promise) (result : Stored) : co_composed_promise :=
  { p with
    state_ := { p.state_ with
      on_suspend_ := ⟨none⟩
      cancellation := p.state_.cancellation.clear_cancellation_slot }
    owner_ := true
    owner_p_ := false
    result_ := some result }

/-- The member `unhandled_exception()` before its `throw;`:
`if (owner_) *owner_ = this;`. -/
def unhandled_exception (p : co_composed_promise) : co_composed_promise :=
  if p.owner_ then { p with owner_p_ := true } else p

/-- The statement `state_.check_for_cancellation()` of `await_transform`,
which precedes the construction of the awaitable. -/
def await_transform (p : co_composed_promise) : Except Exc Unit :=
  p.state_.cancellation.check_for_cancellation

/-- The member `await_ready()` of both awaitables. -/
def await_ready : Bool := false

/-- The assignments `on_suspend_->arg_ = this; on_suspend_->fn_ = ...` that
arm the pending continuation. -/
def arm (p : co_composed_promise) (fn : Pending) : co_composed_promise :=
  { p with state_ := { p.state_ with on_suspend_ := ⟨some fn⟩ } }

/-- The `await_suspend` of the awaitable of `await_transform`: arms the
pending continuation that starts the sub-operation. -/
def await_suspend (p : co_composed_promise) : co_composed_promise :=
  p.arm .start_operation

/-- The state after `work_.reset()`: the token is no longer held (the event
of the release is `release_work`). -/
def work_reset (p : co_composed_promise) : co_composed_promise :=
  { p with state_ := { p.state_ with work_ := false } }

/-- The `await_suspend` of the awaitable of `yield_value`:
`work_.reset()`, then the pending continuation that completes is armed. -/
def yield_await_suspend (p : co_composed_promise) : co_composed_promise :=
  p.work_reset.arm .complete_yield

/-- Overload resolution among the `return_value(std::tuple<Args...>&&)`
members inherited from `co_composed_promise_return_overload`, one per
declared signature: the index of the signature whose argument types are
those of the returned tuple. -/
def return_overload (p : co_composed_promise) (value : List Val) : Option Nat :=
  match p.return_type with
  | .void => none
  | .co_returns signatures => find_overload (value.map Val.ty) signatures

/-- The member `return_value` of overload `i`: the tuple goes into the
variant (alternative `i + 1`, alternative `0` being `std::monostate`),
`work_.reset()`, and the pending continuation that completes is armed. -/
def return_value (p : co_composed_promise) (i : Nat) (value : List Val) : co_composed_promise :=
  ({ p with return_value_ := some (i + 1, value) }.work_reset).arm (.complete_return i)

/-- The expression `std::get<return_type>(promise.return_value_)` in the
lambda of overload `i`: the tuple when alternative `i + 1` is active. -/
def get_return_value (p : co_composed_promise) (i : Nat) : Option (List Val) :=
  match p.return_value_ with
  | some (j, t) => if j = i + 1 then some t else none
  | none => none

/-- The move `std::move(promise.state().handler_)` into the invoker. -/
def move_handler (p : co_composed_promise) : co_composed_promise :=
  { p with state_ := { p.state_ with handler_ := false } }

/-- The body called `state.throw_if_cancelled(b)`. -/
def set_throw_if_cancelled (p : co_composed_promise) (b : Bool) : co_composed_promise :=
  { p with state_ := { p.state_ with
      cancellation := p.state_.cancellation.set_throw_if_cancelled b } }

/-- The body called `state.reset_cancellation_state()`. -/
def reset_cancellation_state (p : co_composed_promise) : co_composed_promise :=
  { p with state_ := { p.state_ with
      cancellation := p.state_.cancellation.reset_cancellation_state } }

/-- A cancellation request reaches the slot while the record is suspended. -/
def emit_cancel (p : co_composed_promise) (ct : Nat) : co_composed_promise :=
  { p with state_ := { p.state_ with cancellation := p.state_.cancellation.emit ct } }

/-- Whether the final continuation has a cancellation slot (a static
property of the handler type, inherited by the bridges built for it). -/
def has_slot (p : co_composed_promise) : Bool :=
  match p.state_.cancellation with
  | .slot _ _ => true
  | .unspecialised => false

end co_composed_promise

/-- The body of both completing lambdas once the payload `result` is at
hand: the guard `handler(promise)`; the invoker, which takes the final
continuation and the payload out of the frame; the temporary
`co_composed_handler_base(std::move(handler))`, whose destructor destroys
the frame; then `invoker()`, the call of the final continuation. -/
def complete (result : List Val) (p : co_composed_promise) (h : Handler) (w : World) :
    co_composed_promise × World :=
  let p1 := p.move_handler
  let w1 := w.emit (.moved_out p.rid result)
  let w2 := co_composed_handler_base_dtor true p1 h w1
  (p1, w2.emit (.handler_invoked p.rid result))

/-- The start of `co_composed_handler_base::resume(result)`:
`co_composed_on_suspend on_suspend{}` and
`std::exchange(p_, nullptr)->resume(p_, result, on_suspend)`, up to the
resumption of the coroutine. -/
def co_composed_handler_base_resume (result : Stored) (p : co_composed_promise) (w : World) :
    co_composed_promise × World :=
  (p.resume result, w.emit (.resume p.rid))

/-- Calling the coroutine function: a fresh record is named, `operator new`
allocates its frame, the promise is constructed over the state passed in
(whose `on_suspend_` is the fresh, empty holder of the initiator), and
`initial_suspend()` being `suspend_never` the body starts at once. -/
def coroutine_new (return_type : Return) (has_slot : Bool) (w : World) :
    co_composed_promise × World :=
  (co_composed_promise.ctor w.next_id return_type has_slot,
    { w with next_id := w.next_id + 1 }.emit (.frame_allocated w.next_id))

/-! ## Coroutine bodies and their execution -/

/-- A sub-operation that is not itself a composed operation.  `raises e`:
its initiation raises `e` (the `async_throw` of the tests).  `deferred ct c`:
its initiation keeps the completion handler and returns; the handler is
invoked later, from the scheduler, with the arguments `c` (as `asio::post`
does); `ct` is a cancellation request that reaches the final continuation's
slot in the meantime (`0`: none).  As every asio operation, it never invokes
the handler from within the initiating function. -/
inductive Op where
  | raises (e : Exc)
  | deferred (ct : Nat) (c : Completion)
  deriving DecidableEq, Repr

/-- The result of a driver's work, seen from the record it drives. -/
inductive Outcome where
  /-- The record's final continuation has just been called with `args`,
  from within these drivers. -/
  | completed (args : List Val) (stack : Stack)
  /-- Control is back in the environment and nothing is outstanding. -/
  | halted
  deriving DecidableEq, Repr

/-- The body of a composed operation, as the sequence of coroutine
statements that matter to the promise.  The continuation of an await
receives what the await expression evaluates to, or the exception it raises
there (which the body may handle or let escape with `raise`). -/
inductive Body where
  /-- The statement `co_await op` for a leaf operation. -/
  | co_await (op : Op) (k : Except Exc Unwrapped → Body)
  /-- The statement `co_await` of another composed operation with the given
  return type and body. -/
  | co_await_composed (return_type : Return) (inner : Body) (k : Except Exc Unwrapped → Body)
  /-- The statement `co_yield state.complete(vs...)`, followed by the rest of the body. -/
  | co_yield (vs : List Val) (rest : Body)
  /-- The statement `co_return {vs...}`. -/
  | co_return (vs : List Val)
  /-- The statement `co_return;`, or control flowing off the end. -/
  | co_return_void
  /-- An exception that leaves the body. -/
  | raise (e : Exc)
  /-- The call `state.throw_if_cancelled(b)`. -/
  | throw_if_cancelled (b : Bool) (rest : Body)
  /-- The call `state.reset_cancellation_state()`. -/
  | reset_cancellation_state (rest : Body)

/-- Execution of a body from its current point to the end of the run.  The
record `p` with final continuation `h` is being run by driver `d`, itself
called from within the drivers of `s`.  Each case follows what the language
does with the statement (which customisation point of the promise it calls)
and what the driver does when the coroutine hands control back:
`if (on_suspend.fn_) on_suspend.fn_(on_suspend.arg_);`.  The driver reads the
holder that the step has just written (`arg_` being the awaitable or promise
of that very statement), so in each case the branches for any other content
of the holder are never taken; likewise `result_` is set when it is read. -/
def run (d : Driver) : Body → co_composed_promise → Handler → Stack → World → World × Outcome
  | .raise e, p, h, s, w =>
    -- `unhandled_exception()` rethrows: the coroutine stays suspended at its
    -- final suspend point and the exception leaves the driver.
    let p1 := p.unhandled_exception
    (Stack.unwind (⟨d, p1, h⟩ :: s) e (w.emit (.unhandled_exception p.rid e)), .halted)
  | .throw_if_cancelled b rest, p, h, s, w =>
    run d rest (p.set_throw_if_cancelled b) h s w
  | .reset_cancellation_state rest, p, h, s, w =>
    run d rest p.reset_cancellation_state h s w
  | .co_return_void, p, h, s, w =>
    match p.return_type with
    | .co_returns (_ :: _) => (w.emit (.ill_formed p.rid), .halted)
    | _ =>
      -- `return_void()`, then `final_suspend()` is `suspend_never`: the
      -- coroutine ends and its frame is destroyed.
      let w1 := p.destroy h (w.emit (.return_void p.rid))
      match p.state_.on_suspend_.fn_ with
      | none => (Stack.ret (⟨d, p, h⟩ :: s) w1, .halted)
      | some _ => (w1, .halted)
  | .co_return value, p, h, s, w =>
    match p.return_overload value with
    | none => (w.emit (.ill_formed p.rid), .halted)
    | some i =>
      -- `return_value(value)`, then `final_suspend()` is `suspend_always`.
      let p1 := p.return_value i value
      let w1 := release_work p (w.emit (.return_value p.rid value))
      match p1.state_.on_suspend_.fn_ with
      | some (.complete_return j) =>
        match p1.get_return_value j with
        | some result =>
          let pw := complete result p1 h (w1.emit (.pending_invoked p.rid (.complete_return j)))
          (pw.2, .completed result (⟨d, pw.1, h⟩ :: s))
        | none => (w1, .halted)
      | _ => (Stack.ret (⟨d, p1, h⟩ :: s) w1, .halted)
  | .co_yield vs _, p, h, s, w =>
    -- `yield_value(state.complete(vs...))`, `await_ready()` is false,
    -- `await_suspend` arms the completion and the coroutine suspends.
    let p1 := p.yield_await_suspend
    let w1 := release_work p (w.emit (.yield_value p.rid vs))
    match p1.state_.on_suspend_.fn_ with
    | some .complete_yield =>
      let pw := complete vs p1 h (w1.emit (.pending_invoked p.rid .complete_yield))
      (pw.2, .completed vs (⟨d, pw.1, h⟩ :: s))
    | _ => (Stack.ret (⟨d, p1, h⟩ :: s) w1, .halted)
  | .co_await op k, p, h, s, w =>
    match p.await_transform with
    | .error e => run d (k (.error e)) p h s w
    | .ok () =>
      -- `await_ready()` is false, `await_suspend` arms the start of the
      -- operation and the coroutine suspends.
      let p1 := p.await_suspend
      match p1.state_.on_suspend_.fn_ with
      | some .start_operation =>
        -- `op(co_composed_handler(promise))`: a fresh bridge owns the frame.
        let w1 := (w.emit (.pending_invoked p.rid .start_operation)).emit
          (.operation_started p.rid)
        match op with
        | .raises e =>
          -- The bridge is destroyed while the exception unwinds the initiation.
          (Stack.unwind (⟨d, p1, h⟩ :: s) e (co_composed_handler_base_dtor true p1 h w1),
            .halted)
        | .deferred ct c =>
          -- The operation keeps the bridge and every driver on the stack
          -- returns; later the scheduler invokes the bridge with `c`.
          let w2 := Stack.ret (⟨d, p1, h⟩ :: s) w1
          let pw := co_composed_handler_base_resume (co_composed_handler_store c)
            (p1.emit_cancel ct) w2
          match pw.1.result_ with
          | some result => run .resume (k (await_resume result)) pw.1 h [] pw.2
          | none => (pw.2, .halted)
      | _ => (Stack.ret (⟨d, p1, h⟩ :: s) w, .halted)
  | .co_await_composed return_type inner k, p, h, s, w =>
    match p.await_transform with
    | .error e => run d (k (.error e)) p h s w
    | .ok () =>
      let p1 := p.await_suspend
      match p1.state_.on_suspend_.fn_ with
      | some .start_operation =>
        -- `op(co_composed_handler(promise))` reaches
        -- `initiate_co_composed::operator()` with the bridge as handler.
        let w1 := (w.emit (.pending_invoked p.rid .start_operation)).emit
          (.operation_started p.rid)
        let pw := coroutine_new return_type p1.has_slot w1
        match run .initiate inner pw.1 (.bridge p1 h) (⟨d, p1, h⟩ :: s) pw.2 with
        | (w2, .halted) => (w2, .halted)
        | (w2, .completed args s') =>
          -- The inner record's final continuation is the bridge:
          -- `operator()(args...)` on the stack of the inner completion.
          let pw' := co_composed_handler_base_resume
            (co_composed_handler_store (.plain args)) p1 w2
          match pw'.1.result_ with
          | some result => run .resume (k (await_resume result)) pw'.1 h s' pw'.2
          | none => (pw'.2, .halted)
      | _ => (Stack.ret (⟨d, p1, h⟩ :: s) w, .halted)

/-- The call `initiate_co_composed::operator()(handler, function, ...)` made
by the environment, followed to the end of the run: a fresh holder, the call
of the coroutine function, and (inside `run`) the pending continuation.
When the final continuation has been called it returns, and so does every
driver on the stack. -/
def initiate_co_composed (return_type : Return) (has_slot : Bool) (function : Body)
    (w : World) : World :=
  let pw := coroutine_new return_type has_slot w
  match run .initiate function pw.1 .final [] pw.2 with
  | (w1, .halted) => w1
  | (w1, .completed _ s) => Stack.ret s w1

/-- The events of a whole run started from scratch. -/
def trace_of (return_type : Return) (has_slot : Bool) (function : Body) : List Event :=
  (initiate_co_composed return_type has_slot function ⟨[], 0⟩).trace

/-! ## Reading a trace -/

/-- The argument lists of the calls of record `rid`'s final continuation, in order. -/
def invocations (rid : Nat) (t : List Event) : List (List Val) :=
  t.filterMap fun ev =>
    match ev with
    | .handler_invoked r args => if r = rid then some args else none
    | _ => none

/-- The pending continuations fired by the drivers of record `rid`, in order. -/
def fired (rid : Nat) (t : List Event) : List Pending :=
  t.filterMap fun ev =>
    match ev with
    | .pending_invoked r fn => if r = rid then some fn else none
    | _ => none

/-- How many times the frame of record `rid` was destroyed. -/
def destroyed (rid : Nat) (t : List Event) : Nat :=
  t.count (.frame_destroyed rid)

/-- How many times the liveness token of record `rid` was released. -/
def released (rid : Nat) (t : List Event) : Nat :=
  t.count (.work_released rid)

/-- How many times a bridge resumed record `rid`. -/
def resumes (rid : Nat) (t : List Event) : Nat :=
  t.count (.resume rid)

/-- The events of returning, unwinding and destruction. -/
def Event.is_cleanup : Event → Bool
  | .work_released _ => true
  | .frame_destroyed _ => true
  | .initiate_returned _ => true
  | .initiate_raised _ _ => true
  | .resume_returned _ => true
  | .resume_raised _ _ => true
  | _ => false

/-- The events that carry a payload: the completions of a body and the
calls of a final continuation. -/
def Event.carries_payload : Event → Bool
  | .yield_value _ _ => true
  | .return_value _ _ => true
  | .handler_invoked _ _ => true
  | _ => false

/-- The payloads with which the body of record `rid` completed (its calls
of `yield_value` and `return_value`), in order. -/
def completions (rid : Nat) (t : List Event) : List (List Val) :=
  t.filterMap fun ev =>
    match ev with
    | .yield_value r vs => if r = rid then some vs else none
    | .return_value r vs => if r = rid then some vs else none
    | _ => none

/-- The world `w'` is `w` after events of returning, unwinding and
destruction only. -/
def Cleanup (w w' : World) : Prop :=
  w'.next_id = w.next_id ∧
    ∃ evs, w'.trace = w.trace ++ evs ∧ ∀ ev ∈ evs, Event.is_cleanup ev = true

/-- In every record the calls of the final continuation are the completions
of the body, with the same payloads in the same order. -/
def Balanced (w : World) : Prop :=
  ∀ rid, invocations rid w.trace = completions rid w.trace

/-! ## Classes of bodies named by the properties -/

/-- The body performs `n` successful awaits of sub-operations that complete
later (each await expression evaluates to a value `u`) and then goes on as
`rest`. -/
inductive Awaits : Nat → Body → Body → Prop where
  | done (rest : Body) : Awaits 0 rest rest
  | step (ct : Nat) (c : Completion) (k : Except Exc Unwrapped → Body) (u : Unwrapped)
      (n : Nat) (rest : Body) :
      await_resume (co_composed_handler_store c) = .ok u →
      Awaits n (k (.ok u)) rest →
      Awaits (n + 1) (.co_await (.deferred ct c) k) rest

/-- The body completes: it reaches `co_yield state.complete(vs...)`, or
(when the declared return type has a signature of these types)
`co_return {vs...}`. -/
inductive Completes (return_type : Return) (vs : List Val) : Body → Prop where
  | by_yield (rest : Body) : Completes return_type vs (.co_yield vs rest)
  | by_return (signatures : List (List Ty)) :
      return_type = .co_returns signatures → vs.map Val.ty ∈ signatures →
      Completes return_type vs (.co_return vs)

/-- The body reaches `rest` without suspending: only calls on the
composition state come before it. -/
inductive Reaches : Body → Body → Prop where
  | here (rest : Body) : Reaches rest rest
  | throw_if_cancelled (b : Bool) (body rest : Body) :
      Reaches body rest → Reaches (.throw_if_cancelled b body) rest
  | reset_cancellation_state (body rest : Body) :
      Reaches body rest → Reaches (.reset_cancellation_state body) rest

/-- The driver that runs the record after `m` awaits. -/
def driver_after (m : Nat) : Driver := if m = 0 then .initiate else .resume

/-- What the awaits of `Awaits` leave unchanged in a promise. -/
structure Carried (p p' : co_composed_promise) : Prop where
  rid : p'.rid = p.rid
  return_type : p'.return_type = p.return_type
  work : p'.state_.work_ = p.state_.work_
  handler : p'.state_.handler_ = p.state_.handler_
  flag : p'.state_.cancellation.throw_if_cancelled = p.state_.cancellation.throw_if_cancelled
  return_value : p'.return_value_ = p.return_value_

/-- The events of the first `n` awaits of the outermost record when each
sub-operation completes later: the driver fires the pending continuation,
the operation is started, the driver returns (the initiating call the first
time, a bridge call afterwards), and the bridge resumes the record. -/
def await_trace : Nat → List Event
  | 0 => []
  | n + 1 =>
    await_trace n ++
      [.pending_invoked 0 .start_operation, .operation_started 0,
        if n = 0 then .initiate_returned 0 else .resume_returned 0, .resume 0]

/-- The events of a completion of the outermost record with payload `vs`,
from the release of the liveness token to the return of the driver. -/
def completion_trace (fn : Pending) (vs : List Val) (n : Nat) : List Event :=
  [.work_released 0, .pending_invoked 0 fn, .moved_out 0 vs, .frame_destroyed 0,
    .handler_invoked 0 vs, if n = 0 then .initiate_returned 0 else .resume_returned 0]

/-! ## Frame allocation: `operator new` and `operator delete` of the promise -/

/-- The values of `std::size_t` are the numbers below `size_modulus`
(a 64-bit `std::size_t`); its arithmetic wraps around. -/
def size_modulus : Nat := 2 ^ 64

/-- The largest size an object can have, `PTRDIFF_MAX`. -/
def ptrdiff_max : Nat := 2 ^ 63 - 1

/-- The static member `blocks(size)`:
`(size + sizeof(block) - 1) / sizeof(block)` in `std::size_t` arithmetic,
`sizeof_block` being `sizeof(block)`. -/
def blocks (sizeof_block : Nat) (size : Nat) : Nat :=
  ((size + sizeof_block - 1) % size_modulus) / sizeof_block

/-- An allocator (the one associated with the final continuation, or the
recycling fallback).  Copies, moves and rebinds of an allocator compare
equal to it, so an allocator is identified by a name. -/
structure Allocator where
  id : Nat
  deriving DecidableEq, Repr

/-- The calls received by the allocators. -/
inductive HeapEvent where
  /-- The call `allocate(allocator, n)`, which returned `base`. -/
  | allocate (allocator : Allocator) (n : Nat) (base : Nat)
  /-- The call `deallocate(allocator, base, n)`. -/
  | deallocate (allocator : Allocator) (base : Nat) (n : Nat)
  deriving DecidableEq, Repr

/-- The memory seen by `operator new` and `operator delete`: the arrays of
blocks handed out and not yet given back (allocator, address, number of
blocks), the allocator objects constructed in place (address, allocator),
and the calls received by the allocators so far.  Addresses are in bytes. -/
structure Heap where
  live : List (Allocator × Nat × Nat)
  heads : List (Nat × Allocator)
  log : List HeapEvent
  deriving DecidableEq, Repr

/-- The call `std::allocator_traits<block_allocator_type>::allocate(allocator, n)`;
`base` is the address the allocator chooses. -/
def Heap.allocate (heap : Heap) (allocator : Allocator) (n : Nat) (base : Nat) : Heap :=
  { heap with
    live := (allocator, base, n) :: heap.live
    log := heap.log ++ [.allocate allocator n base] }

/-- The call `std::allocator_traits<block_allocator_type>::deallocate(allocator, base, n)`:
defined only for an array this allocator handed out with this size. -/
def Heap.deallocate (heap : Heap) (allocator : Allocator) (base : Nat) (n : Nat) : Option Heap :=
  if (allocator, base, n) ∈ heap.live then
    some { heap with
      live := heap.live.erase (allocator, base, n)
      log := heap.log ++ [.deallocate allocator base n] }
  else none

/-- The promise's `operator new(size, state, ...)`.  `allocator` is the
associated allocator of `state.handler_` (rebound to `block`), `base` the
address its `allocate` returns, `sizeof_allocator` is `sizeof(allocator_type)`.
The allocator is constructed at `base_ptr`, and the result is
`base_ptr + blocks(sizeof(allocator_type))`, a pointer to `block`. -/
def operator_new (sizeof_block sizeof_allocator : Nat) (allocator : Allocator) (base : Nat)
    (size : Nat) (heap : Heap) : Nat × Heap :=
  let n := (blocks sizeof_block sizeof_allocator + blocks sizeof_block size) % size_modulus
  let heap1 := heap.allocate allocator n base
  let heap2 := { heap1 with heads := (base, allocator) :: heap1.heads }
  (base + blocks sizeof_block sizeof_allocator * sizeof_block, heap2)

/-- The promise's `operator delete(ptr, size)`: `base_ptr` is
`ptr - blocks(sizeof(allocator_type))`; the allocator found there is moved
out and destroyed in place, and the whole array goes back to it.  Without
an allocator object at `base_ptr` the behaviour is undefined. -/
def operator_delete (sizeof_block sizeof_allocator : Nat) (ptr : Nat) (size : Nat)
    (heap : Heap) : Option Heap :=
  let base_ptr := ptr - blocks sizeof_block sizeof_allocator * sizeof_block
  match heap.heads.lookup base_ptr with
  | none => none
  | some block_allocator =>
    let heap1 := { heap with heads := heap.heads.erase (base_ptr, block_allocator) }
    heap1.deallocate block_allocator base_ptr
      ((blocks sizeof_block sizeof_allocator + blocks sizeof_block size) % size_modulus)

/-! ## The life of a record, read from a trace -/

/-- The record an event concerns. -/
def Event.rid : Event → Nat
  | .frame_allocated rid => rid
  | .yield_value rid _ => rid
  | .return_value rid _ => rid
  | .return_void rid => rid
  | .unhandled_exception rid _ => rid
  | .ill_formed rid => rid
  | .pending_invoked rid _ => rid
  | .operation_started rid => rid
  | .resume rid => rid
  | .work_released rid => rid
  | .moved_out rid _ => rid
  | .frame_destroyed rid => rid
  | .handler_invoked rid _ => rid
  | .initiate_returned rid => rid
  | .initiate_raised rid _ => rid
  | .resume_returned rid => rid
  | .resume_raised rid _ => rid

/-- The events of a driver returning or being left by an exception: they
concern the call that ran a step, not the record itself. -/
def Event.is_driver_exit : Event → Bool
  | .initiate_returned _ => true
  | .initiate_raised _ _ => true
  | .resume_returned _ => true
  | .resume_raised _ _ => true
  | _ => false

/-- Where a record stands in its life. -/
inductive Phase where
  /-- No frame yet. -/
  | fresh
  /-- A step of the body is in progress. -/
  | running
  /-- The driver has fired the pending continuation that starts a sub-operation. -/
  | starting
  /-- The sub-operation holds the bridge; the record waits to be resumed. -/
  | suspended
  /-- The body has completed with this payload (`yield_value` or `return_value`). -/
  | completing (vs : List Val)
  /-- The liveness token has been released on the way to completion. -/
  | released (vs : List Val)
  /-- The driver has fired the pending continuation that completes. -/
  | taking (vs : List Val)
  /-- The final continuation and the payload are out of the frame. -/
  | moved (vs : List Val)
  /-- The frame is destroyed, the final continuation not yet called. -/
  | destroyed (vs : List Val)
  /-- The final continuation has been called with this payload. -/
  | done (vs : List Val)
  /-- The body returned without completing (`return_void`). -/
  | ending
  /-- An exception left the body. -/
  | failed
  /-- The program was rejected. -/
  | rejected
  /-- The frame was destroyed without completion. -/
  | freed
  /-- The frame was destroyed without completion and the token released. -/
  | dead
  deriving DecidableEq, Repr

/-- The phase after an event of the record, when the event can occur in
the phase. -/
def Phase.step (ph : Phase) (ev : Event) : Option Phase :=
  if ev.is_driver_exit then some ph else
  match ph with
  | .fresh =>
    match ev with
    | .frame_allocated _ => some .running
    | _ => none
  | .running =>
    match ev with
    | .pending_invoked _ .start_operation => some .starting
    | .yield_value _ vs => some (.completing vs)
    | .return_value _ vs => some (.completing vs)
    | .return_void _ => some .ending
    | .unhandled_exception _ _ => some .failed
    | .ill_formed _ => some .rejected
    | _ => none
  | .starting =>
    match ev with
    | .operation_started _ => some .suspended
    | _ => none
  | .suspended =>
    match ev with
    | .resume _ => some .running
    | .frame_destroyed _ => some .freed
    | _ => none
  | .completing vs =>
    match ev with
    | .work_released _ => some (.released vs)
    | _ => none
  | .released vs =>
    match ev with
    | .pending_invoked _ .complete_yield => some (.taking vs)
    | .pending_invoked _ (.complete_return _) => some (.taking vs)
    | _ => none
  | .taking vs =>
    match ev with
    | .moved_out _ vs' => if vs' = vs then some (.moved vs) else none
    | _ => none
  | .moved vs =>
    match ev with
    | .frame_destroyed _ => some (.destroyed vs)
    | _ => none
  | .destroyed vs =>
    match ev with
    | .handler_invoked _ vs' => if vs' = vs then some (.done vs) else none
    | _ => none
  | .done _ => none
  | .ending =>
    match ev with
    | .frame_destroyed _ => some .freed
    | _ => none
  | .failed =>
    match ev with
    | .frame_destroyed _ => some .freed
    | _ => none
  | .rejected => none
  | .freed =>
    match ev with
    | .work_released _ => some .dead
    | _ => none
  | .dead => none

/-- The phase of record `rid` after one more event of a trace; `none` once
an event of the record has come in a phase in which it cannot occur. -/
def phase_after (rid : Nat) (ph : Option Phase) (ev : Event) : Option Phase :=
  if ev.rid = rid then ph.bind (fun q => q.step ev) else ph

/-- The phase of record `rid` after a trace. -/
def phase_of (rid : Nat) (t : List Event) : Option Phase :=
  t.foldl (phase_after rid) (some .fresh)

/-- Every record of the trace went through its life in order. -/
def Orderly (t : List Event) : Prop :=
  ∀ rid, (phase_of rid t).isSome = true

/-- The bridges of a chain of final continuations belong to records that
wait to be resumed, each older than the one before and than `bound`. -/
def Waiting (t : List Event) : Nat → Handler → Prop
  | _, .final => True
  | bound, .bridge p h =>
    p.rid < bound ∧ phase_of p.rid t = some .suspended ∧ Waiting t p.rid h

/-- No driver on the stack has been handed back its record by
`unhandled_exception`. -/
def Stack.quiet (s : Stack) : Prop :=
  ∀ a ∈ s, a.promise.owner_p_ = false

/-- What holds when a step of record `p` is in progress: the trace is in
order, the record is running and holds its liveness token, the records that
wait for it are older and suspended, the names from `next_id` on are
unused, and no driver on the stack was handed back its record. -/
structure Ready (p : co_composed_promise) (h : Handler) (s : Stack) (w : World) : Prop where
  orderly : Orderly w.trace
  running : phase_of p.rid w.trace = some .running
  work : p.state_.work_ = true
  owner_p : p.owner_p_ = false
  below : p.rid < w.next_id
  unused : ∀ r, w.next_id ≤ r → phase_of r w.trace = some .fresh
  waiting : Waiting w.trace p.rid h
  quiet : Stack.quiet s

/-- What holds at the end of the run of record `rid` started in world `w`:
the trace is in order, and when the record has completed the older records
are where they were. -/
def Settled (rid : Nat) (w : World) (result : World × Outcome) : Prop :=
  Orderly result.1.trace ∧
    ∀ args s, result.2 = .completed args s →
      Stack.quiet s ∧ w.next_id ≤ result.1.next_id ∧
        (∀ r, result.1.next_id ≤ r → phase_of r result.1.trace = some .fresh) ∧
        ∀ r, r < rid → phase_of r result.1.trace = phase_of r w.trace

/-- The events of record `rid` in a trace, in order, those of drivers
leaving left out. -/
def life (rid : Nat) (t : List Event) : List Event :=
  t.filter (fun ev => ev.rid = rid && !ev.is_driver_exit)

/-- The events of `n` steps of record `rid` that each end in an await: the
driver fires the pending continuation, the sub-operation is started, and
later a bridge resumes the record. -/
def steps (rid : Nat) : Nat → List Event
  | 0 => []
  | n + 1 =>
    steps rid n ++
      [.pending_invoked rid .start_operation, .operation_started rid, .resume rid]

/-- The event is the completion of the body of record `rid` with payload `vs`. -/
def Event.completes (rid : Nat) (vs : List Val) (ev : Event) : Prop :=
  ev = .yield_value rid vs ∨ ev = .return_value rid vs

/-- The pending continuation is one of those that complete the operation. -/
def Pending.completes (fn : Pending) : Prop :=
  fn = .complete_yield ∨ ∃ i, fn = .complete_return i

/-- The events of a record that has reached the phase, for the phases on
the way to completion. -/
def Phase.life_is (rid : Nat) : Phase → List Event → Prop
  | .fresh, l => l = []
  | .running, l => ∃ n, l = .frame_allocated rid :: steps rid n
  | .starting, l =>
    ∃ n, l = .frame_allocated rid :: (steps rid n ++ [.pending_invoked rid .start_operation])
  | .suspended, l =>
    ∃ n, l = .frame_allocated rid ::
      (steps rid n ++ [.pending_invoked rid .start_operation, .operation_started rid])
  | .completing vs, l =>
    ∃ n ev, ev.completes rid vs ∧ l = .frame_allocated rid :: (steps rid n ++ [ev])
  | .released vs, l =>
    ∃ n ev, ev.completes rid vs ∧
      l = .frame_allocated rid :: (steps rid n ++ [ev, .work_released rid])
  | .taking vs, l =>
    ∃ n ev fn, ev.completes rid vs ∧ fn.completes ∧
      l = .frame_allocated rid ::
        (steps rid n ++ [ev, .work_released rid, .pending_invoked rid fn])
  | .moved vs, l =>
    ∃ n ev fn, ev.completes rid vs ∧ fn.completes ∧
      l = .frame_allocated rid ::
        (steps rid n ++ [ev, .work_released rid, .pending_invoked rid fn, .moved_out rid vs])
  | .destroyed vs, l =>
    ∃ n ev fn, ev.completes rid vs ∧ fn.completes ∧
      l = .frame_allocated rid ::
        (steps rid n ++ [ev, .work_released rid, .pending_invoked rid fn, .moved_out rid vs,
          .frame_destroyed rid])
  | .done vs, l =>
    ∃ n ev fn, ev.completes rid vs ∧ fn.completes ∧
      l = .frame_allocated rid ::
        (steps rid n ++ [ev, .work_released rid, .pending_invoked rid fn, .moved_out rid vs,
          .frame_destroyed rid, .handler_invoked rid vs])
  | _, _ => True

/-- The phases in which the step of the record is over or its pending
continuation has been fired: until the record is resumed no driver fires a
pending continuation of it. -/
def Phase.waits : Phase → Bool
  | .starting => true
  | .suspended => true
  | .taking _ => true
  | .moved _ => true
  | .destroyed _ => true
  | .done _ => true
  | .ending => true
  | .failed => true
  | .rejected => true
  | .freed => true
  | .dead => true
  | _ => false

/-- The phases of a record whose body ended without completing: the body
returned, or an exception left it, and the frame may be gone. -/
def Phase.over : Phase → Bool
  | .ending => true
  | .failed => true
  | .rejected => true
  | .freed => true
  | .dead => true
  | _ => false

/-- The phases of a record whose frame has been destroyed. -/
def Phase.frame_gone : Phase → Bool
  | .destroyed _ => true
  | .done _ => true
  | .freed => true
  | .dead => true
  | _ => false

/-! ## The bodies of the unit tests -/

/-- The operation `asio::post(ctx, asio::deferred)`: signature `void()`,
completes later with no values. -/
def post : Op := .deferred 0 (.plain [])

/-- What follows an await whose result is not used and whose failure is not
handled: the body goes on as `next`, or the exception leaves the body. -/
def and_then (next : Body) : Except Exc Unwrapped → Body
  | .ok _ => next
  | .error e => .raise e

/-- The body of `throw_first`: `throw 42; co_yield state.complete();`. -/
def throw_first : Body := .raise (.thrown 42)

/-- The body of `throw_after_await`:
`co_await asio::post(ctx, asio::deferred); throw 42; co_yield state.complete();`. -/
def throw_after_await : Body := .co_await post (and_then (.raise (.thrown 42)))

/-- The operation `async_throw(asio::deferred)`: its initiation is `throw 42;`. -/
def async_throw : Op := .raises (.thrown 42)

/-- The body of `throw_in_first_suspend`:
`co_await async_throw(asio::deferred); co_yield state.complete();`. -/
def throw_in_first_suspend : Body :=
  .co_await async_throw (and_then (.co_yield [] .co_return_void))

/-- The body of `throw_in_suspend_after_await`:
`co_await asio::post(ctx, asio::deferred); co_await async_throw(asio::deferred);
co_yield state.complete();`. -/
def throw_in_suspend_after_await : Body :=
  .co_await post (and_then throw_in_first_suspend)

/-- The loop `for (; i < n; ++i) co_await asio::post(ctx, asio::deferred);`
followed by `co_yield state.complete(i);`, with `todo` iterations left and
the counter at `i`. -/
def post_loop_from : Nat → Int → Body
  | 0, i => .co_yield [.int i] .co_return_void
  | todo + 1, i => .co_await post (and_then (post_loop_from todo (i + 1)))

/-- The body of `post_loop` with the bound `n` in place of `100`:
`int i = 0; for (; i < n; ++i) co_await ...; co_yield state.complete(i);`.
The counter never exceeds the bound, so for every bound an `int` can hold
the unbounded integers used here agree with `int`. -/
def post_loop (n : Nat) : Body := post_loop_from n 0

/-- The body of `nested_post`:
`co_await asio::post(ctx, asio::deferred); co_yield state.complete();`. -/
def nested_post : Body := .co_await post (and_then (.co_yield [] .co_return_void))

/-- The loop of `nested_post_loop`, with `todo` iterations left and the
counter at `i`: each iteration awaits the composed operation `nested_post`. -/
def nested_post_loop_from : Nat → Int → Body
  | 0, i => .co_yield [.int i] .co_return_void
  | todo + 1, i =>
    .co_await_composed .void nested_post (and_then (nested_post_loop_from todo (i + 1)))

/-- The body of `nested_post_loop` with the bound `n` in place of `100`. -/
def nested_post_loop (n : Nat) : Body := nested_post_loop_from n 0

/-- The loop of the `post_loop_return_*` tests followed by `co_return {i, extra...}`. -/
def post_loop_return_from (extra : List Val) : Nat → Int → Body
  | 0, i => .co_return (.int i :: extra)
  | todo + 1, i => .co_await post (and_then (post_loop_return_from extra todo (i + 1)))

/-- The body of `post_loop_return_2` (and of `post_loop_return_1_1`) with the
bound `n` in place of `100`: the loop, then `co_return {i};`. -/
def post_loop_return (n : Nat) : Body := post_loop_return_from [] n 0

/-! ## The completion bridge -/

/-- C4: for every argument list of a plain completion shape, the bridge
stores the arguments as they are and `on_resume` on the stored tuple never
raises and returns them unchanged and in order: nothing for no value, the
bare value for one value, the whole tuple for two or more. -/
theorem C4_plain_on_resume (args : List Val) :
    co_composed_handler_plain.store args = args ∧
    co_composed_handler_plain.on_resume (co_composed_handler_plain.store args)
      = .ok (unwrap args) ∧
    await_resume (co_composed_handler_store (.plain args)) = .ok (unwrap args) ∧
    unwrap [] = .nothing ∧
    (∀ v, unwrap [v] = .single v) ∧
    (∀ v1 v2 vs, unwrap (v1 :: v2 :: vs) = .tuple (v1 :: v2 :: vs)) := by
  refine ⟨rfl, rfl, rfl, rfl, fun _ => rfl, fun _ _ _ => rfl⟩

/-- C2: for every stored result `(ec, values)` of an error-led
sub-operation, `on_resume` raises the failure carrying exactly `ec` when
`ec` is non-empty (so it raises if and only if `ec` is non-empty, and no
value is produced then), and otherwise returns the values unchanged,
unwrapped as nothing, the single value or the tuple. -/
theorem C2_error_led_on_resume (ec : error_code) (values : List Val) :
    co_composed_handler_error.on_resume (co_composed_handler_error.store ec values)
      = (if ec.value ≠ 0 then .error (.system_error ec .unspecified)
          else .ok (unwrap values)) ∧
    ((∃ e, co_composed_handler_error.on_resume (co_composed_handler_error.store ec values)
        = .error e) ↔ ec.value ≠ 0) ∧
    await_resume (co_composed_handler_store (.error_led ec values))
      = co_composed_handler_error.on_resume (co_composed_handler_error.store ec values) ∧
    unwrap [] = .nothing ∧
    (∀ v, unwrap [v] = .single v) ∧
    (∀ v1 v2 vs, unwrap (v1 :: v2 :: vs) = .tuple (v1 :: v2 :: vs)) := by
  have key : co_composed_handler_error.on_resume (co_composed_handler_error.store ec values)
      = (if ec.value ≠ 0 then .error (.system_error ec .unspecified)
          else .ok (unwrap values)) := by
    unfold co_composed_handler_error.on_resume co_composed_handler_error.store throw_error
    by_cases h : ec.value = 0 <;> simp [h]
  refine ⟨key, ?_, rfl, rfl, fun _ => rfl, fun _ _ _ => rfl⟩
  rw [key]
  by_cases h : ec.value = 0 <;> simp [h]

/-- C3: for every stored result `(ex, values)` of an exception-led
sub-operation, `on_resume` re-raises exactly the stored exception when `ex`
is non-null (so it raises if and only if `ex` is non-null), and otherwise
returns the values unchanged, unwrapped as nothing, the single value or the
tuple. -/
theorem C3_exception_led_on_resume (ex : Option Exc) (values : List Val) :
    co_composed_handler_exception.on_resume (co_composed_handler_exception.store ex values)
      = (match ex with
          | some e => .error e
          | none => .ok (unwrap values)) ∧
    ((∃ e, co_composed_handler_exception.on_resume
        (co_composed_handler_exception.store ex values) = .error e) ↔ ex ≠ none) ∧
    await_resume (co_composed_handler_store (.exception_led ex values))
      = co_composed_handler_exception.on_resume
          (co_composed_handler_exception.store ex values) ∧
    unwrap [] = .nothing ∧
    (∀ v, unwrap [v] = .single v) ∧
    (∀ v1 v2 vs, unwrap (v1 :: v2 :: vs) = .tuple (v1 :: v2 :: vs)) := by
  refine ⟨?_, ?_, rfl, rfl, fun _ => rfl, fun _ _ _ => rfl⟩
  · cases ex <;> rfl
  · cases ex <;>
      simp [co_composed_handler_exception.on_resume, co_composed_handler_exception.store]

/-! ## Cancellation bookkeeping -/

/-- C10: on a composition state whose continuation has a cancellation slot,
`check_for_cancellation()` raises the Cancelled failure (`operation_aborted`)
exactly when the flag `throw_if_cancelled` is set and `cancelled()` is not
`none`, and returns normally otherwise (it is a query: the state is not
changed); the flag is false on a fresh state, and the setter followed by the
getter returns the value set. -/
theorem C10_check_for_cancellation (cs : cancellation_state) (flag b : Bool) :
    (co_composed_state_cancellation.slot cs flag).check_for_cancellation
      = (if flag = true ∧ (co_composed_state_cancellation.slot cs flag).cancelled ≠ 0
          then .error (.system_error operation_aborted .co_await) else .ok ()) ∧
    ((∃ e, (co_composed_state_cancellation.slot cs flag).check_for_cancellation = .error e)
      ↔ (flag = true ∧ (co_composed_state_cancellation.slot cs flag).cancelled ≠ 0)) ∧
    (co_composed_state_cancellation.init true).throw_if_cancelled = false ∧
    ((co_composed_state_cancellation.slot cs flag).set_throw_if_cancelled b).throw_if_cancelled
      = b := by
  have key : (co_composed_state_cancellation.slot cs flag).check_for_cancellation
      = (if flag = true ∧ (co_composed_state_cancellation.slot cs flag).cancelled ≠ 0
          then .error (.system_error operation_aborted .co_await) else .ok ()) := by
    simp only [co_composed_state_cancellation.check_for_cancellation,
      co_composed_state_cancellation.cancelled, throw_error_at, operation_aborted]
    by_cases h1 : flag = true <;> by_cases h2 : cs.cancelled_ = 0 <;> simp [h1, h2]
  refine ⟨key, ?_, rfl, rfl⟩
  rw [key]
  simp only [co_composed_state_cancellation.cancelled]
  by_cases h1 : flag = true <;> by_cases h2 : cs.cancelled_ = 0 <;> simp [h1, h2]

/-! ## Runs of the outermost record -/

/-- While `throw_if_cancelled` is not set, the cancellation check of an await
passes. -/
theorem await_transform_of_flag (p : co_composed_promise)
    (hq : p.state_.cancellation.throw_if_cancelled = false) :
    p.await_transform = .ok () := by
  unfold co_composed_promise.await_transform
  cases hc : p.state_.cancellation with
  | unspecialised => rfl
  | slot cs b =>
    rw [hc] at hq
    simp [co_composed_state_cancellation.throw_if_cancelled] at hq
    subst hq
    simp [co_composed_state_cancellation.check_for_cancellation]

/-- One await of an operation that completes later, run by the driver that
follows `m` earlier awaits with no driver below it: four events, then the body
goes on in a resume call. -/
theorem run_await_deferred (m : Nat) (ct : Nat) (c : Completion)
    (k : Except Exc Unwrapped → Body)
    (p : co_composed_promise) (h : Handler) (w : World)
    (hq : p.state_.cancellation.throw_if_cancelled = false) (ho : p.owner_p_ = false) :
    run (driver_after m) (.co_await (.deferred ct c) k) p h [] w
      = run .resume (k (await_resume (co_composed_handler_store c)))
          ((p.await_suspend.emit_cancel ct).resume (co_composed_handler_store c)) h []
          ⟨w.trace ++ [.pending_invoked p.rid .start_operation, .operation_started p.rid,
            if m = 0 then .initiate_returned p.rid else .resume_returned p.rid,
            .resume p.rid], w.next_id⟩ := by
  rw [run, await_transform_of_flag p hq]
  by_cases hm : m = 0 <;>
  simp [driver_after, hm, co_composed_promise.await_suspend, co_composed_promise.arm,
    Stack.ret, Activation.leave, ho,
    co_composed_handler_base_dtor, co_composed_handler_base_resume, World.emit,
    co_composed_promise.resume, co_composed_promise.emit_cancel]

/-- A cancellation request and the clearing of the slot leave the flag as it
is. -/
theorem flag_emit (ct : Nat) (s : co_composed_state_cancellation) :
    ((s.emit ct).clear_cancellation_slot).throw_if_cancelled = s.throw_if_cancelled := by
  cases s <;> rfl

/-- An await leaves the carried fields of the promise unchanged. -/
theorem carried_after_await (p : co_composed_promise) (ct : Nat) (st : Stored) :
    Carried p ((p.await_suspend.emit_cancel ct).resume st) := by
  constructor <;> try rfl
  exact flag_emit ct p.state_.cancellation

/-- The relation `Carried` is transitive. -/
theorem Carried.carried_trans {p q r : co_composed_promise} (h1 : Carried p q) (h2 : Carried q r) :
    Carried p r :=
  ⟨h2.rid.trans h1.rid, h2.return_type.trans h1.return_type, h2.work.trans h1.work,
    h2.handler.trans h1.handler, h2.flag.trans h1.flag, h2.return_value.trans h1.return_value⟩

/-- The relation `Carried` is reflexive. -/
theorem Carried.carried_refl (p : co_composed_promise) : Carried p p := ⟨rfl, rfl, rfl, rfl, rfl, rfl⟩

/-- The run of a body through `n` successful awaits, for the outermost record:
the events are those of `await_trace` and the promise keeps its carried
fields. -/
theorem run_awaits {n : Nat} {body rest : Body} (ha : Awaits n body rest) :
    ∀ (m : Nat) (p : co_composed_promise) (h : Handler) (pre : List Event) (nid : Nat),
      p.rid = 0 → p.state_.cancellation.throw_if_cancelled = false → p.owner_p_ = false →
      (0 < m → p.owner_ = true) →
      ∃ p', Carried p p' ∧ p'.owner_p_ = false ∧ (0 < m + n → p'.owner_ = true) ∧
        run (driver_after m) body p h [] ⟨pre ++ await_trace m, nid⟩
          = run (driver_after (m + n)) rest p' h [] ⟨pre ++ await_trace (m + n), nid⟩ := by
  induction ha with
  | done rest =>
    intro m p h pre nid _ _ ho hm
    exact ⟨p, Carried.carried_refl p, ho, hm, rfl⟩
  | step ct c k u n rest hu _ ih =>
    intro m p h pre nid hr hq ho _
    have hc := carried_after_await p ct (co_composed_handler_store c)
    obtain ⟨p', hc', ho', hown', hrun⟩ :=
      ih (m + 1) ((p.await_suspend.emit_cancel ct).resume (co_composed_handler_store c)) h
        pre nid (hc.rid.trans hr) (hc.flag.trans hq) rfl (fun _ => rfl)
    refine ⟨p', hc.carried_trans hc', ho', ?_, ?_⟩
    · intro _
      exact hown' (by omega)
    · rw [run_await_deferred m ct c k p h _ hq ho, hu]
      have e1 : driver_after (m + 1) = .resume := by simp [driver_after]
      rw [e1] at hrun
      have e2 : m + (n + 1) = m + 1 + n := by omega
      rw [e2, ← hrun]
      simp [await_trace, hr]

/-- The calls of the final continuation in a concatenation. -/
theorem invocations_append (rid : Nat) (t1 t2 : List Event) :
    invocations rid (t1 ++ t2) = invocations rid t1 ++ invocations rid t2 := by
  simp [invocations, List.filterMap_append]

/-- No call of the final continuation happens during the awaits. -/
theorem invocations_await_trace (n : Nat) : invocations 0 (await_trace n) = [] := by
  induction n with
  | zero => rfl
  | succ n ih =>
    rw [await_trace, invocations_append, ih]
    by_cases h : n = 0 <;> simp [invocations, h]

/-- The record is resumed once per await. -/
theorem resumes_await_trace (n : Nat) : resumes 0 (await_trace n) = n := by
  induction n with
  | zero => rfl
  | succ n ih =>
    unfold resumes at ih ⊢
    rw [await_trace, List.count_append, ih]
    by_cases h : n = 0 <;> simp [h, List.count_cons]

/-- No exception leaves the initiating call during the awaits. -/
theorem initiate_raised_not_mem_await_trace (n : Nat) (e : Exc) :
    Event.initiate_raised 0 e ∉ await_trace n := by
  induction n with
  | zero => simp [await_trace]
  | succ n ih =>
    rw [await_trace]
    by_cases h : n = 0
    · subst h
      simp [await_trace]
    · simp [h, ih]

/-- The run of a body at the point where it lets an exception escape: from the
initiating call nothing is destroyed, from a resume call the bridge destroys
the frame. -/
theorem run_raise (m : Nat) (e : Exc) (p : co_composed_promise) (pre : List Event) (nid : Nat)
    (hr : p.rid = 0) (hw : p.state_.work_ = true) (hown : 0 < m → p.owner_ = true) :
    run (driver_after m) (.raise e) p .final [] ⟨pre, nid⟩
      = (⟨pre ++ .unhandled_exception 0 e ::
            (if m = 0 then [.initiate_raised 0 e]
              else [.resume_raised 0 e, .frame_destroyed 0, .work_released 0]), nid⟩,
          .halted) := by
  rw [run]
  by_cases hm : m = 0
  · simp [driver_after, hm, Stack.unwind, Activation.unwind, World.emit, hr,
      co_composed_promise.unhandled_exception]
    split <;> simp [hr]
  · have ho := hown (Nat.pos_of_ne_zero hm)
    simp [driver_after, hm, Stack.unwind, Activation.unwind, World.emit, hr,
      co_composed_promise.unhandled_exception, ho, co_composed_handler_base_dtor,
      co_composed_promise.destroy, release_work, hw]

/-- The run of a body at `co_yield state.complete(vs...)`. -/
theorem run_yield (d : Driver) (vs : List Val) (rest : Body) (p : co_composed_promise)
    (s : Stack) (pre : List Event) (nid : Nat)
    (hr : p.rid = 0) (hw : p.state_.work_ = true) (ho : p.owner_p_ = false) :
    ∃ p', p'.owner_p_ = false ∧ p'.rid = 0 ∧
    run d (.co_yield vs rest) p .final s ⟨pre, nid⟩
      = (⟨pre ++ [.yield_value 0 vs, .work_released 0, .pending_invoked 0 .complete_yield,
            .moved_out 0 vs, .frame_destroyed 0, .handler_invoked 0 vs], nid⟩,
          .completed vs (⟨d, p', .final⟩ :: s)) := by
  refine ⟨p.yield_await_suspend.move_handler, ho, hr, ?_⟩
  rw [run]
  simp [co_composed_promise.yield_await_suspend, co_composed_promise.work_reset,
    co_composed_promise.arm, release_work, hw, World.emit, hr, complete,
    co_composed_promise.move_handler, co_composed_handler_base_dtor,
    co_composed_promise.destroy]

/-- A declared signature is found by overload resolution. -/
theorem find_overload_of_mem (types : List Ty) (signatures : List (List Ty))
    (h : types ∈ signatures) :
    ∃ i, find_overload types signatures = some i ∧ signatures.get? i = some types := by
  induction signatures with
  | nil => simp at h
  | cons s rest ih =>
    by_cases hs : s = types
    · exact ⟨0, by simp [find_overload, hs], by simp [hs]⟩
    · have hm : types ∈ rest := by
        rcases List.mem_cons.mp h with h1 | h1
        · exact absurd h1.symm hs
        · exact h1
      obtain ⟨i, h1, h2⟩ := ih hm
      exact ⟨i + 1, by simp [find_overload, hs, h1], by simpa using h2⟩

/-- The run of a body at `co_return {vs...}` when overload `i` is selected. -/
theorem run_return (m : Nat) (vs : List Val) (signatures : List (List Ty)) (i : Nat)
    (p : co_composed_promise) (pre : List Event) (nid : Nat)
    (hr : p.rid = 0) (hw : p.state_.work_ = true) (ho : p.owner_p_ = false)
    (ht : p.return_type = .co_returns signatures)
    (hi : find_overload (vs.map Val.ty) signatures = some i) :
    ∃ p', p'.owner_p_ = false ∧ p'.rid = 0 ∧
    run (driver_after m) (.co_return vs) p .final [] ⟨pre, nid⟩
      = (⟨pre ++ [.return_value 0 vs, .work_released 0,
            .pending_invoked 0 (.complete_return i),
            .moved_out 0 vs, .frame_destroyed 0, .handler_invoked 0 vs], nid⟩,
          .completed vs [⟨driver_after m, p', .final⟩]) := by
  refine ⟨(p.return_value i vs).move_handler, ho, hr, ?_⟩
  rw [run]
  simp [co_composed_promise.return_overload, ht, hi, co_composed_promise.return_value,
    co_composed_promise.work_reset, co_composed_promise.arm,
    co_composed_promise.get_return_value, release_work, hw, World.emit, hr, complete,
    co_composed_promise.move_handler, co_composed_handler_base_dtor,
    co_composed_promise.destroy]

/-- The trace of a whole run, after the promise is constructed. -/
theorem trace_of_eq (return_type : Return) (has_slot : Bool) (body : Body) :
    trace_of return_type has_slot body
      = (match run (driver_after 0) body (co_composed_promise.ctor 0 return_type has_slot)
            .final [] ⟨[Event.frame_allocated 0] ++ await_trace 0, 1⟩ with
          | (w1, .halted) => w1
          | (w1, .completed _ s) => Stack.ret s w1).trace := rfl

/-- A fresh promise has the flag `throw_if_cancelled` unset. -/
theorem ctor_flag (rid : Nat) (return_type : Return) (has_slot : Bool) :
    (co_composed_promise.ctor rid return_type has_slot).state_.cancellation.throw_if_cancelled
      = false := by
  cases has_slot <;> rfl

/-- Calls on the composition state do not suspend the body. -/
theorem run_reaches {body rest : Body} (hr : Reaches body rest) :
    ∀ (d : Driver) (p : co_composed_promise) (h : Handler) (s : Stack) (w : World),
      ∃ p', p'.rid = p.rid ∧ p'.state_.work_ = p.state_.work_ ∧ p'.owner_ = p.owner_ ∧
        run d body p h s w = run d rest p' h s w := by
  induction hr with
  | here rest => intro d p h s w; exact ⟨p, rfl, rfl, rfl, rfl⟩
  | throw_if_cancelled b body rest _ ih =>
    intro d p h s w
    obtain ⟨p', h1, h2, h3, h4⟩ := ih d (p.set_throw_if_cancelled b) h s w
    exact ⟨p', h1, h2, h3, by rw [run, h4]⟩
  | reset_cancellation_state body rest _ ih =>
    intro d p h s w
    obtain ⟨p', h1, h2, h3, h4⟩ := ih d p.reset_cancellation_state h s w
    exact ⟨p', h1, h2, h3, by rw [run, h4]⟩

/-- The whole trace when the body raises before its first suspend point. -/
theorem trace_of_reaches_raise (return_type : Return) (has_slot : Bool) (body : Body) (e : Exc)
    (h : Reaches body (.raise e)) :
    trace_of return_type has_slot body
      = [.frame_allocated 0, .unhandled_exception 0 e, .initiate_raised 0 e] := by
  obtain ⟨p', h1, h2, _, h4⟩ := run_reaches h (driver_after 0)
    (co_composed_promise.ctor 0 return_type has_slot) .final []
    ⟨[.frame_allocated 0] ++ await_trace 0, 1⟩
  rw [trace_of_eq, h4, run_raise 0 e p' _ 1 (h1.trans rfl) (h2.trans rfl) (by simp)]
  simp [await_trace]

/-- The whole trace when the body raises after `n` successful awaits. -/
theorem trace_of_awaits_raise (return_type : Return) (has_slot : Bool) (n : Nat) (body : Body)
    (e : Exc) (h : Awaits n body (.raise e)) :
    trace_of return_type has_slot body
      = .frame_allocated 0 :: (await_trace n ++ .unhandled_exception 0 e ::
          (if n = 0 then [.initiate_raised 0 e]
            else [.resume_raised 0 e, .frame_destroyed 0, .work_released 0])) := by
  obtain ⟨p', hc, _, hown, hrun⟩ := run_awaits h 0 (co_composed_promise.ctor 0 return_type has_slot)
    .final [.frame_allocated 0] 1 rfl (ctor_flag _ _ _) rfl (by simp)
  rw [trace_of_eq, hrun, Nat.zero_add,
    run_raise n e p' _ 1 (hc.rid.trans rfl) (hc.work.trans rfl) (by simpa using hown)]
  simp

/-- The whole trace when the body yields a completion after `n` successful
awaits. -/
theorem trace_of_awaits_yield (return_type : Return) (has_slot : Bool) (n : Nat)
    (body rest : Body) (vs : List Val) (ha : Awaits n body (.co_yield vs rest)) :
    trace_of return_type has_slot body
      = .frame_allocated 0 :: (await_trace n ++
          .yield_value 0 vs :: completion_trace .complete_yield vs n) := by
  obtain ⟨p', hcar, ho, _, hrun⟩ := run_awaits ha 0
    (co_composed_promise.ctor 0 return_type has_slot) .final [.frame_allocated 0] 1 rfl
    (ctor_flag _ _ _) rfl (by simp)
  rw [Nat.zero_add] at hrun
  obtain ⟨q, hq1, hq2, hq⟩ := run_yield (driver_after n) vs rest p' []
    ([.frame_allocated 0] ++ await_trace n) 1 (hcar.rid.trans rfl) (hcar.work.trans rfl) ho
  rw [trace_of_eq, hrun, hq]
  by_cases hn : n = 0 <;>
    simp [Stack.ret, Activation.leave, driver_after, hn, hq1, hq2,
      co_composed_handler_base_dtor, World.emit, completion_trace]

/-- The whole trace when the body returns a tuple after `n` successful awaits.
-/
theorem trace_of_awaits_return (signatures : List (List Ty)) (value : List Val)
    (has_slot : Bool) (n : Nat) (body : Body) (i : Nat)
    (hi : find_overload (value.map Val.ty) signatures = some i)
    (ha : Awaits n body (.co_return value)) :
    trace_of (.co_returns signatures) has_slot body
      = .frame_allocated 0 :: (await_trace n ++
          .return_value 0 value :: completion_trace (.complete_return i) value n) := by
  obtain ⟨p', hcar, ho, _, hrun⟩ := run_awaits ha 0
    (co_composed_promise.ctor 0 (.co_returns signatures) has_slot) .final [.frame_allocated 0] 1
    rfl (ctor_flag _ _ _) rfl (by simp)
  rw [Nat.zero_add] at hrun
  obtain ⟨q, hq1, hq2, hq⟩ := run_return n value signatures i p'
    ([.frame_allocated 0] ++ await_trace n) 1
    (hcar.rid.trans rfl) (hcar.work.trans rfl) ho (hcar.return_type.trans rfl) hi
  rw [trace_of_eq, hrun, hq]
  by_cases hn : n = 0 <;>
    simp [Stack.ret, Activation.leave, driver_after, hn, hq1, hq2,
      co_composed_handler_base_dtor, World.emit, completion_trace]

/-- The whole trace when the body completes after `n` successful awaits. -/
theorem trace_of_awaits_completes (return_type : Return) (has_slot : Bool) (n : Nat)
    (body rest : Body) (vs : List Val) (ha : Awaits n body rest)
    (hc : Completes return_type vs rest) :
    ∃ ev fn, (ev = .yield_value 0 vs ∨ ev = .return_value 0 vs) ∧
      trace_of return_type has_slot body
        = .frame_allocated 0 :: (await_trace n ++ ev :: completion_trace fn vs n) := by
  cases hc with
  | by_yield rest' =>
    exact ⟨_, _, Or.inl rfl, trace_of_awaits_yield return_type has_slot n body rest' vs ha⟩
  | by_return signatures ht hv =>
    subst ht
    obtain ⟨i, hi, _⟩ := find_overload_of_mem _ _ hv
    exact ⟨_, _, Or.inr rfl, trace_of_awaits_return signatures vs has_slot n body i hi ha⟩

/-- The calls of the final continuation in the trace of a completing run. -/
theorem invocations_completion (n : Nat) (ev : Event) (fn : Pending) (vs : List Val)
    (hev : ev = .yield_value 0 vs ∨ ev = .return_value 0 vs) :
    invocations 0 (.frame_allocated 0 :: (await_trace n ++ ev :: completion_trace fn vs n))
      = [vs] := by
  have h1 : invocations 0 (ev :: completion_trace fn vs n) = [vs] := by
    rcases hev with h | h <;> subst h <;> by_cases hn : n = 0 <;>
      simp [invocations, completion_trace, hn]
  have h2 : ∀ t, invocations 0 (.frame_allocated 0 :: t) = invocations 0 t := by
    intro t; simp [invocations]
  rw [h2, invocations_append, invocations_await_trace, h1]
  rfl

/-! ## Nested composed operations -/

/-- Destroying a frame names no new record. -/
theorem destroy_next_id (p : co_composed_promise) (h : Handler) :
    ∀ (w : World), (p.destroy h w).next_id = w.next_id := by
  induction h generalizing p with
  | final => intro w; simp [co_composed_promise.destroy, release_work, World.emit]; split <;> rfl
  | bridge p' h' ih =>
    intro w
    simp only [co_composed_promise.destroy, release_work]
    split <;> split <;> simp [World.emit, ih]

/-- The calls of the final continuation after one more event. -/
theorem invocations_emit (rid : Nat) (w : World) (ev : Event) :
    invocations rid (w.emit ev).trace = invocations rid w.trace ++ invocations rid [ev] := by
  simp [World.emit, invocations_append]

/-- Releasing the liveness token is not a call of the final continuation. -/
theorem invocations_release_work (rid : Nat) (p : co_composed_promise) (w : World) :
    invocations rid (release_work p w).trace = invocations rid w.trace := by
  unfold release_work
  split
  · rw [invocations_emit]; simp [invocations]
  · rfl

/-- Destroying a frame is not a call of the final continuation. -/
theorem invocations_destroy (rid : Nat) (p : co_composed_promise) (h : Handler) :
    ∀ (w : World), invocations rid (p.destroy h w).trace = invocations rid w.trace := by
  induction h generalizing p with
  | final =>
    intro w
    simp only [co_composed_promise.destroy]
    rw [invocations_release_work, invocations_emit]; simp [invocations]
  | bridge p' h' ih =>
    intro w
    simp only [co_composed_promise.destroy]
    rw [invocations_release_work]
    split
    · rw [ih, invocations_emit]; simp [invocations]
    · rw [invocations_emit]; simp [invocations]

/-- A driver returning is not a call of the final continuation. -/
theorem invocations_leave (rid : Nat) (a : Activation) (w : World) :
    invocations rid (a.leave w).trace = invocations rid w.trace := by
  unfold Activation.leave co_composed_handler_base_dtor
  split
  · rw [invocations_emit]; simp [invocations]
  · split
    · rw [invocations_destroy, invocations_emit]; simp [invocations]
    · rw [invocations_emit]; simp [invocations]

/-- A driver returning names no new record. -/
theorem leave_next_id (a : Activation) (w : World) : (a.leave w).next_id = w.next_id := by
  unfold Activation.leave co_composed_handler_base_dtor
  split
  · rfl
  · split
    · rw [destroy_next_id]; rfl
    · rfl

/-- The drivers on the stack returning is not a call of the final
continuation. -/
theorem invocations_stack_ret (rid : Nat) (s : Stack) :
    ∀ (w : World), invocations rid (Stack.ret s w).trace = invocations rid w.trace := by
  induction s with
  | nil => intro w; rfl
  | cons a s ih => intro w; rw [Stack.ret, ih, invocations_leave]

/-- The drivers on the stack returning names no new record. -/
theorem stack_ret_next_id (s : Stack) :
    ∀ (w : World), (Stack.ret s w).next_id = w.next_id := by
  induction s with
  | nil => intro w; rfl
  | cons a s ih => intro w; rw [Stack.ret, ih, leave_next_id]

/-- After `await_suspend` the holder has the start of the operation. -/
theorem await_suspend_fn (p : co_composed_promise) :
    p.await_suspend.state_.on_suspend_.fn_ = some .start_operation := rfl

/-- After the `await_suspend` of a yield the holder has the completion. -/
theorem yield_await_suspend_fn (p : co_composed_promise) :
    p.yield_await_suspend.state_.on_suspend_.fn_ = some .complete_yield := rfl

/-- After `resume` the promise points to the stored result. -/
theorem resume_result (p : co_composed_promise) (st : Stored) :
    (p.resume st).result_ = some st := rfl

/-- An event names no new record. -/
theorem emit_next_id (w : World) (ev : Event) : (w.emit ev).next_id = w.next_id := rfl

/-- Clearing the slot leaves the flag as it is. -/
theorem flag_clear (s : co_composed_state_cancellation) :
    s.clear_cancellation_slot.throw_if_cancelled = s.throw_if_cancelled := by
  cases s <;> rfl

/-- The destructor of a bridge is not a call of the final continuation. -/
theorem invocations_dtor (rid : Nat) (b : Bool) (p : co_composed_promise) (h : Handler)
    (w : World) :
    invocations rid (co_composed_handler_base_dtor b p h w).trace = invocations rid w.trace := by
  unfold co_composed_handler_base_dtor
  split
  · exact invocations_destroy rid p h w
  · rfl

/-- The destructor of a bridge names no new record. -/
theorem dtor_next_id (b : Bool) (p : co_composed_promise) (h : Handler) (w : World) :
    (co_composed_handler_base_dtor b p h w).next_id = w.next_id := by
  unfold co_composed_handler_base_dtor
  split
  · exact destroy_next_id p h w
  · rfl

/-- Releasing the liveness token names no new record. -/
theorem release_work_next_id (p : co_composed_promise) (w : World) :
    (release_work p w).next_id = w.next_id := by
  unfold release_work
  split <;> rfl

/-- One await of the composed operation `nested_post` by the outermost record:
the inner record runs to its completion, calls the bridge, and the body goes
on; the outermost final continuation is not called meanwhile. -/
theorem run_await_nested_post (d : Driver) (k : Except Exc Unwrapped → Body)
    (p : co_composed_promise) (s : Stack) (w : World)
    (hr : p.rid = 0) (hq : p.state_.cancellation.throw_if_cancelled = false)
    (hn : 0 < w.next_id) :
    ∃ p' s' w',
      run d (.co_await_composed .void nested_post k) p .final s w
        = run .resume (k (.ok .nothing)) p' .final s' w' ∧
      Carried p p' ∧ p'.owner_p_ = false ∧
      invocations 0 w'.trace = invocations 0 w.trace ∧ 0 < w'.next_id := by
  have hne : ¬ w.next_id = 0 := by omega
  have hqi : ∀ n b, (co_composed_promise.ctor n .void b).await_transform = .ok () :=
    fun n b => await_transform_of_flag _ (ctor_flag _ _ _)
  rw [run, await_transform_of_flag p hq]
  simp only [await_suspend_fn, coroutine_new, nested_post, post]
  rw [run, hqi]
  simp only [await_suspend_fn, co_composed_handler_base_resume, resume_result]
  simp only [and_then, await_resume, co_composed_handler_store,
    co_composed_handler_plain.on_resume, co_composed_handler_plain.store, unwrap]
  rw [run]
  simp only [yield_await_suspend_fn, complete, resume_result]
  refine ⟨_, _, _, rfl, ?_, rfl, ?_, ?_⟩
  · constructor <;> try rfl
    exact flag_clear p.state_.cancellation
  · simp only [invocations_emit, invocations_dtor, invocations_release_work,
      invocations_stack_ret, invocations_leave, emit_next_id]
    simp [invocations, hr]
    exact hne
  · simp only [emit_next_id, dtor_next_id, release_work_next_id, stack_ret_next_id]
    omega

/-- The loop of `nested_post_loop` from any iteration on: it completes, with
one call of the final continuation whose argument is the final counter. -/
theorem run_nested_post_loop (todo : Nat) :
    ∀ (i : Int) (d : Driver) (p : co_composed_promise) (s : Stack) (w : World),
      p.rid = 0 → p.state_.cancellation.throw_if_cancelled = false → p.owner_p_ = false →
      p.state_.work_ = true → 0 < w.next_id →
      ∃ s' w', run d (nested_post_loop_from todo i) p .final s w
          = (w', .completed [.int (i + todo)] s') ∧
        invocations 0 w'.trace = invocations 0 w.trace ++ [[.int (i + todo)]] := by
  induction todo with
  | zero =>
    intro i d p s w hr _ ho hw _
    obtain ⟨p', _, _, hrun⟩ := run_yield d [.int i] .co_return_void p s w.trace w.next_id hr hw ho
    refine ⟨⟨d, p', .final⟩ :: s, ⟨w.trace ++ [.yield_value 0 [.int i], .work_released 0,
      .pending_invoked 0 .complete_yield, .moved_out 0 [.int i], .frame_destroyed 0,
      .handler_invoked 0 [.int i]], w.next_id⟩, ?_, ?_⟩
    · simpa [nested_post_loop_from] using hrun
    · simp [invocations_append, invocations]
  | succ todo ih =>
    intro i d p s w hr hq ho hw hn
    obtain ⟨p', s', w', hrun, hc, ho', hinv, hn'⟩ :=
      run_await_nested_post d (and_then (nested_post_loop_from todo (i + 1))) p s w hr hq hn
    obtain ⟨s'', w'', hrun', hinv'⟩ := ih (i + 1) .resume p' s' w' (hc.rid.trans hr)
      (hc.flag.trans hq) ho' (hc.work.trans hw) hn'
    refine ⟨s'', w'', ?_, ?_⟩
    · rw [nested_post_loop_from, hrun]
      simp only [and_then]
      rw [hrun']
      have e : i + 1 + (todo : Int) = i + ((todo + 1 : Nat) : Int) := by push_cast; ring
      rw [e]
    · rw [hinv', hinv]
      have e : i + 1 + (todo : Int) = i + ((todo + 1 : Nat) : Int) := by push_cast; ring
      rw [e]

/-- The loop of `post_loop` performs as many successful awaits as iterations
are left and then yields the final counter. -/
theorem awaits_post_loop_from (todo : Nat) :
    ∀ (i : Int), Awaits todo (post_loop_from todo i) (.co_yield [.int (i + todo)] .co_return_void) := by
  induction todo with
  | zero => intro i; simpa [post_loop_from] using Awaits.done _
  | succ todo ih =>
    intro i
    have h := ih (i + 1)
    have e : i + 1 + (todo : Int) = i + ((todo + 1 : Nat) : Int) := by push_cast; ring
    rw [e] at h
    exact Awaits.step 0 (.plain []) _ .nothing todo _ rfl h

/-- The loop of the `post_loop_return` tests performs as many successful
awaits as iterations are left and then returns the final counter. -/
theorem awaits_post_loop_return_from (extra : List Val) (todo : Nat) :
    ∀ (i : Int), Awaits todo (post_loop_return_from extra todo i)
      (.co_return (.int (i + todo) :: extra)) := by
  induction todo with
  | zero => intro i; simpa [post_loop_return_from] using Awaits.done _
  | succ todo ih =>
    intro i
    have h := ih (i + 1)
    have e : i + 1 + (todo : Int) = i + ((todo + 1 : Nat) : Int) := by push_cast; ring
    rw [e] at h
    exact Awaits.step 0 (.plain []) _ .nothing todo _ rfl h

/-- A body that completes after `n` successful awaits has its final
continuation called exactly once, with the payload. -/
theorem invocations_awaits_completes (return_type : Return) (has_slot : Bool)
    (n : Nat) (body rest : Body) (vs : List Val)
    (ha : Awaits n body rest) (hc : Completes return_type vs rest) :
    invocations 0 (trace_of return_type has_slot body) = [vs] := by
  obtain ⟨ev, fn, hev, ht⟩ := trace_of_awaits_completes return_type has_slot n body rest vs ha hc
  rw [ht]
  exact invocations_completion n ev fn vs hev

/-! ## The balance of completions and calls, for every body -/

/-- Nothing happening is a cleanup. -/
theorem Cleanup.cleanup_refl (w : World) : Cleanup w w := ⟨rfl, [], by simp, by simp⟩

/-- Cleanups compose. -/
theorem Cleanup.cleanup_trans {w1 w2 w3 : World} (h1 : Cleanup w1 w2) (h2 : Cleanup w2 w3) :
    Cleanup w1 w3 := by
  obtain ⟨n1, e1, t1, c1⟩ := h1
  obtain ⟨n2, e2, t2, c2⟩ := h2
  refine ⟨n2.trans n1, e1 ++ e2, by rw [t2, t1, List.append_assoc], ?_⟩
  intro ev hev
  rcases List.mem_append.mp hev with h | h
  · exact c1 ev h
  · exact c2 ev h

/-- One event of returning, unwinding or destruction is a cleanup. -/
theorem Cleanup.cleanup_emit (w : World) (ev : Event) (h : Event.is_cleanup ev = true) :
    Cleanup w (w.emit ev) :=
  ⟨rfl, [ev], rfl, by simpa using h⟩

/-- Releasing the liveness token is a cleanup. -/
theorem cleanup_release_work (p : co_composed_promise) (w : World) :
    Cleanup w (release_work p w) := by
  unfold release_work
  split
  · exact Cleanup.cleanup_emit w _ (by rfl)
  · exact Cleanup.cleanup_refl w

/-- Destroying a frame, and the frames its final continuation owns, is a
cleanup. -/
theorem cleanup_destroy (p : co_composed_promise) (h : Handler) :
    ∀ (w : World), Cleanup w (p.destroy h w) := by
  induction h generalizing p with
  | final =>
    intro w
    exact (Cleanup.cleanup_emit w _ (by rfl)).cleanup_trans (cleanup_release_work p _)
  | bridge p' h' ih =>
    intro w
    simp only [co_composed_promise.destroy]
    refine Cleanup.cleanup_trans ?_ (cleanup_release_work p _)
    split
    · exact (Cleanup.cleanup_emit w _ (by rfl)).cleanup_trans (ih p' _)
    · exact Cleanup.cleanup_emit w _ (by rfl)

/-- The destructor of a bridge is a cleanup. -/
theorem cleanup_dtor (b : Bool) (p : co_composed_promise) (h : Handler) (w : World) :
    Cleanup w (co_composed_handler_base_dtor b p h w) := by
  unfold co_composed_handler_base_dtor
  split
  · exact cleanup_destroy p h w
  · exact Cleanup.cleanup_refl w

/-- A driver returning is a cleanup. -/
theorem cleanup_leave (a : Activation) (w : World) : Cleanup w (a.leave w) := by
  unfold Activation.leave
  split
  · exact Cleanup.cleanup_emit w _ (by rfl)
  · exact (Cleanup.cleanup_emit w _ (by rfl)).cleanup_trans (cleanup_dtor _ _ _ _)

/-- An exception leaving a driver is a cleanup. -/
theorem cleanup_unwind (a : Activation) (e : Exc) (w : World) : Cleanup w (a.unwind e w) := by
  unfold Activation.unwind
  split
  · exact Cleanup.cleanup_emit w _ (by rfl)
  · exact (Cleanup.cleanup_emit w _ (by rfl)).cleanup_trans (cleanup_dtor _ _ _ _)

/-- The drivers on the stack returning is a cleanup. -/
theorem cleanup_stack_ret (s : Stack) : ∀ (w : World), Cleanup w (Stack.ret s w) := by
  induction s with
  | nil => intro w; exact Cleanup.cleanup_refl w
  | cons a s ih => intro w; exact (cleanup_leave a w).cleanup_trans (ih _)

/-- An exception leaving the drivers on the stack is a cleanup. -/
theorem cleanup_stack_unwind (s : Stack) (e : Exc) :
    ∀ (w : World), Cleanup w (Stack.unwind s e w) := by
  induction s with
  | nil => intro w; exact Cleanup.cleanup_refl w
  | cons a s ih => intro w; exact (cleanup_unwind a e w).cleanup_trans (ih _)

/-- Events of cleanup are not calls of a final continuation. -/
theorem invocations_cleanup_events (rid : Nat) (evs : List Event)
    (h : ∀ ev ∈ evs, Event.is_cleanup ev = true) : invocations rid evs = [] := by
  induction evs with
  | nil => rfl
  | cons ev evs ih =>
    have h1 := h ev (List.mem_cons_self _ _)
    have h2 := ih (fun x hx => h x (List.mem_cons_of_mem _ hx))
    have e : invocations rid (ev :: evs) = invocations rid [ev] ++ invocations rid evs :=
      invocations_append rid [ev] evs
    rw [e, h2]
    cases ev <;> simp [Event.is_cleanup] at h1 <;> simp [invocations]

/-- The completions in a concatenation. -/
theorem completions_append (rid : Nat) (t1 t2 : List Event) :
    completions rid (t1 ++ t2) = completions rid t1 ++ completions rid t2 := by
  simp [completions, List.filterMap_append]

/-- Events of cleanup are not completions of a body. -/
theorem completions_cleanup_events (rid : Nat) (evs : List Event)
    (h : ∀ ev ∈ evs, Event.is_cleanup ev = true) : completions rid evs = [] := by
  induction evs with
  | nil => rfl
  | cons ev evs ih =>
    have h1 := h ev (List.mem_cons_self _ _)
    have h2 := ih (fun x hx => h x (List.mem_cons_of_mem _ hx))
    have e : completions rid (ev :: evs) = completions rid [ev] ++ completions rid evs :=
      completions_append rid [ev] evs
    rw [e, h2]
    cases ev <;> simp [Event.is_cleanup] at h1 <;> simp [completions]

/-- A cleanup adds no call of a final continuation. -/
theorem invocations_of_cleanup (rid : Nat) {w w' : World} (h : Cleanup w w') :
    invocations rid w'.trace = invocations rid w.trace := by
  obtain ⟨_, evs, ht, hc⟩ := h
  rw [ht, invocations_append, invocations_cleanup_events rid evs hc, List.append_nil]

/-- A cleanup adds no completion of a body. -/
theorem completions_of_cleanup (rid : Nat) {w w' : World} (h : Cleanup w w') :
    completions rid w'.trace = completions rid w.trace := by
  obtain ⟨_, evs, ht, hc⟩ := h
  rw [ht, completions_append, completions_cleanup_events rid evs hc, List.append_nil]

/-- The completions after one more event. -/
theorem completions_emit (rid : Nat) (w : World) (ev : Event) :
    completions rid (w.emit ev).trace = completions rid w.trace ++ completions rid [ev] := by
  simp [World.emit, completions_append]

/-- A cleanup keeps the balance. -/
theorem Balanced.balanced_cleanup {w w' : World} (hb : Balanced w) (h : Cleanup w w') : Balanced w' := by
  intro rid
  rw [invocations_of_cleanup rid h, completions_of_cleanup rid h]
  exact hb rid

/-- One more event that is neither a call of a final continuation nor a
completion of a body keeps the balance. -/
theorem Balanced.balanced_emit {w : World} (hb : Balanced w) (ev : Event)
    (h : Event.carries_payload ev = false) : Balanced (w.emit ev) := by
  intro rid
  rw [invocations_emit, completions_emit, hb rid]
  cases ev <;> simp [Event.carries_payload] at h <;> simp [invocations, completions]

/-- The events of a completion keep the balance: the payload is added once
on each side. -/
theorem Balanced.balanced_completion {w : World} (hb : Balanced w) (p p1 : co_composed_promise)
    (h : Handler) (ev : Event) (fn : Pending) (vs : List Val)
    (hev : ev = .yield_value p.rid vs ∨ ev = .return_value p.rid vs)
    (hr : p1.rid = p.rid) :
    Balanced (complete vs p1 h
      ((release_work p (w.emit ev)).emit (.pending_invoked p.rid fn))).2 := by
  intro rid
  have c1 := cleanup_release_work p (w.emit ev)
  have c2 := cleanup_dtor true p1.move_handler h
    (((release_work p (w.emit ev)).emit (.pending_invoked p.rid fn)).emit
      (.moved_out p1.rid vs))
  simp only [CoComposed.complete]
  rw [invocations_emit, completions_emit, invocations_of_cleanup rid c2, completions_of_cleanup rid c2]
  simp only [invocations_emit, completions_emit]
  rw [invocations_of_cleanup rid c1, completions_of_cleanup rid c1]
  simp only [invocations_emit, completions_emit, hb rid]
  rcases hev with h | h <;> subst h <;> by_cases hrid : p.rid = rid <;>
    simp [invocations, completions, hrid, hr]

/-- Every run keeps the balance, whatever the body: in each record the final
continuation is called once per completion of the body, with its payload. -/
theorem run_balanced (body : Body) :
    ∀ (d : Driver) (p : co_composed_promise) (h : Handler) (s : Stack) (w : World),
      Balanced w → Balanced (run d body p h s w).1 := by
  induction body with
  | raise e =>
    intro d p h s w hb
    rw [run]
    exact (hb.balanced_emit _ (by rfl)).balanced_cleanup (cleanup_stack_unwind _ _ _)
  | throw_if_cancelled b rest ih =>
    intro d p h s w hb
    rw [run]
    exact ih d _ h s w hb
  | reset_cancellation_state rest ih =>
    intro d p h s w hb
    rw [run]
    exact ih d _ h s w hb
  | co_return_void =>
    intro d p h s w hb
    rw [run]
    split
    · exact hb.balanced_emit _ (by rfl)
    · have hb1 : Balanced (p.destroy h (w.emit (.return_void p.rid))) :=
        (hb.balanced_emit _ (by rfl)).balanced_cleanup (cleanup_destroy _ _ _)
      split
      · exact hb1.balanced_cleanup (cleanup_stack_ret _ _)
      · exact hb1
  | co_return value =>
    intro d p h s w hb
    rw [run]
    split
    · exact hb.balanced_emit _ (by rfl)
    · rename_i i hi
      simp only [co_composed_promise.return_value, co_composed_promise.arm,
        co_composed_promise.work_reset, co_composed_promise.get_return_value, if_true]
      exact hb.balanced_completion p _ h _ _ value (Or.inr rfl) rfl
  | co_yield vs rest _ =>
    intro d p h s w hb
    rw [run]
    simp only [co_composed_promise.yield_await_suspend, co_composed_promise.arm]
    exact hb.balanced_completion p _ h _ _ vs (Or.inl rfl) rfl
  | co_await op k ih =>
    intro d p h s w hb
    rw [run]
    split
    · exact ih _ d p h s w hb
    · simp only [await_suspend_fn]
      have hb1 : Balanced ((w.emit (.pending_invoked p.rid .start_operation)).emit
          (.operation_started p.rid)) :=
        (hb.balanced_emit _ (by rfl)).balanced_emit _ (by rfl)
      cases op with
      | raises e =>
        exact (hb1.balanced_cleanup (cleanup_dtor _ _ _ _)).balanced_cleanup (cleanup_stack_unwind _ _ _)
      | deferred ct c =>
        simp only [co_composed_handler_base_resume, resume_result]
        exact ih _ .resume _ h [] _
          ((hb1.balanced_cleanup (cleanup_stack_ret _ _)).balanced_emit _ (by rfl))
  | co_await_composed return_type inner k ih_inner ih =>
    intro d p h s w hb
    rw [run]
    split
    · exact ih _ d p h s w hb
    · simp only [await_suspend_fn]
      have hb1 : Balanced (coroutine_new return_type p.await_suspend.has_slot
          ((w.emit (.pending_invoked p.rid .start_operation)).emit
            (.operation_started p.rid))).2 := by
        have := (hb.balanced_emit (.pending_invoked p.rid .start_operation) (by rfl)).balanced_emit
          (.operation_started p.rid) (by rfl)
        intro rid
        have h3 := this rid
        simp only [coroutine_new, World.emit, invocations_append, completions_append] at h3 ⊢
        rw [h3]
        simp [invocations, completions]
      have hb2 := ih_inner .initiate
        (coroutine_new return_type p.await_suspend.has_slot
          ((w.emit (.pending_invoked p.rid .start_operation)).emit
            (.operation_started p.rid))).1
        (.bridge p.await_suspend h) (⟨d, p.await_suspend, h⟩ :: s) _ hb1
      split
      · rename_i w2 heq
        rw [heq] at hb2
        exact hb2
      · rename_i w2 args s' heq
        rw [heq] at hb2
        simp only [co_composed_handler_base_resume, resume_result]
        exact ih _ .resume _ h s' _ (hb2.balanced_emit _ (by rfl))

/-- The trace of a whole run is balanced, whatever the body. -/
theorem trace_of_balanced (return_type : Return) (has_slot : Bool) (body : Body) (rid : Nat) :
    invocations rid (trace_of return_type has_slot body)
      = completions rid (trace_of return_type has_slot body) := by
  have hb0 : Balanced ⟨[Event.frame_allocated 0] ++ await_trace 0, 1⟩ := by
    intro r; rfl
  have hb := run_balanced body (driver_after 0)
    (co_composed_promise.ctor 0 return_type has_slot) .final [] _ hb0
  rw [trace_of_eq]
  split
  · rename_i w1 heq
    rw [heq] at hb
    exact hb rid
  · rename_i w1 args s heq
    rw [heq] at hb
    exact (hb.balanced_cleanup (cleanup_stack_ret s w1)) rid

/-! ## Completion, failure and cleanup of a run -/

/-- C1: in every run, whatever the body, the calls of the final
continuation are exactly the completions of the body (same number, same
arguments, same order); and for every body that, after any number `n` of
successful awaits, completes by `co_yield state.complete(vs...)` or by
`co_return {vs...}`, the final continuation is invoked exactly once over the
whole run, with exactly the arguments `vs` in order. -/
theorem C1_final_continuation_invoked_exactly_once (return_type : Return) (has_slot : Bool)
    (body : Body) :
    invocations 0 (trace_of return_type has_slot body)
      = completions 0 (trace_of return_type has_slot body) ∧
    ∀ (n : Nat) (rest : Body) (vs : List Val),
      Awaits n body rest → Completes return_type vs rest →
      invocations 0 (trace_of return_type has_slot body) = [vs] :=
  ⟨trace_of_balanced return_type has_slot body 0,
    fun n rest vs ha hc => invocations_awaits_completes return_type has_slot n body rest vs ha hc⟩

/-- C1 at a concrete body: two awaits of `post`, then
`co_yield state.complete(2)`. -/
theorem C1_final_continuation_invoked_exactly_once_witness :
    Awaits 2 (post_loop 2) (.co_yield [.int 2] .co_return_void) ∧
    Completes .void [.int 2] (.co_yield [.int 2] .co_return_void) ∧
    invocations 0 (trace_of .void false (post_loop 2)) = [[.int 2]] :=
  ⟨Awaits.step 0 (.plain []) _ .nothing 1 _ rfl
      (Awaits.step 0 (.plain []) _ .nothing 0 _ rfl (Awaits.done _)),
    Completes.by_yield _,
    (C1_final_continuation_invoked_exactly_once .void false (post_loop 2)).2 2
      (.co_yield [.int 2] .co_return_void) [.int 2]
      (Awaits.step 0 (.plain []) _ .nothing 1 _ rfl
        (Awaits.step 0 (.plain []) _ .nothing 0 _ rfl (Awaits.done _)))
      (Completes.by_yield _)⟩

/-- C5: for every declared list of signatures and every tuple `value`
returned with `co_return` (after any number of successful awaits) whose
element types are those of one of the signatures, overload resolution picks
that signature, `return_value` stores the tuple under that signature's
alternative of the variant, from where the completing lambda reads it back,
and the final continuation is invoked exactly once, with the elements of the
tuple in order.  With `void()` and `void(int)` declared, returning `{k}`
selects the second signature and the only call has the one argument `k`. -/
theorem C5_return_value_selects_signature (signatures : List (List Ty)) (value : List Val)
    (has_slot : Bool) (n : Nat) (body : Body)
    (hv : value.map Val.ty ∈ signatures) (ha : Awaits n body (.co_return value)) :
    (∃ i, signatures.get? i = some (value.map Val.ty) ∧
      (co_composed_promise.ctor 0 (.co_returns signatures) has_slot).return_overload value
        = some i ∧
      ((co_composed_promise.ctor 0 (.co_returns signatures) has_slot).return_value i
        value).return_value_ = some (i + 1, value) ∧
      ((co_composed_promise.ctor 0 (.co_returns signatures) has_slot).return_value i
        value).get_return_value i = some value ∧
      trace_of (.co_returns signatures) has_slot body
        = .frame_allocated 0 :: (await_trace n ++
            .return_value 0 value :: completion_trace (.complete_return i) value n)) ∧
    invocations 0 (trace_of (.co_returns signatures) has_slot body) = [value] ∧
    (∀ k : Int,
      (co_composed_promise.ctor 0 (.co_returns [[], [.int]]) has_slot).return_overload [.int k]
        = some 1 ∧
      invocations 0 (trace_of (.co_returns [[], [.int]]) has_slot (.co_return [.int k]))
        = [[.int k]]) := by
  have hc : Completes (.co_returns signatures) value (.co_return value) :=
    Completes.by_return signatures rfl hv
  obtain ⟨i, hi, hget⟩ := find_overload_of_mem _ _ hv
  refine ⟨⟨i, hget, ?_, rfl, ?_, trace_of_awaits_return signatures value has_slot n body i hi ha⟩,
    invocations_awaits_completes _ has_slot n body _ value ha hc, ?_⟩
  · simpa [co_composed_promise.return_overload, co_composed_promise.ctor] using hi
  · simp [co_composed_promise.get_return_value, co_composed_promise.return_value,
      co_composed_promise.work_reset, co_composed_promise.arm]
  · intro k
    refine ⟨rfl, ?_⟩
    exact invocations_awaits_completes (.co_returns [[], [.int]]) has_slot 0 _ _ [.int k]
      (Awaits.done _) (Completes.by_return [[], [.int]] rfl (by simp [Val.ty]))

/-- C5 at a concrete body: the body of `post_loop_return_2` with two iterations,
declared with `void()` and `void(int)`. -/
theorem C5_return_value_selects_signature_witness :
    [Val.int 2].map Val.ty ∈ [[], [Ty.int]] ∧
    Awaits 2 (post_loop_return 2) (.co_return [.int 2]) ∧
    invocations 0 (trace_of (.co_returns [[], [.int]]) false (post_loop_return 2))
      = [[.int 2]] :=
  ⟨by decide,
    Awaits.step 0 (.plain []) _ .nothing 1 _ rfl
      (Awaits.step 0 (.plain []) _ .nothing 0 _ rfl (Awaits.done _)),
    (C5_return_value_selects_signature [[], [.int]] [.int 2] false 2 (post_loop_return 2)
      (by decide)
      (Awaits.step 0 (.plain []) _ .nothing 1 _ rfl
        (Awaits.step 0 (.plain []) _ .nothing 0 _ rfl (Awaits.done _)))).2.1⟩

/-- C6: for every body that lets an exception `e` escape before its first
suspend point, the run consists of the allocation of the frame, the call of
`unhandled_exception` and the exception leaving the initiating call: no
pending continuation is fired and the final continuation is never invoked. -/
theorem C6_raise_before_first_suspend (return_type : Return) (has_slot : Bool) (body : Body)
    (e : Exc) (h : Reaches body (.raise e)) :
    trace_of return_type has_slot body
      = [.frame_allocated 0, .unhandled_exception 0 e, .initiate_raised 0 e] ∧
    fired 0 (trace_of return_type has_slot body) = [] ∧
    invocations 0 (trace_of return_type has_slot body) = [] := by
  have ht := trace_of_reaches_raise return_type has_slot body e h
  rw [ht]
  exact ⟨rfl, rfl, rfl⟩

/-- C6 at a concrete body: the body of `throw_first`. -/
theorem C6_raise_before_first_suspend_witness :
    Reaches throw_first (.raise (.thrown 42)) ∧
    trace_of .void false throw_first
      = [.frame_allocated 0, .unhandled_exception 0 (.thrown 42),
          .initiate_raised 0 (.thrown 42)] ∧
    fired 0 (trace_of .void false throw_first) = [] ∧
    invocations 0 (trace_of .void false throw_first) = [] :=
  ⟨Reaches.here _,
    C6_raise_before_first_suspend .void false throw_first (.thrown 42) (Reaches.here _)⟩

/-- C7: for every `n ≥ 1` and every body that performs `n` successful
awaits and then lets an exception `e` escape, the run is: the `n` awaits,
the last event of which is the `n`-th bridge resuming the record, then
`unhandled_exception` and the exception leaving that resume call (the bridge
then destroys the frame).  The record is resumed `n` times in all, no
exception leaves the initiating call, and the final continuation is never
invoked. -/
theorem C7_raise_after_awaits (return_type : Return) (has_slot : Bool) (n : Nat) (body : Body)
    (e : Exc) (hn : 1 ≤ n) (h : Awaits n body (.raise e)) :
    trace_of return_type has_slot body
      = .frame_allocated 0 :: (await_trace n ++
          [.unhandled_exception 0 e, .resume_raised 0 e, .frame_destroyed 0,
            .work_released 0]) ∧
    (await_trace n).getLast? = some (.resume 0) ∧
    resumes 0 (trace_of return_type has_slot body) = n ∧
    (∀ e', Event.initiate_raised 0 e' ∉ trace_of return_type has_slot body) ∧
    invocations 0 (trace_of return_type has_slot body) = [] := by
  have hn0 : ¬ n = 0 := by omega
  have ht := trace_of_awaits_raise return_type has_slot n body e h
  simp only [hn0, if_false] at ht
  rw [ht]
  refine ⟨rfl, ?_, ?_, ?_, ?_⟩
  · cases n with
    | zero => omega
    | succ m => simp [await_trace]
  · have := resumes_await_trace n
    unfold resumes at this ⊢
    simp [List.count_cons, List.count_append, this]
  · intro e'
    have := initiate_raised_not_mem_await_trace n e'
    simp [this]
  · have h2 : ∀ t, invocations 0 (.frame_allocated 0 :: t) = invocations 0 t := by
      intro t; simp [invocations]
    rw [h2, invocations_append, invocations_await_trace]
    simp [invocations]

/-- C7 at a concrete body: the body of `throw_after_await`, one await. -/
theorem C7_raise_after_awaits_witness :
    1 ≤ 1 ∧ Awaits 1 throw_after_await (.raise (.thrown 42)) ∧
    resumes 0 (trace_of .void false throw_after_await) = 1 ∧
    (∀ e', Event.initiate_raised 0 e' ∉ trace_of .void false throw_after_await) ∧
    invocations 0 (trace_of .void false throw_after_await) = [] :=
  ⟨by decide, Awaits.step 0 (.plain []) _ .nothing 0 _ rfl (Awaits.done _),
    (C7_raise_after_awaits .void false 1 throw_after_await (.thrown 42) (by decide)
      (Awaits.step 0 (.plain []) _ .nothing 0 _ rfl (Awaits.done _))).2.2⟩

/-- C8, evaluated: when the body lets an exception escape before its first
suspend point (as in `throw_first`), the frame is never destroyed and the
liveness token it holds is never released; after one await (as in
`throw_after_await`) both happen exactly once. -/
theorem C8_frame_left_undestroyed_on_first_step (return_type : Return) (has_slot : Bool)
    (e : Exc) :
    destroyed 0 (trace_of return_type has_slot (.raise e)) = 0 ∧
    released 0 (trace_of return_type has_slot (.raise e)) = 0 ∧
    destroyed 0 (trace_of return_type has_slot (.co_await post (and_then (.raise e)))) = 1 ∧
    released 0 (trace_of return_type has_slot (.co_await post (and_then (.raise e)))) = 1 := by
  have h0 := trace_of_reaches_raise return_type has_slot (.raise e) e (Reaches.here _)
  have h1 := trace_of_awaits_raise return_type has_slot 1 (.co_await post (and_then (.raise e))) e
    (Awaits.step 0 (.plain []) _ .nothing 0 _ rfl (Awaits.done _))
  rw [h0, h1]
  simp [destroyed, released, await_trace, List.count_cons]

/-- C9: for every number of iterations `n`, the loop that awaits `post` `n`
times while counting and then yields `state.complete(i)` ends with exactly
one call of the final continuation, whose argument is `n`; the same holds
when each iteration awaits the composed operation `nested_post`. -/
theorem C9_post_loop_payload (n : Nat) (has_slot : Bool) :
    invocations 0 (trace_of .void has_slot (post_loop n)) = [[.int n]] ∧
    invocations 0 (trace_of .void has_slot (nested_post_loop n)) = [[.int n]] := by
  constructor
  · have ha := awaits_post_loop_from n 0
    rw [zero_add] at ha
    exact invocations_awaits_completes .void has_slot n (post_loop n) _ [.int n] ha
      (Completes.by_yield _)
  · obtain ⟨s', w', hrun, hinv⟩ := run_nested_post_loop n 0 (driver_after 0)
      (co_composed_promise.ctor 0 .void has_slot) [] ⟨[Event.frame_allocated 0] ++ await_trace 0, 1⟩
      rfl (ctor_flag _ _ _) rfl rfl (by decide)
    rw [zero_add] at hrun hinv
    rw [trace_of_eq]
    unfold nested_post_loop
    rw [hrun]
    simp only [invocations_stack_ret]
    rw [hinv]
    simp [invocations, await_trace]

/-! ## Final continuations without a cancellation slot -/

/-- Without a cancellation slot the bookkeeping stays the empty one, whatever
is called. -/
theorem calls_unspecialised (history : List CancellationCall) :
    (co_composed_state_cancellation.init false).calls history = .unspecialised := by
  have h : ∀ s, s = co_composed_state_cancellation.unspecialised →
      s.calls history = .unspecialised := by
    induction history with
    | nil => intro s hs; exact hs
    | cons c rest ih =>
      intro s hs
      subst hs
      have hc : co_composed_state_cancellation.unspecialised.call c = .unspecialised := by
        cases c <;> rfl
      simp only [co_composed_state_cancellation.calls, List.foldl_cons, hc]
      exact ih _ rfl
  exact h _ rfl

/-- A promise whose final continuation has no cancellation slot passes the
check of every await. -/
theorem await_transform_of_no_slot (p : co_composed_promise) (h : p.has_slot = false) :
    p.await_transform = .ok () := by
  unfold co_composed_promise.has_slot at h
  unfold co_composed_promise.await_transform
  cases hc : p.state_.cancellation with
  | unspecialised => rfl
  | slot cs b => rw [hc] at h; simp at h

/-- C11: when the final continuation has no cancellation slot, the
bookkeeping of the composition state is the specialisation without data
members and stays so after any sequence of calls (every overload of
`reset_cancellation_state`, `clear_cancellation_slot`, `throw_if_cancelled(b)`,
cancellation requests): `cancelled()` is `none`, `throw_if_cancelled()` is
false (also right after `throw_if_cancelled(true)`), each of the calls
changes nothing, `check_for_cancellation()` does not raise, and the check of
an await passes for every promise of such a continuation, whatever was
called on it before. -/
theorem C11_no_cancellation_capability (history : List CancellationCall) (b : Bool)
    (ct filter in_filter out_filter : Nat) :
    (co_composed_state_cancellation.init false).calls history = .unspecialised ∧
    ((co_composed_state_cancellation.init false).calls history).cancelled = 0 ∧
    ((co_composed_state_cancellation.init false).calls history).throw_if_cancelled = false ∧
    (((co_composed_state_cancellation.init false).calls history).set_throw_if_cancelled
      true).throw_if_cancelled = false ∧
    ((co_composed_state_cancellation.init false).calls history).check_for_cancellation
      = .ok () ∧
    co_composed_state_cancellation.unspecialised.reset_cancellation_state = .unspecialised ∧
    co_composed_state_cancellation.unspecialised.reset_cancellation_state_filter filter
      = .unspecialised ∧
    co_composed_state_cancellation.unspecialised.reset_cancellation_state_filters in_filter
      out_filter = .unspecialised ∧
    co_composed_state_cancellation.unspecialised.clear_cancellation_slot = .unspecialised ∧
    co_composed_state_cancellation.unspecialised.set_throw_if_cancelled b = .unspecialised ∧
    co_composed_state_cancellation.unspecialised.emit ct = .unspecialised ∧
    (∀ p : co_composed_promise, p.has_slot = false →
      p.await_transform = .ok () ∧
      (p.set_throw_if_cancelled b).has_slot = false ∧
      p.reset_cancellation_state.has_slot = false ∧
      (p.emit_cancel ct).has_slot = false ∧
      p.await_suspend.has_slot = false ∧
      (∀ r, (p.resume r).has_slot = false)) ∧
    (∀ rid return_type, (co_composed_promise.ctor rid return_type false).has_slot = false) := by
  have hu := calls_unspecialised history
  refine ⟨hu, ?_, ?_, ?_, ?_, rfl, rfl, rfl, rfl, rfl, rfl, ?_, fun _ _ => rfl⟩
  · rw [hu]; rfl
  · rw [hu]; rfl
  · rw [hu]; rfl
  · rw [hu]; rfl
  · intro p hp
    refine ⟨await_transform_of_no_slot p hp, ?_, ?_, ?_, ?_, ?_⟩
    all_goals
      unfold co_composed_promise.has_slot at hp ⊢
      cases hc : p.state_.cancellation with
      | unspecialised =>
        simp [co_composed_promise.set_throw_if_cancelled,
          co_composed_promise.reset_cancellation_state, co_composed_promise.emit_cancel,
          co_composed_promise.await_suspend, co_composed_promise.arm,
          co_composed_promise.resume, hc,
          co_composed_state_cancellation.set_throw_if_cancelled,
          co_composed_state_cancellation.reset_cancellation_state,
          co_composed_state_cancellation.emit,
          co_composed_state_cancellation.clear_cancellation_slot]
      | slot cs b' => rw [hc] at hp; simp at hp

/-! ## The size of a frame -/

/-- Rounding up the quotient: the usual `(x + b - 1) / b` is the ceiling of
`x / b`. -/
theorem add_pred_div_eq_ceil (x b : Nat) (hb : 0 < b) :
    (x + b - 1) / b = ⌈(x : ℚ) / (b : ℚ)⌉₊ := by
  apply eq_of_forall_ge_iff
  intro k
  have hbq : (0 : ℚ) < (b : ℚ) := by exact_mod_cast hb
  rw [Nat.ceil_le, div_le_iff₀ hbq]
  rw [← Nat.lt_succ_iff, Nat.div_lt_iff_lt_mul hb]
  constructor
  · intro h
    have h2 : x ≤ k * b := by
      have := Nat.succ_mul k b
      omega
    exact_mod_cast h2
  · intro h
    have h2 : x ≤ k * b := by exact_mod_cast h
    have := Nat.succ_mul k b
    omega

/-- For the size of an object the sum in `blocks` does not wrap around. -/
theorem blocks_eq_ceil (sizeof_block size : Nat) (hb : 0 < sizeof_block)
    (hB : sizeof_block ≤ ptrdiff_max) (hs : size ≤ ptrdiff_max) :
    blocks sizeof_block size = ⌈(size : ℚ) / (sizeof_block : ℚ)⌉₊ := by
  unfold blocks
  have hlt : size + sizeof_block - 1 < size_modulus := by
    unfold ptrdiff_max at hB hs
    unfold size_modulus
    omega
  rw [Nat.mod_eq_of_lt hlt]
  exact add_pred_div_eq_ceil size sizeof_block hb

/-- The blocks counted by `blocks` hold the size. -/
theorem le_blocks_mul (sizeof_block size : Nat) (hb : 0 < sizeof_block)
    (hB : sizeof_block ≤ ptrdiff_max) (hs : size ≤ ptrdiff_max) :
    size ≤ blocks sizeof_block size * sizeof_block := by
  unfold blocks
  have hlt : size + sizeof_block - 1 < size_modulus := by
    unfold ptrdiff_max at hB hs
    unfold size_modulus
    omega
  rw [Nat.mod_eq_of_lt hlt]
  have h1 := Nat.div_add_mod (size + sizeof_block - 1) sizeof_block
  have h2 := Nat.mod_lt (size + sizeof_block - 1) hb
  rw [Nat.mul_comm] at h1
  omega

/-- For the size of an object `blocks` is at most the size. -/
theorem blocks_le (sizeof_block size : Nat) (hb : 0 < sizeof_block)
    (hB : sizeof_block ≤ ptrdiff_max) (hs : size ≤ ptrdiff_max) :
    blocks sizeof_block size ≤ size := by
  unfold blocks
  have hlt : size + sizeof_block - 1 < size_modulus := by
    unfold ptrdiff_max at hB hs
    unfold size_modulus
    omega
  rw [Nat.mod_eq_of_lt hlt]
  rw [← Nat.lt_succ_iff, Nat.div_lt_iff_lt_mul hb]
  have := Nat.succ_mul size sizeof_block
  have h3 : size ≤ size * sizeof_block := Nat.le_mul_of_pos_right size hb
  omega

/-- C14: for every block size `B > 0`, every size `a` of the embedded
allocator and every size `s` of the activation record (sizes of objects, so
at most `PTRDIFF_MAX`), `blocks(x)` is the ceiling of `x / B`; `operator new`
asks the allocator for exactly `⌈a / B⌉ + ⌈s / B⌉` blocks, constructs the
allocator copy at the start of the array and returns the address `⌈a / B⌉`
blocks past the start, so that the record begins at or after the end of the
embedded allocator and the `⌈s / B⌉` blocks that remain hold at least `s`
bytes. -/
theorem C14_operator_new_block_count (sizeof_block sizeof_allocator size : Nat)
    (allocator : Allocator) (base : Nat) (heap : Heap)
    (hb : 0 < sizeof_block) (hB : sizeof_block ≤ ptrdiff_max)
    (ha : sizeof_allocator ≤ ptrdiff_max) (hs : size ≤ ptrdiff_max) :
    blocks sizeof_block sizeof_allocator = ⌈(sizeof_allocator : ℚ) / (sizeof_block : ℚ)⌉₊ ∧
    blocks sizeof_block size = ⌈(size : ℚ) / (sizeof_block : ℚ)⌉₊ ∧
    (operator_new sizeof_block sizeof_allocator allocator base size heap).2.log
      = heap.log ++ [.allocate allocator
          (⌈(sizeof_allocator : ℚ) / (sizeof_block : ℚ)⌉₊
            + ⌈(size : ℚ) / (sizeof_block : ℚ)⌉₊) base] ∧
    (operator_new sizeof_block sizeof_allocator allocator base size heap).2.heads
      = (base, allocator) :: heap.heads ∧
    (operator_new sizeof_block sizeof_allocator allocator base size heap).1
      = base + ⌈(sizeof_allocator : ℚ) / (sizeof_block : ℚ)⌉₊ * sizeof_block ∧
    base + sizeof_allocator
      ≤ (operator_new sizeof_block sizeof_allocator allocator base size heap).1 ∧
    (operator_new sizeof_block sizeof_allocator allocator base size heap).1 + size
      ≤ base + (⌈(sizeof_allocator : ℚ) / (sizeof_block : ℚ)⌉₊
          + ⌈(size : ℚ) / (sizeof_block : ℚ)⌉₊) * sizeof_block := by
  have ea := blocks_eq_ceil sizeof_block sizeof_allocator hb hB ha
  have es := blocks_eq_ceil sizeof_block size hb hB hs
  have la := le_blocks_mul sizeof_block sizeof_allocator hb hB ha
  have ls := le_blocks_mul sizeof_block size hb hB hs
  have ba := blocks_le sizeof_block sizeof_allocator hb hB ha
  have bs := blocks_le sizeof_block size hb hB hs
  have hsum : (blocks sizeof_block sizeof_allocator + blocks sizeof_block size) % size_modulus
      = blocks sizeof_block sizeof_allocator + blocks sizeof_block size := by
    apply Nat.mod_eq_of_lt
    unfold ptrdiff_max at ha hs
    unfold size_modulus
    omega
  refine ⟨ea, es, ?_, ?_, ?_, ?_, ?_⟩
  · simp only [operator_new, Heap.allocate, hsum]
    rw [ea, es]
  · simp [operator_new, Heap.allocate]
  · simp [operator_new, ea]
  · simp only [operator_new]
    omega
  · simp only [operator_new]
    rw [← ea, ← es, Nat.add_mul]
    omega

/-- C14 at concrete sizes: blocks of 16 bytes, an allocator of 1 byte, a
record of 100 bytes: 1 + 7 blocks, and the record starts 16 bytes in. -/
theorem C14_operator_new_block_count_witness :
    0 < 16 ∧ 16 ≤ ptrdiff_max ∧ 1 ≤ ptrdiff_max ∧ 100 ≤ ptrdiff_max ∧
    blocks 16 1 = ⌈((1 : Nat) : ℚ) / ((16 : Nat) : ℚ)⌉₊ ∧
    blocks 16 100 = ⌈((100 : Nat) : ℚ) / ((16 : Nat) : ℚ)⌉₊ ∧
    blocks 16 1 = 1 ∧ blocks 16 100 = 7 ∧
    (operator_new 16 1 ⟨0⟩ 4096 100 ⟨[], [], []⟩).1 = 4112 :=
  ⟨by decide, by decide, by decide, by decide,
    (C14_operator_new_block_count 16 1 100 ⟨0⟩ 4096 ⟨[], [], []⟩
      (by decide) (by decide) (by decide) (by decide)).1,
    (C14_operator_new_block_count 16 1 100 ⟨0⟩ 4096 ⟨[], [], []⟩
      (by decide) (by decide) (by decide) (by decide)).2.1,
    by decide, by decide, by decide⟩

/-! ## A sub-operation whose initiation raises -/

/-- The run of a body at the await of a sub-operation whose initiation
raises: the driver fires the pending continuation, the initiation raises,
the bridge built for it is destroyed during unwinding and destroys the
frame, and the exception leaves the driver. -/
theorem run_await_raises (m : Nat) (e : Exc) (k : Except Exc Unwrapped → Body)
    (p : co_composed_promise) (pre : List Event) (nid : Nat)
    (hr : p.rid = 0) (hw : p.state_.work_ = true) (ho : p.owner_p_ = false)
    (hq : p.state_.cancellation.throw_if_cancelled = false) :
    run (driver_after m) (.co_await (.raises e) k) p .final [] ⟨pre, nid⟩
      = (⟨pre ++ [.pending_invoked 0 .start_operation, .operation_started 0,
            .frame_destroyed 0, .work_released 0,
            if m = 0 then .initiate_raised 0 e else .resume_raised 0 e], nid⟩,
          .halted) := by
  rw [run, await_transform_of_flag p hq]
  by_cases hm : m = 0 <;>
    simp [driver_after, hm, Stack.unwind, Activation.unwind, World.emit, hr, ho, hw,
      co_composed_promise.await_suspend, co_composed_promise.arm,
      co_composed_handler_base_dtor, co_composed_promise.destroy, release_work]

/-- The whole trace when, after `n` successful awaits, the body awaits a
sub-operation whose initiation raises. -/
theorem trace_of_awaits_raises (return_type : Return) (has_slot : Bool) (n : Nat) (body : Body)
    (e : Exc) (k : Except Exc Unwrapped → Body)
    (h : Awaits n body (.co_await (.raises e) k)) :
    trace_of return_type has_slot body
      = .frame_allocated 0 :: (await_trace n ++
          [.pending_invoked 0 .start_operation, .operation_started 0,
            .frame_destroyed 0, .work_released 0,
            if n = 0 then .initiate_raised 0 e else .resume_raised 0 e]) := by
  obtain ⟨p', hc, ho, _, hrun⟩ := run_awaits h 0 (co_composed_promise.ctor 0 return_type has_slot)
    .final [.frame_allocated 0] 1 rfl (ctor_flag _ _ _) rfl (by simp)
  rw [trace_of_eq, hrun, Nat.zero_add,
    run_await_raises n e k p' _ 1 (hc.rid.trans rfl) (hc.work.trans rfl) ho
      (hc.flag.trans (ctor_flag _ _ _))]
  simp

/-- The body completed nowhere during the awaits. -/
theorem completions_await_trace (rid : Nat) (n : Nat) : completions rid (await_trace n) = [] := by
  induction n with
  | zero => rfl
  | succ n ih =>
    rw [await_trace, completions_append, ih]
    by_cases h : n = 0 <;> simp [completions, h]


/-- C15: for every `n ≥ 0` and every body that performs `n` successful
awaits and then awaits a sub-operation whose initiation raises `e`, the run
is: the `n` awaits, then the driver of the current step fires the pending
continuation, the initiation raises, the bridge built for it destroys the
frame, and `e` leaves that driver, which is the last event of the run: the
initiating call when `n = 0`, otherwise the resume made by the `n`-th
completion (the record is resumed `n` times and no exception leaves the
initiating call).  The body is not resumed with the failure, it completes
nowhere, and the final continuation is never invoked.  In every run of every
body the calls of a final continuation are exactly the completions of the
body (`co_yield state.complete(...)` or `co_return`). -/
theorem C15_initiation_raises (return_type : Return) (has_slot : Bool) (n : Nat) (body : Body)
    (e : Exc) (k : Except Exc Unwrapped → Body)
    (h : Awaits n body (.co_await (.raises e) k)) :
    trace_of return_type has_slot body
      = .frame_allocated 0 :: (await_trace n ++
          [.pending_invoked 0 .start_operation, .operation_started 0,
            .frame_destroyed 0, .work_released 0,
            if n = 0 then .initiate_raised 0 e else .resume_raised 0 e]) ∧
    (trace_of return_type has_slot body).getLast?
      = some (if n = 0 then .initiate_raised 0 e else .resume_raised 0 e) ∧
    (0 < n → (await_trace n).getLast? = some (.resume 0) ∧
      ∀ e', Event.initiate_raised 0 e' ∉ trace_of return_type has_slot body) ∧
    resumes 0 (trace_of return_type has_slot body) = n ∧
    invocations 0 (trace_of return_type has_slot body) = [] ∧
    completions 0 (trace_of return_type has_slot body) = [] ∧
    (∀ (return_type' : Return) (has_slot' : Bool) (body' : Body) (rid : Nat),
      invocations rid (trace_of return_type' has_slot' body')
        = completions rid (trace_of return_type' has_slot' body')) := by
  have ht := trace_of_awaits_raises return_type has_slot n body e k h
  have hinv : invocations 0 (trace_of return_type has_slot body) = [] := by
    rw [ht]
    have h2 : ∀ t, invocations 0 (.frame_allocated 0 :: t) = invocations 0 t := by
      intro t; simp [invocations]
    rw [h2, invocations_append, invocations_await_trace]
    by_cases hn : n = 0 <;> simp [invocations, hn]
  refine ⟨ht, ?_, ?_, ?_, hinv, ?_, fun r hs b rid => trace_of_balanced r hs b rid⟩
  · rw [ht]
    have hl : ∀ (l : List Event) (a b c d x : Event),
        (Event.frame_allocated 0 :: (l ++ [a, b, c, d, x])).getLast? = some x := by
      intro l a b c d x
      have hs : Event.frame_allocated 0 :: (l ++ [a, b, c, d, x])
          = (Event.frame_allocated 0 :: (l ++ [a, b, c, d])) ++ [x] := by simp
      rw [hs, List.getLast?_concat]
    exact hl _ _ _ _ _ _
  · intro hn
    have hn0 : ¬ n = 0 := by omega
    refine ⟨?_, ?_⟩
    · cases n with
      | zero => omega
      | succ m => simp [await_trace]
    · intro e'
      rw [ht]
      have := initiate_raised_not_mem_await_trace n e'
      simp [this, hn0]
  · rw [ht]
    have := resumes_await_trace n
    unfold resumes at this ⊢
    by_cases hn : n = 0
    · subst hn
      simp [List.count_cons, await_trace]
    · simp [List.count_cons, List.count_append, this, hn]
  · rw [← trace_of_balanced, hinv]

/-- C15 at the bodies of the tests `throw_in_first_suspend` (no await
before) and `throw_in_suspend_after_await` (one await before): `42` leaves
the initiating call in the first, the resume call in the second, and the
final continuation is not invoked. -/
theorem C15_initiation_raises_witness :
    Awaits 1 throw_in_suspend_after_await
      (.co_await (.raises (.thrown 42)) (and_then (.co_yield [] .co_return_void))) ∧
    trace_of .void false throw_in_suspend_after_await
      = [.frame_allocated 0, .pending_invoked 0 .start_operation, .operation_started 0,
          .initiate_returned 0, .resume 0, .pending_invoked 0 .start_operation,
          .operation_started 0, .frame_destroyed 0, .work_released 0,
          .resume_raised 0 (.thrown 42)] ∧
    trace_of .void false throw_in_first_suspend
      = [.frame_allocated 0, .pending_invoked 0 .start_operation, .operation_started 0,
          .frame_destroyed 0, .work_released 0, .initiate_raised 0 (.thrown 42)] ∧
    invocations 0 (trace_of .void false throw_in_suspend_after_await) = [] :=
  ⟨Awaits.step 0 (.plain []) _ .nothing 0 _ rfl (Awaits.done _),
    (C15_initiation_raises .void false 1 throw_in_suspend_after_await (.thrown 42) _
      (Awaits.step 0 (.plain []) _ .nothing 0 _ rfl (Awaits.done _))).1,
    (C15_initiation_raises .void false 0 throw_in_first_suspend (.thrown 42) _
      (Awaits.done _)).1,
    (C15_initiation_raises .void false 1 throw_in_suspend_after_await (.thrown 42) _
      (Awaits.step 0 (.plain []) _ .nothing 0 _ rfl (Awaits.done _))).2.2.2.2.1⟩

/-! ## Every record goes through its life in order -/

/-- The phase after a concatenation. -/
theorem phase_of_append (rid : Nat) (t1 t2 : List Event) :
    phase_of rid (t1 ++ t2) = t2.foldl (phase_after rid) (phase_of rid t1) := by
  simp [phase_of, List.foldl_append]

/-- Once out of order, always out of order. -/
theorem foldl_phase_after_none (rid : Nat) (t : List Event) :
    t.foldl (phase_after rid) none = none := by
  induction t with
  | nil => rfl
  | cons ev t ih =>
    have : phase_after rid none ev = none := by
      unfold phase_after; split <;> rfl
    rw [List.foldl_cons, this, ih]

/-- A trace in order has its beginnings in order. -/
theorem phase_of_prefix (rid : Nat) (t1 t2 : List Event)
    (h : (phase_of rid (t1 ++ t2)).isSome = true) : (phase_of rid t1).isSome = true := by
  rw [phase_of_append] at h
  cases h1 : phase_of rid t1 with
  | none => rw [h1, foldl_phase_after_none] at h; simp at h
  | some ph => rfl

/-- The events of other records do not change the phase. -/
theorem foldl_phase_after_other (rid : Nat) (t : List Event) (ph : Option Phase)
    (h : ∀ ev ∈ t, ev.rid ≠ rid ∨ ev.is_driver_exit = true) :
    t.foldl (phase_after rid) ph = ph := by
  induction t generalizing ph with
  | nil => rfl
  | cons ev t ih =>
    have h1 : phase_after rid ph ev = ph := by
      unfold phase_after
      split
      · rename_i heq
        rcases h ev (by simp) with h2 | h2
        · exact absurd heq h2
        · cases ph with
          | none => rfl
          | some q => simp [Phase.step, h2]
      · rfl
    rw [List.foldl_cons, h1]
    exact ih ph (fun ev' hev' => h ev' (by simp [hev']))

/-- The phase after one more event. -/
theorem phase_of_emit (rid : Nat) (w : World) (ev : Event) :
    phase_of rid (w.emit ev).trace = phase_after rid (phase_of rid w.trace) ev := by
  simp [World.emit, phase_of_append]

/-- An event of another record, or of a driver leaving, keeps the phase. -/
theorem phase_of_emit_other (rid : Nat) (w : World) (ev : Event)
    (h : ev.rid ≠ rid ∨ ev.is_driver_exit = true) :
    phase_of rid (w.emit ev).trace = phase_of rid w.trace := by
  simp only [World.emit, phase_of_append]
  exact foldl_phase_after_other rid [ev] _ (by simpa using h)

/-- An event that can occur in the phase of its record moves the record on. -/
theorem phase_of_emit_same (w : World) (ev : Event) (ph ph' : Phase)
    (h1 : phase_of ev.rid w.trace = some ph) (h2 : ph.step ev = some ph') :
    phase_of ev.rid (w.emit ev).trace = some ph' := by
  rw [phase_of_emit, h1]
  simp [phase_after, h2]

/-- An event that can occur in the phase of its record keeps the trace in
order. -/
theorem orderly_emit (w : World) (ev : Event) (ph ph' : Phase) (ho : Orderly w.trace)
    (h1 : phase_of ev.rid w.trace = some ph) (h2 : ph.step ev = some ph') :
    Orderly (w.emit ev).trace := by
  intro rid
  by_cases h : ev.rid = rid
  · subst h
    rw [phase_of_emit_same w ev ph ph' h1 h2]
    rfl
  · rw [phase_of_emit_other rid w ev (Or.inl h)]
    exact ho rid

/-- The chain of bridges depends on the phases of the records below the bound only. -/
theorem Waiting.waiting_of_same {t t' : List Event} (h : Handler) :
    ∀ (bound : Nat), (∀ r, r < bound → phase_of r t' = phase_of r t) →
      Waiting t bound h → Waiting t' bound h := by
  induction h with
  | final => intro _ _ _; trivial
  | bridge p h ih =>
    intro bound hs hw
    obtain ⟨h1, h2, h3⟩ := hw
    exact ⟨h1, (hs p.rid h1).trans h2, ih p.rid (fun r hr => hs r (by omega)) h3⟩

/-- A driver that was not handed back its record leaves without a trace in
the life of any record. -/
theorem phase_of_leave (rid : Nat) (a : Activation) (w : World)
    (ha : a.promise.owner_p_ = false) :
    phase_of rid (a.leave w).trace = phase_of rid w.trace ∧ (a.leave w).next_id = w.next_id := by
  unfold Activation.leave
  cases a.driver with
  | initiate => exact ⟨phase_of_emit_other rid w _ (Or.inr rfl), rfl⟩
  | resume =>
    simp only [co_composed_handler_base_dtor, ha]
    exact ⟨phase_of_emit_other rid w _ (Or.inr rfl), rfl⟩

/-- The same when an exception leaves the driver. -/
theorem phase_of_unwind (rid : Nat) (a : Activation) (e : Exc) (w : World)
    (ha : a.promise.owner_p_ = false) :
    phase_of rid (a.unwind e w).trace = phase_of rid w.trace ∧
      (a.unwind e w).next_id = w.next_id := by
  unfold Activation.unwind
  cases a.driver with
  | initiate => exact ⟨phase_of_emit_other rid w _ (Or.inr rfl), rfl⟩
  | resume =>
    simp only [co_composed_handler_base_dtor, ha]
    exact ⟨phase_of_emit_other rid w _ (Or.inr rfl), rfl⟩

/-- Returning through a quiet stack changes no phase. -/
theorem phase_of_stack_ret (rid : Nat) (s : Stack) :
    ∀ (w : World), Stack.quiet s →
      phase_of rid (Stack.ret s w).trace = phase_of rid w.trace ∧
        (Stack.ret s w).next_id = w.next_id := by
  induction s with
  | nil => intro w _; exact ⟨rfl, rfl⟩
  | cons a s ih =>
    intro w hq
    have h1 := phase_of_leave rid a w (hq a (by simp))
    have h2 := ih (a.leave w) (fun b hb => hq b (by simp [hb]))
    exact ⟨h2.1.trans h1.1, h2.2.trans h1.2⟩

/-- Unwinding a quiet stack changes no phase. -/
theorem phase_of_stack_unwind (rid : Nat) (s : Stack) (e : Exc) :
    ∀ (w : World), Stack.quiet s →
      phase_of rid (Stack.unwind s e w).trace = phase_of rid w.trace ∧
        (Stack.unwind s e w).next_id = w.next_id := by
  induction s with
  | nil => intro w _; exact ⟨rfl, rfl⟩
  | cons a s ih =>
    intro w hq
    have h1 := phase_of_unwind rid a e w (hq a (by simp))
    have h2 := ih (a.unwind e w) (fun b hb => hq b (by simp [hb]))
    exact ⟨h2.1.trans h1.1, h2.2.trans h1.2⟩

/-- Worlds with the same phases are in order together. -/
theorem orderly_of_same {t t' : List Event} (h : ∀ r, phase_of r t' = phase_of r t)
    (ho : Orderly t) : Orderly t' := by
  intro r
  rw [h r]
  exact ho r

/-- Releasing the token of a record whose frame was destroyed without
completion keeps the trace in order. -/
theorem release_work_freed (p : co_composed_promise) (w : World) (ho : Orderly w.trace)
    (hp : phase_of p.rid w.trace = some .freed) :
    Orderly (release_work p w).trace ∧ (release_work p w).next_id = w.next_id ∧
      ∀ r, r ≠ p.rid → phase_of r (release_work p w).trace = phase_of r w.trace := by
  unfold release_work
  split
  · refine ⟨orderly_emit w (.work_released p.rid) .freed .dead ho hp rfl, rfl, ?_⟩
    intro r hr
    exact phase_of_emit_other r w _ (Or.inl (fun h => hr h.symm))
  · exact ⟨ho, rfl, fun _ _ => rfl⟩

/-- Destroying a record that has not completed, and with it the records
that wait for it through the bridges it holds, keeps the trace in order and
leaves the younger records alone. -/
theorem destroy_orderly (h : Handler) :
    ∀ (p : co_composed_promise) (w : World) (ph : Phase),
      Orderly w.trace → phase_of p.rid w.trace = some ph →
      ph.step (.frame_destroyed p.rid) = some .freed →
      Waiting w.trace p.rid h →
      Orderly (p.destroy h w).trace ∧ (p.destroy h w).next_id = w.next_id ∧
        ∀ r, p.rid < r → phase_of r (p.destroy h w).trace = phase_of r w.trace := by
  induction h with
  | final =>
    intro p w ph ho hp hs _
    rw [co_composed_promise.destroy]
    have ho1 := orderly_emit w (.frame_destroyed p.rid) ph .freed ho hp hs
    have hp1 := phase_of_emit_same w (.frame_destroyed p.rid) ph .freed hp hs
    obtain ⟨h1, h2, h3⟩ := release_work_freed p _ ho1 hp1
    refine ⟨h1, h2, ?_⟩
    intro r hr
    rw [h3 r (by omega)]
    exact phase_of_emit_other r w _ (Or.inl (by simp [Event.rid]; omega))
  | bridge p' h' ih =>
    intro p w ph ho hp hs hw
    obtain ⟨hlt, hp', hw'⟩ := hw
    rw [co_composed_promise.destroy]
    have ho1 := orderly_emit w (.frame_destroyed p.rid) ph .freed ho hp hs
    have hp1 := phase_of_emit_same w (.frame_destroyed p.rid) ph .freed hp hs
    have hsame : ∀ r, r ≠ p.rid →
        phase_of r (w.emit (.frame_destroyed p.rid)).trace = phase_of r w.trace := by
      intro r hr
      exact phase_of_emit_other r w _ (Or.inl (fun h => hr h.symm))
    by_cases hh : p.state_.handler_ = true
    · simp only [hh, if_true]
      have hp1' : phase_of p'.rid (w.emit (.frame_destroyed p.rid)).trace = some .suspended := by
        rw [hsame p'.rid (by omega)]; exact hp'
      have hw1 : Waiting (w.emit (.frame_destroyed p.rid)).trace p'.rid h' :=
        Waiting.waiting_of_same h' p'.rid (fun r hr => hsame r (by omega)) hw'
      obtain ⟨g1, g2, g3⟩ := ih p' _ .suspended ho1 hp1' rfl hw1
      have hp2 : phase_of p.rid
          (p'.destroy h' (w.emit (.frame_destroyed p.rid))).trace = some .freed := by
        rw [g3 p.rid hlt]; exact hp1
      obtain ⟨h1, h2, h3⟩ := release_work_freed p _ g1 hp2
      refine ⟨h1, h2.trans g2, ?_⟩
      intro r hr
      rw [h3 r (by omega), g3 r (by omega), hsame r (by omega)]
    · have hf : p.state_.handler_ = false := by simpa using hh
      simp only [hf, Bool.false_eq_true, if_false]
      obtain ⟨h1, h2, h3⟩ := release_work_freed p _ ho1 hp1
      refine ⟨h1, h2, ?_⟩
      intro r hr
      rw [h3 r (by omega), hsame r (by omega)]

/-- The run of a body at `co_yield state.complete(vs...)`, for any record in
any context. -/
theorem run_yield_at (d : Driver) (vs : List Val) (rest : Body) (p : co_composed_promise)
    (h : Handler) (s : Stack) (w : World) (hw : p.state_.work_ = true) :
    run d (.co_yield vs rest) p h s w
      = (⟨w.trace ++ [.yield_value p.rid vs, .work_released p.rid,
            .pending_invoked p.rid .complete_yield, .moved_out p.rid vs,
            .frame_destroyed p.rid, .handler_invoked p.rid vs], w.next_id⟩,
          .completed vs (⟨d, p.yield_await_suspend.move_handler, h⟩ :: s)) := by
  rw [run]
  cases h <;>
    simp [co_composed_promise.yield_await_suspend, co_composed_promise.work_reset,
      co_composed_promise.arm, release_work, hw, World.emit, complete,
      co_composed_promise.move_handler, co_composed_handler_base_dtor,
      co_composed_promise.destroy]

/-- The run of a body at `co_return {vs...}` when overload `i` is selected,
for any record in any context. -/
theorem run_return_at (d : Driver) (vs : List Val) (i : Nat) (p : co_composed_promise)
    (h : Handler) (s : Stack) (w : World) (hw : p.state_.work_ = true)
    (hi : p.return_overload vs = some i) :
    run d (.co_return vs) p h s w
      = (⟨w.trace ++ [.return_value p.rid vs, .work_released p.rid,
            .pending_invoked p.rid (.complete_return i), .moved_out p.rid vs,
            .frame_destroyed p.rid, .handler_invoked p.rid vs], w.next_id⟩,
          .completed vs (⟨d, (p.return_value i vs).move_handler, h⟩ :: s)) := by
  rw [run]
  cases h <;>
    simp [hi, co_composed_promise.return_value, co_composed_promise.work_reset,
      co_composed_promise.arm, co_composed_promise.get_return_value, release_work, hw,
      World.emit, complete, co_composed_promise.move_handler, co_composed_handler_base_dtor,
      co_composed_promise.destroy]

/-- The run of a body at `co_return {vs...}` when no overload takes the tuple. -/
theorem run_return_ill_formed (d : Driver) (vs : List Val) (p : co_composed_promise)
    (h : Handler) (s : Stack) (w : World) (hi : p.return_overload vs = none) :
    run d (.co_return vs) p h s w = (w.emit (.ill_formed p.rid), .halted) := by
  rw [run]
  simp [hi]

/-- A completion takes a running record to the end of its life and touches
no other record. -/
theorem settled_completion (p p1 : co_composed_promise) (d : Driver) (h : Handler) (s : Stack)
    (w : World) (ev : Event) (fn : Pending) (vs : List Val) (hr : Ready p h s w)
    (hev : ev = .yield_value p.rid vs ∨ ev = .return_value p.rid vs)
    (hfn : fn = .complete_yield ∨ ∃ i, fn = .complete_return i)
    (hp1 : p1.owner_p_ = false) :
    Settled p.rid w
      (⟨w.trace ++ [ev, .work_released p.rid, .pending_invoked p.rid fn, .moved_out p.rid vs,
          .frame_destroyed p.rid, .handler_invoked p.rid vs], w.next_id⟩,
        .completed vs (⟨d, p1, h⟩ :: s)) := by
  have hother : ∀ r, r ≠ p.rid →
      phase_of r (w.trace ++ [ev, .work_released p.rid, .pending_invoked p.rid fn,
        .moved_out p.rid vs, .frame_destroyed p.rid, .handler_invoked p.rid vs])
        = phase_of r w.trace := by
    intro r hne
    rw [phase_of_append]
    apply foldl_phase_after_other
    intro ev' hev'
    left
    simp only [List.mem_cons, List.mem_singleton, List.not_mem_nil, or_false] at hev'
    rcases hev' with h1 | h1 | h1 | h1 | h1 | h1 <;> subst h1
    · rcases hev with h2 | h2 <;> subst h2 <;> exact fun h3 => hne h3.symm
    all_goals exact fun h3 => hne h3.symm
  have hsame : phase_of p.rid (w.trace ++ [ev, .work_released p.rid,
      .pending_invoked p.rid fn, .moved_out p.rid vs, .frame_destroyed p.rid,
      .handler_invoked p.rid vs]) = some (.done vs) := by
    rw [phase_of_append, hr.running]
    rcases hev with h2 | h2 <;> subst h2 <;> rcases hfn with h3 | ⟨i, h3⟩ <;> subst h3 <;>
      simp [phase_after, Phase.step, Event.rid, Event.is_driver_exit]
  refine ⟨?_, ?_⟩
  · intro r
    by_cases hne : r = p.rid
    · subst hne
      simp only [hsame]; rfl
    · simp only [hother r hne]
      exact hr.orderly r
  · intro args s' heq
    simp only [Outcome.completed.injEq] at heq
    obtain ⟨_, hs⟩ := heq
    subst hs
    refine ⟨?_, Nat.le_refl _, ?_, ?_⟩
    · intro a ha
      rcases List.mem_cons.mp ha with h1 | h1
      · subst h1; exact hp1
      · exact hr.quiet a h1
    · intro r hle
      have hle' : w.next_id ≤ r := hle
      have hne : r ≠ p.rid := by have := hr.below; omega
      simp only [hother r hne]
      exact hr.unused r hle'
    · intro r hlt
      exact hother r (by omega)

/-- A run that ends without completing is settled when its trace is in order. -/
theorem settled_halted (rid : Nat) (w w1 : World) (ho : Orderly w1.trace) :
    Settled rid w (w1, .halted) :=
  ⟨ho, fun _ _ h => by cases h⟩

/-- A run that goes on after the record was resumed is settled for the
world before the await as well. -/
theorem Settled.settled_of_le {rid : Nat} {w w3 : World} {result : World × Outcome}
    (h : Settled rid w3 result) (hle : w.next_id ≤ w3.next_id)
    (hs : ∀ r, r < rid → phase_of r w3.trace = phase_of r w.trace) :
    Settled rid w result := by
  refine ⟨h.1, ?_⟩
  intro args s heq
  obtain ⟨h1, h2, h3, h4⟩ := h.2 args s heq
  exact ⟨h1, Nat.le_trans hle h2, h3, fun r hr => (h4 r hr).trans (hs r hr)⟩

/-- The record after its driver has fired the pending continuation that
starts a sub-operation: it is suspended and nothing else has changed. -/
theorem ready_started {p : co_composed_promise} {h : Handler} {s : Stack} {w : World}
    (hr : Ready p h s w) :
    Orderly ((w.emit (.pending_invoked p.rid .start_operation)).emit
        (.operation_started p.rid)).trace ∧
      phase_of p.rid ((w.emit (.pending_invoked p.rid .start_operation)).emit
        (.operation_started p.rid)).trace = some .suspended ∧
      ∀ r, r ≠ p.rid →
        phase_of r ((w.emit (.pending_invoked p.rid .start_operation)).emit
          (.operation_started p.rid)).trace = phase_of r w.trace := by
  have ho1 := orderly_emit w (.pending_invoked p.rid .start_operation) .running .starting
    hr.orderly hr.running rfl
  have hp1 := phase_of_emit_same w (.pending_invoked p.rid .start_operation) .running .starting
    hr.running rfl
  have ho2 := orderly_emit _ (.operation_started p.rid) .starting .suspended ho1 hp1 rfl
  have hp2 := phase_of_emit_same _ (.operation_started p.rid) .starting .suspended hp1 rfl
  refine ⟨ho2, hp2, ?_⟩
  intro r hne
  rw [phase_of_emit_other r _ (.operation_started p.rid) (Or.inl (fun h => hne h.symm)),
    phase_of_emit_other r _ (.pending_invoked p.rid .start_operation)
      (Or.inl (fun h => hne h.symm))]

/-- A record that is resumed from its suspension is ready for its next step. -/
theorem ready_resumed {p p2 : co_composed_promise} {h : Handler} {s s2 : Stack} {w w2 : World}
    (hr : Ready p h s w) (ho : Orderly w2.trace)
    (hp : phase_of p.rid w2.trace = some .suspended)
    (hlow : ∀ r, r < p.rid → phase_of r w2.trace = phase_of r w.trace)
    (hle : w.next_id ≤ w2.next_id)
    (hun : ∀ r, w2.next_id ≤ r → phase_of r w2.trace = some .fresh)
    (hq : Stack.quiet s2)
    (h1 : p2.rid = p.rid) (h2 : p2.state_.work_ = p.state_.work_) (h3 : p2.owner_p_ = false) :
    Ready p2 h s2 (w2.emit (.resume p.rid)) := by
  have hsame : ∀ r, r ≠ p.rid →
      phase_of r (w2.emit (.resume p.rid)).trace = phase_of r w2.trace := by
    intro r hne
    exact phase_of_emit_other r _ _ (Or.inl (fun h => hne h.symm))
  refine ⟨orderly_emit w2 (.resume p.rid) .suspended .running ho hp rfl, ?_, ?_, h3, ?_, ?_, ?_, hq⟩
  · rw [h1]
    exact phase_of_emit_same w2 (.resume p.rid) .suspended .running hp rfl
  · rw [h2]; exact hr.work
  · rw [h1]
    have := hr.below
    show p.rid < w2.next_id
    omega
  · intro r hle2
    have hle3 : w2.next_id ≤ r := hle2
    have := hr.below
    rw [hsame r (by omega)]
    exact hun r hle3
  · rw [h1]
    exact Waiting.waiting_of_same h p.rid
      (fun r hlt => (hsame r (by omega)).trans (hlow r hlt)) hr.waiting

/-- A fresh record starts running. -/
theorem phase_coroutine_new (return_type : Return) (has_slot : Bool) (w : World)
    (h : phase_of w.next_id w.trace = some .fresh) :
    phase_of w.next_id (coroutine_new return_type has_slot w).2.trace = some .running := by
  simp [coroutine_new, World.emit, phase_of_append, phase_after, Event.rid, h, Phase.step,
    Event.is_driver_exit]

/-- Every run keeps every record in order, whatever the body. -/
theorem run_orderly (body : Body) :
    ∀ (d : Driver) (p : co_composed_promise) (h : Handler) (s : Stack) (w : World),
      Ready p h s w → Settled p.rid w (run d body p h s w) := by
  induction body with
  | raise e =>
    intro d p h s w hr
    rw [run]
    apply settled_halted
    have ho1 := orderly_emit w (.unhandled_exception p.rid e) .running .failed
      hr.orderly hr.running rfl
    have hp1 := phase_of_emit_same w (.unhandled_exception p.rid e) .running .failed
      hr.running rfl
    have hsame1 : ∀ r, r ≠ p.rid →
        phase_of r (w.emit (.unhandled_exception p.rid e)).trace = phase_of r w.trace :=
      fun r hne => phase_of_emit_other r w (.unhandled_exception p.rid e)
        (Or.inl (fun h => hne h.symm))
    have hrid : p.unhandled_exception.rid = p.rid := by
      unfold co_composed_promise.unhandled_exception; split <;> rfl
    have key : Orderly (Activation.unwind ⟨d, p.unhandled_exception, h⟩ e
        (w.emit (.unhandled_exception p.rid e))).trace := by
      unfold Activation.unwind
      cases d with
      | initiate =>
        exact orderly_of_same
          (fun r => phase_of_emit_other r _ (.initiate_raised _ e) (Or.inr rfl)) ho1
      | resume =>
        have hsame2 : ∀ r x,
            phase_of r ((w.emit (.unhandled_exception p.rid e)).emit
              (.resume_raised x e)).trace
            = phase_of r (w.emit (.unhandled_exception p.rid e)).trace :=
          fun r x => phase_of_emit_other r _ (.resume_raised x e) (Or.inr rfl)
        have ho2 := fun x => orderly_of_same (fun r => hsame2 r x) ho1
        simp only [co_composed_handler_base_dtor]
        split
        · refine (destroy_orderly h p.unhandled_exception _ .failed (ho2 _) ?_ rfl ?_).1
          · rw [hsame2, hrid]; exact hp1
          · refine Waiting.waiting_of_same h p.unhandled_exception.rid ?_
              (by rw [hrid]; exact hr.waiting)
            intro r hlt
            rw [hrid] at hlt
            exact (hsame2 r _).trans (hsame1 r (by omega))
        · exact ho2 _
    simp only [Stack.unwind]
    exact orderly_of_same (fun r => (phase_of_stack_unwind r s e _ hr.quiet).1) key
  | throw_if_cancelled b rest ih =>
    intro d p h s w hr
    rw [run]
    exact ih d (p.set_throw_if_cancelled b) h s w
      ⟨hr.orderly, hr.running, hr.work, hr.owner_p, hr.below, hr.unused, hr.waiting, hr.quiet⟩
  | reset_cancellation_state rest ih =>
    intro d p h s w hr
    rw [run]
    exact ih d p.reset_cancellation_state h s w
      ⟨hr.orderly, hr.running, hr.work, hr.owner_p, hr.below, hr.unused, hr.waiting, hr.quiet⟩
  | co_return_void =>
    intro d p h s w hr
    rw [run]
    split
    · exact settled_halted _ _ _
        (orderly_emit w (.ill_formed p.rid) .running .rejected hr.orderly hr.running rfl)
    · have ho1 := orderly_emit w (.return_void p.rid) .running .ending hr.orderly hr.running rfl
      have hp1 := phase_of_emit_same w (.return_void p.rid) .running .ending hr.running rfl
      have hsame1 : ∀ r, r ≠ p.rid →
          phase_of r (w.emit (.return_void p.rid)).trace = phase_of r w.trace :=
        fun r hne => phase_of_emit_other r w (.return_void p.rid) (Or.inl (fun h => hne h.symm))
      have ho2 := (destroy_orderly h p (w.emit (.return_void p.rid)) .ending ho1 hp1 rfl
        (Waiting.waiting_of_same h p.rid (fun r hlt => hsame1 r (by omega)) hr.waiting)).1
      split
      · apply settled_halted
        have hq : Stack.quiet (⟨d, p, h⟩ :: s) := by
          intro a ha
          rcases List.mem_cons.mp ha with h1 | h1
          · subst h1; exact hr.owner_p
          · exact hr.quiet a h1
        exact orderly_of_same (fun r => (phase_of_stack_ret r _ _ hq).1) ho2
      · exact settled_halted _ _ _ ho2
  | co_return value =>
    intro d p h s w hr
    cases hi : p.return_overload value with
    | none =>
      rw [run_return_ill_formed d value p h s w hi]
      exact settled_halted _ _ _
        (orderly_emit w (.ill_formed p.rid) .running .rejected hr.orderly hr.running rfl)
    | some i =>
      rw [run_return_at d value i p h s w hr.work hi]
      exact settled_completion p _ d h s w _ _ value hr (Or.inr rfl) (Or.inr ⟨i, rfl⟩)
        hr.owner_p
  | co_yield vs rest _ =>
    intro d p h s w hr
    rw [run_yield_at d vs rest p h s w hr.work]
    exact settled_completion p _ d h s w _ _ vs hr (Or.inl rfl) (Or.inl rfl) hr.owner_p
  | co_await op k ih =>
    intro d p h s w hr
    rw [run]
    split
    · exact ih _ d p h s w hr
    · simp only [await_suspend_fn]
      obtain ⟨ho1, hp1, hsame1⟩ := ready_started hr
      have hq : Stack.quiet (⟨d, p.await_suspend, h⟩ :: s) := by
        intro a ha
        rcases List.mem_cons.mp ha with h1 | h1
        · subst h1; exact hr.owner_p
        · exact hr.quiet a h1
      cases op with
      | raises e =>
        apply settled_halted
        have ho2 := (destroy_orderly h p.await_suspend _ .suspended ho1 hp1 rfl
          (Waiting.waiting_of_same h p.rid (fun r hlt => hsame1 r (by omega)) hr.waiting)).1
        exact orderly_of_same (fun r => (phase_of_stack_unwind r _ e _ hq).1) ho2
      | deferred ct c =>
        simp only [co_composed_handler_base_resume, resume_result]
        have hret := fun r => phase_of_stack_ret r (⟨d, p.await_suspend, h⟩ :: s)
          ((w.emit (.pending_invoked p.rid .start_operation)).emit (.operation_started p.rid)) hq
        have hr3 : Ready ((p.await_suspend.emit_cancel ct).resume (co_composed_handler_store c))
            h [] ((Stack.ret (⟨d, p.await_suspend, h⟩ :: s)
              ((w.emit (.pending_invoked p.rid .start_operation)).emit
                (.operation_started p.rid))).emit (.resume p.rid)) := by
          refine ready_resumed hr (orderly_of_same (fun r => (hret r).1) ho1)
            ((hret p.rid).1.trans hp1)
            (fun r hlt => ((hret r).1).trans (hsame1 r (by omega)))
            (by rw [(hret 0).2]; exact Nat.le_refl _) ?_ (by intro a ha; cases ha) rfl rfl rfl
          intro r hle
          rw [(hret r).2] at hle
          have hle' : w.next_id ≤ r := hle
          have := hr.below
          rw [(hret r).1, hsame1 r (by omega)]
          exact hr.unused r hle'
        refine (ih _ .resume _ h [] _ hr3).settled_of_le ?_ ?_
        · show w.next_id ≤ (Stack.ret _ _).next_id
          rw [(hret 0).2]; exact Nat.le_refl _
        · intro r hlt
          have hlt' : r < p.rid := hlt
          rw [phase_of_emit_other r _ (.resume p.rid) (Or.inl (by simp [Event.rid]; omega)),
            (hret r).1, hsame1 r (by omega)]
  | co_await_composed return_type inner k ih_inner ih =>
    intro d p h s w hr
    rw [run]
    split
    · exact ih _ d p h s w hr
    · simp only [await_suspend_fn]
      obtain ⟨ho1, hp1, hsame1⟩ := ready_started hr
      have hq : Stack.quiet (⟨d, p.await_suspend, h⟩ :: s) := by
        intro a ha
        rcases List.mem_cons.mp ha with h1 | h1
        · subst h1; exact hr.owner_p
        · exact hr.quiet a h1
      have hbelow := hr.below
      have hpn : phase_of w.next_id ((w.emit (.pending_invoked p.rid .start_operation)).emit
          (.operation_started p.rid)).trace = some .fresh := by
        rw [hsame1 _ (by omega)]; exact hr.unused _ (Nat.le_refl _)
      have hsame2 : ∀ r, r ≠ w.next_id →
          phase_of r (coroutine_new return_type p.await_suspend.has_slot
            ((w.emit (.pending_invoked p.rid .start_operation)).emit
              (.operation_started p.rid))).2.trace
          = phase_of r ((w.emit (.pending_invoked p.rid .start_operation)).emit
              (.operation_started p.rid)).trace := by
        intro r hne
        exact phase_of_emit_other r _ (.frame_allocated w.next_id) (Or.inl (fun h => hne h.symm))
      have hin : Ready (coroutine_new return_type p.await_suspend.has_slot
            ((w.emit (.pending_invoked p.rid .start_operation)).emit
              (.operation_started p.rid))).1
          (.bridge p.await_suspend h) (⟨d, p.await_suspend, h⟩ :: s)
          (coroutine_new return_type p.await_suspend.has_slot
            ((w.emit (.pending_invoked p.rid .start_operation)).emit
              (.operation_started p.rid))).2 := by
        have hnew : phase_of w.next_id (coroutine_new return_type p.await_suspend.has_slot
            ((w.emit (.pending_invoked p.rid .start_operation)).emit
              (.operation_started p.rid))).2.trace = some .running :=
          phase_coroutine_new return_type p.await_suspend.has_slot
            ((w.emit (.pending_invoked p.rid .start_operation)).emit
              (.operation_started p.rid)) hpn
        refine ⟨?_, hnew, rfl, rfl, ?_, ?_, ?_, hq⟩
        · intro r
          by_cases hne : r = w.next_id
          · subst hne
            rw [hnew]; rfl
          · rw [hsame2 r hne]; exact ho1 r
        · show w.next_id < w.next_id + 1
          omega
        · intro r hle
          have hle' : w.next_id + 1 ≤ r := hle
          rw [hsame2 r (by omega), hsame1 r (by omega)]
          exact hr.unused r (by omega)
        · refine ⟨hbelow, ?_, ?_⟩
          · rw [hsame2 _ (by show p.rid ≠ w.next_id; omega)]; exact hp1
          · exact Waiting.waiting_of_same h p.rid
              (fun r hlt => (hsame2 r (by omega)).trans (hsame1 r (by omega))) hr.waiting
      have hset := ih_inner .initiate _ (.bridge p.await_suspend h)
        (⟨d, p.await_suspend, h⟩ :: s) _ hin
      split
      · rename_i w2 heq
        rw [heq] at hset
        exact settled_halted _ _ _ hset.1
      · rename_i w2 args s' heq
        rw [heq] at hset
        obtain ⟨hq', hle', hun', hlow'⟩ := hset.2 args s' rfl
        simp only [co_composed_handler_base_resume, resume_result]
        have hle2 : w.next_id + 1 ≤ w2.next_id := hle'
        have hlow2 : ∀ r, r < w.next_id → phase_of r w2.trace
            = phase_of r ((w.emit (.pending_invoked p.rid .start_operation)).emit
                (.operation_started p.rid)).trace := by
          intro r hlt
          have h1 := hlow' r hlt
          rw [hsame2 r (by omega)] at h1
          exact h1
        have hr3 : Ready (p.await_suspend.resume (co_composed_handler_store (.plain args)))
            h s' (w2.emit (.resume p.rid)) := by
          refine ready_resumed hr hset.1 ((hlow2 p.rid hbelow).trans hp1)
            (fun r hlt => (hlow2 r (by omega)).trans (hsame1 r (by omega)))
            (by omega) hun' hq' rfl rfl rfl
        refine (ih _ .resume _ h s' _ hr3).settled_of_le ?_ ?_
        · show w.next_id ≤ w2.next_id
          omega
        · intro r hlt
          have hlt' : r < p.rid := hlt
          rw [phase_of_emit_other r _ (.resume p.rid) (Or.inl (by simp [Event.rid]; omega)),
            hlow2 r (by omega), hsame1 r (by omega)]

/-- The events of a record and one more event of it. -/
theorem life_concat_same (rid : Nat) (t : List Event) (ev : Event) (hr : ev.rid = rid)
    (hx : ev.is_driver_exit = false) :
    life rid (t ++ [ev]) = life rid t ++ [ev] := by
  simp [life, List.filter_append, hx, hr]

/-- The events of a record and an event that is none of its own. -/
theorem life_concat_other (rid : Nat) (t : List Event) (ev : Event)
    (h : ev.rid ≠ rid ∨ ev.is_driver_exit = true) :
    life rid (t ++ [ev]) = life rid t := by
  rcases h with h | h <;> simp [life, List.filter_append, h]

/-- The phase after one more event, spelled out. -/
theorem phase_of_concat (rid : Nat) (t : List Event) (ev : Event) :
    phase_of rid (t ++ [ev]) = phase_after rid (phase_of rid t) ev := by
  simp [phase_of_append]

/-- A driver leaving changes no phase. -/
theorem step_driver_exit (q : Phase) (ev : Event) (hx : ev.is_driver_exit = true) :
    q.step ev = some q := by
  simp [Phase.step, hx]

/-- The events of a record on its way to completion are those its phase tells. -/
theorem life_of_phase (rid : Nat) (t : List Event) :
    ∀ ph, phase_of rid t = some ph → ph.life_is rid (life rid t) := by
  induction t using List.reverseRecOn with
  | nil =>
    intro ph h
    simp only [phase_of, List.foldl_nil, Option.some.injEq] at h
    subst h
    simp [Phase.life_is, life]
  | append_singleton t ev ih =>
    intro ph h
    rw [phase_of_concat] at h
    unfold phase_after at h
    by_cases hrid : ev.rid = rid
    · simp only [hrid, if_true] at h
      cases hq : phase_of rid t with
      | none => rw [hq] at h; simp at h
      | some q =>
        rw [hq] at h
        simp only [Option.some_bind] at h
        have hl := ih q hq
        by_cases hx : ev.is_driver_exit = true
        · rw [step_driver_exit q ev hx] at h
          cases h
          rw [life_concat_other rid t ev (Or.inr hx)]
          exact hl
        · have hx' : ev.is_driver_exit = false := by simpa using hx
          rw [life_concat_same rid t ev hrid hx']
          cases ev with
          | frame_allocated r =>
            simp only [Event.rid] at hrid
            subst hrid
            cases q <;> simp [Phase.step, Event.is_driver_exit] at h
            subst h
            simp only [Phase.life_is] at hl ⊢
            exact ⟨0, by simp [hl, steps]⟩
          | yield_value r vs =>
            simp only [Event.rid] at hrid
            subst hrid
            cases q <;> simp [Phase.step, Event.is_driver_exit] at h
            subst h
            simp only [Phase.life_is] at hl ⊢
            obtain ⟨n, hn⟩ := hl
            exact ⟨n, _, Or.inl rfl, by simp [hn]⟩
          | return_value r vs =>
            simp only [Event.rid] at hrid
            subst hrid
            cases q <;> simp [Phase.step, Event.is_driver_exit] at h
            subst h
            simp only [Phase.life_is] at hl ⊢
            obtain ⟨n, hn⟩ := hl
            exact ⟨n, _, Or.inr rfl, by simp [hn]⟩
          | return_void r =>
            simp only [Event.rid] at hrid
            subst hrid
            cases q <;> simp [Phase.step, Event.is_driver_exit] at h
            subst h
            simp [Phase.life_is]
          | unhandled_exception r e =>
            simp only [Event.rid] at hrid
            subst hrid
            cases q <;> simp [Phase.step, Event.is_driver_exit] at h
            subst h
            simp [Phase.life_is]
          | ill_formed r =>
            simp only [Event.rid] at hrid
            subst hrid
            cases q <;> simp [Phase.step, Event.is_driver_exit] at h
            subst h
            simp [Phase.life_is]
          | pending_invoked r fn =>
            simp only [Event.rid] at hrid
            subst hrid
            cases fn with
            | start_operation =>
              cases q <;> simp [Phase.step, Event.is_driver_exit] at h
              subst h
              simp only [Phase.life_is] at hl ⊢
              obtain ⟨n, hn⟩ := hl
              exact ⟨n, by simp [hn]⟩
            | complete_yield =>
              cases q <;> simp [Phase.step, Event.is_driver_exit] at h
              subst h
              simp only [Phase.life_is] at hl ⊢
              obtain ⟨n, ev, hev, hn⟩ := hl
              exact ⟨n, ev, _, hev, Or.inl rfl, by simp [hn]⟩
            | complete_return i =>
              cases q <;> simp [Phase.step, Event.is_driver_exit] at h
              subst h
              simp only [Phase.life_is] at hl ⊢
              obtain ⟨n, ev, hev, hn⟩ := hl
              exact ⟨n, ev, _, hev, Or.inr ⟨i, rfl⟩, by simp [hn]⟩
          | operation_started r =>
            simp only [Event.rid] at hrid
            subst hrid
            cases q <;> simp [Phase.step, Event.is_driver_exit] at h
            subst h
            simp only [Phase.life_is] at hl ⊢
            obtain ⟨n, hn⟩ := hl
            exact ⟨n, by simp [hn]⟩
          | resume r =>
            simp only [Event.rid] at hrid
            subst hrid
            cases q <;> simp [Phase.step, Event.is_driver_exit] at h
            subst h
            simp only [Phase.life_is] at hl ⊢
            obtain ⟨n, hn⟩ := hl
            exact ⟨n + 1, by simp [hn, steps]⟩
          | work_released r =>
            simp only [Event.rid] at hrid
            subst hrid
            cases q <;> simp [Phase.step, Event.is_driver_exit] at h
            · subst h
              simp only [Phase.life_is] at hl ⊢
              obtain ⟨n, ev, hev, hn⟩ := hl
              exact ⟨n, ev, hev, by simp [hn]⟩
            · subst h
              simp [Phase.life_is]
          | moved_out r vs =>
            simp only [Event.rid] at hrid
            subst hrid
            cases q <;> simp [Phase.step, Event.is_driver_exit] at h
            obtain ⟨h1, h2⟩ := h
            subst h1 h2
            simp only [Phase.life_is] at hl ⊢
            obtain ⟨n, ev, fn, hev, hfn, hn⟩ := hl
            exact ⟨n, ev, fn, hev, hfn, by simp [hn]⟩
          | frame_destroyed r =>
            simp only [Event.rid] at hrid
            subst hrid
            cases q <;> simp [Phase.step, Event.is_driver_exit] at h
            · subst h; simp [Phase.life_is]
            · subst h
              simp only [Phase.life_is] at hl ⊢
              obtain ⟨n, ev, fn, hev, hfn, hn⟩ := hl
              exact ⟨n, ev, fn, hev, hfn, by simp [hn]⟩
            · subst h; simp [Phase.life_is]
            · subst h; simp [Phase.life_is]
          | handler_invoked r vs =>
            simp only [Event.rid] at hrid
            subst hrid
            cases q <;> simp [Phase.step, Event.is_driver_exit] at h
            obtain ⟨h1, h2⟩ := h
            subst h1 h2
            simp only [Phase.life_is] at hl ⊢
            obtain ⟨n, ev, fn, hev, hfn, hn⟩ := hl
            exact ⟨n, ev, fn, hev, hfn, by simp [hn]⟩
          | initiate_returned r => simp [Event.is_driver_exit] at hx
          | initiate_raised r e => simp [Event.is_driver_exit] at hx
          | resume_returned r => simp [Event.is_driver_exit] at hx
          | resume_raised r e => simp [Event.is_driver_exit] at hx
    · simp only [hrid, if_false] at h
      rw [life_concat_other rid t ev (Or.inl hrid)]
      exact ih ph h

/-- After the call of the final continuation only drivers leave. -/
theorem foldl_from_done (rid : Nat) (vs : List Val) (post : List Event) :
    ∀ ph, post.foldl (phase_after rid) (some (.done vs)) = some ph →
      ph = .done vs ∧ life rid post = [] := by
  induction post with
  | nil =>
    intro ph h
    simp only [List.foldl_nil, Option.some.injEq] at h
    exact ⟨h.symm, rfl⟩
  | cons ev post ih =>
    intro ph h
    rw [List.foldl_cons] at h
    by_cases hrid : ev.rid = rid
    · by_cases hx : ev.is_driver_exit = true
      · have h1 : phase_after rid (some (.done vs)) ev = some (.done vs) := by
          simp [phase_after, hrid, step_driver_exit _ ev hx]
        rw [h1] at h
        obtain ⟨h2, h3⟩ := ih ph h
        exact ⟨h2, by simpa [life, hx] using h3⟩
      · have h1 : phase_after rid (some (.done vs)) ev = none := by
          simp [phase_after, hrid, Phase.step, hx]
        rw [h1, foldl_phase_after_none] at h
        cases h
    · have h1 : phase_after rid (some (.done vs)) ev = some (.done vs) := by
        simp [phase_after, hrid]
      rw [h1] at h
      obtain ⟨h2, h3⟩ := ih ph h
      exact ⟨h2, by simpa [life, hrid] using h3⟩

/-- In a trace in order, a call of the final continuation of a record finds
the frame of the record destroyed after its payload was moved out, and ends
the life of the record. -/
theorem phase_around_invoked (rid : Nat) (vs : List Val) (pre post : List Event)
    (ho : Orderly (pre ++ .handler_invoked rid vs :: post)) :
    phase_of rid pre = some (.destroyed vs) ∧
      phase_of rid (pre ++ .handler_invoked rid vs :: post) = some (.done vs) ∧
      life rid post = [] := by
  have h := ho rid
  rw [phase_of_append, List.foldl_cons] at h
  cases hq : phase_of rid pre with
  | none =>
    rw [hq] at h
    have h1 : phase_after rid none (.handler_invoked rid vs) = none := by
      simp [phase_after]
    rw [h1, foldl_phase_after_none] at h
    cases h
  | some q =>
    rw [hq] at h
    have h1 : phase_after rid (some q) (.handler_invoked rid vs)
        = q.step (.handler_invoked rid vs) := by
      simp [phase_after, Event.rid]
    rw [h1] at h
    cases hs : q.step (.handler_invoked rid vs) with
    | none =>
      rw [hs, foldl_phase_after_none] at h
      cases h
    | some q' =>
      have hq' : q = .destroyed vs ∧ q' = .done vs := by
        cases q <;> simp [Phase.step, Event.is_driver_exit] at hs
        obtain ⟨h2, h3⟩ := hs
        subst h2 h3
        exact ⟨rfl, rfl⟩
      obtain ⟨h2, h3⟩ := hq'
      subst h2 h3
      rw [hs] at h
      cases hf : post.foldl (phase_after rid) (some (.done vs)) with
      | none => rw [hf] at h; cases h
      | some ph =>
        obtain ⟨h4, h5⟩ := foldl_from_done rid vs post ph hf
        subst h4
        refine ⟨rfl, ?_, h5⟩
        rw [phase_of_append, List.foldl_cons, hq, h1, hs, hf]

/-- The trace of a whole run is in order, whatever the body. -/
theorem trace_of_orderly (return_type : Return) (has_slot : Bool) (body : Body) :
    Orderly (trace_of return_type has_slot body) := by
  have hr : Ready (co_composed_promise.ctor 0 return_type has_slot) .final []
      ⟨[Event.frame_allocated 0] ++ await_trace 0, 1⟩ := by
    refine ⟨?_, rfl, rfl, rfl, Nat.zero_lt_one, ?_, trivial, by intro a ha; cases ha⟩
    · intro r
      by_cases h : r = 0
      · subst h; rfl
      · simp [await_trace, phase_of, phase_after, Event.rid, Ne.symm h]
    · intro r hr
      have h : 0 ≠ r := by
        have h1 : 1 ≤ r := hr
        omega
      simp [await_trace, phase_of, phase_after, Event.rid, h]
  have hs := run_orderly body (driver_after 0) _ .final [] _ hr
  rw [trace_of_eq]
  split
  · rename_i w1 heq
    rw [heq] at hs
    exact hs.1
  · rename_i w1 args s heq
    rw [heq] at hs
    obtain ⟨hq, _, _, _⟩ := hs.2 args s rfl
    exact orderly_of_same (fun r => (phase_of_stack_ret r s w1 hq).1) hs.1

/-- The life of every record whose final continuation is called, in every
run of every body: the frame is allocated; some number of steps each end
with the driver firing the pending continuation that starts a sub-operation,
after which the record is resumed; in the last step the body completes, the
liveness token is released, the driver fires the pending continuation that
completes, which moves the final continuation and the payload out of the
frame, destroys the frame and calls the final continuation. -/
theorem life_of_invoked (return_type : Return) (has_slot : Bool) (body : Body) (rid : Nat)
    (vs : List Val) (h : Event.handler_invoked rid vs ∈ trace_of return_type has_slot body) :
    ∃ n ev fn, Event.completes rid vs ev ∧ Pending.completes fn ∧
      life rid (trace_of return_type has_slot body)
        = .frame_allocated rid ::
          (steps rid n ++ [ev, .work_released rid, .pending_invoked rid fn, .moved_out rid vs,
            .frame_destroyed rid, .handler_invoked rid vs]) := by
  have ho := trace_of_orderly return_type has_slot body
  obtain ⟨pre, post, heq⟩ := List.append_of_mem h
  rw [heq] at ho
  have hd := (phase_around_invoked rid vs pre post ho).2.1
  rw [← heq] at hd
  exact life_of_phase rid _ _ hd

/-! ## Counting the events of a record -/

/-- An event of a record is counted in the life of the record. -/
theorem count_life (rid : Nat) (t : List Event) (ev : Event) (hr : ev.rid = rid)
    (hx : ev.is_driver_exit = false) : t.count ev = (life rid t).count ev := by
  unfold life
  rw [List.count_filter]
  simp [hr, hx]

/-- Dropping elements that a partial map rejects does not change the result. -/
theorem filterMap_filter_of {α β : Type} (f : α → Option β) (p : α → Bool) (l : List α)
    (h : ∀ x, p x = false → f x = none) : (l.filter p).filterMap f = l.filterMap f := by
  induction l with
  | nil => rfl
  | cons x l ih =>
    cases hp : p x with
    | true => simp [List.filter_cons, hp, List.filterMap_cons, ih]
    | false => simp [List.filter_cons, hp, List.filterMap_cons, ih, h x hp]

/-- The calls of the final continuation of a record are in its life. -/
theorem invocations_life (rid : Nat) (t : List Event) :
    invocations rid t = invocations rid (life rid t) := by
  unfold invocations life
  symm
  apply filterMap_filter_of
  intro x hx
  cases x <;> simp [Event.rid, Event.is_driver_exit] at hx ⊢
  exact hx

/-- The pending continuations fired for a record are in its life. -/
theorem fired_life (rid : Nat) (t : List Event) : fired rid t = fired rid (life rid t) := by
  unfold fired life
  symm
  apply filterMap_filter_of
  intro x hx
  cases x <;> simp [Event.rid, Event.is_driver_exit] at hx ⊢
  exact hx

/-- The steps that end in an await release no token, destroy no frame and
call no final continuation; each has one resume and one pending
continuation fired, the one that starts a sub-operation. -/
theorem steps_counts (rid : Nat) (n : Nat) :
    (steps rid n).count (.work_released rid) = 0 ∧
    (steps rid n).count (.frame_destroyed rid) = 0 ∧
    (steps rid n).count (.resume rid) = n ∧
    invocations rid (steps rid n) = [] ∧
    fired rid (steps rid n) = List.replicate n .start_operation := by
  induction n with
  | zero => exact ⟨rfl, rfl, rfl, rfl, rfl⟩
  | succ n ih =>
    obtain ⟨h1, h2, h3, h4, h5⟩ := ih
    refine ⟨?_, ?_, ?_, ?_, ?_⟩
    · simp [steps, List.count_append, h1, List.count_cons]
    · simp [steps, List.count_append, h2, List.count_cons]
    · simp [steps, List.count_append, h3, List.count_cons]
    · rw [steps, invocations_append, h4]
      simp [invocations]
    · unfold fired at h5 ⊢
      rw [steps, List.filterMap_append, h5]
      simp [List.replicate_succ']

/-- The final continuation of a record was called with a payload when the
call is among the events. -/
theorem mem_invocations (rid : Nat) (vs : List Val) (t : List Event) :
    vs ∈ invocations rid t ↔ Event.handler_invoked rid vs ∈ t := by
  unfold invocations
  rw [List.mem_filterMap]
  constructor
  · rintro ⟨ev, hev, h⟩
    cases ev <;> simp at h
    obtain ⟨h1, h2⟩ := h
    subst h1 h2
    exact hev
  · intro h
    exact ⟨_, h, by simp⟩

/-- The body of a record completed with a payload when its `yield_value` or
`return_value` is among the events. -/
theorem mem_completions (rid : Nat) (vs : List Val) (t : List Event) :
    vs ∈ completions rid t ↔ ∃ ev, Event.completes rid vs ev ∧ ev ∈ t := by
  unfold completions Event.completes
  rw [List.mem_filterMap]
  constructor
  · rintro ⟨ev, hev, h⟩
    cases ev <;> simp at h
    · obtain ⟨h1, h2⟩ := h
      subst h1 h2
      exact ⟨_, Or.inl rfl, hev⟩
    · obtain ⟨h1, h2⟩ := h
      subst h1 h2
      exact ⟨_, Or.inr rfl, hev⟩
  · rintro ⟨ev, h | h, hev⟩ <;> subst h <;> exact ⟨_, hev, by simp⟩

/-- In every run, a body that completes has its final continuation called
with the payload. -/
theorem invoked_of_completed (return_type : Return) (has_slot : Bool) (body : Body) (rid : Nat)
    (vs : List Val) (h : vs ∈ completions rid (trace_of return_type has_slot body)) :
    Event.handler_invoked rid vs ∈ trace_of return_type has_slot body := by
  rw [← trace_of_balanced] at h
  exact (mem_invocations rid vs _).mp h

/-- What the life of a completed record counts. -/
theorem counts_of_life (rid : Nat) (vs : List Val) (n : Nat) (ev : Event) (fn : Pending)
    (l : List Event) (hev : Event.completes rid vs ev)
    (hl : l = .frame_allocated rid ::
      (steps rid n ++ [ev, .work_released rid, .pending_invoked rid fn, .moved_out rid vs,
        .frame_destroyed rid, .handler_invoked rid vs])) :
    l.count (.work_released rid) = 1 ∧ l.count (.frame_destroyed rid) = 1 ∧
      l.count (.resume rid) = n ∧ invocations rid l = [vs] ∧
      fired rid l = List.replicate n .start_operation ++ [fn] := by
  obtain ⟨h1, h2, h3, h4, h5⟩ := steps_counts rid n
  subst hl
  refine ⟨?_, ?_, ?_, ?_, ?_⟩
  · rcases hev with h | h <;> subst h <;>
      simp [List.count_cons, List.count_append, h1]
  · rcases hev with h | h <;> subst h <;>
      simp [List.count_cons, List.count_append, h2]
  · rcases hev with h | h <;> subst h <;>
      simp [List.count_cons, List.count_append, h3]
  · have e1 : ∀ t, invocations rid (.frame_allocated rid :: t) = invocations rid t := by
      intro t; simp [invocations]
    rw [e1, invocations_append, h4]
    rcases hev with h | h <;> subst h <;> simp [invocations]
  · have e1 : ∀ t, fired rid (.frame_allocated rid :: t) = fired rid t := by
      intro t; simp [fired]
    have e2 : ∀ t1 t2, fired rid (t1 ++ t2) = fired rid t1 ++ fired rid t2 := by
      intro t1 t2; simp [fired, List.filterMap_append]
    rw [e1, e2, h5]
    rcases hev with h | h <;> subst h <;> simp [fired]

/-! ## The liveness token -/

/-- C12: in every run of every body, for every record (the outermost one
or a nested one) whose body completes with payload `vs` (by
`co_yield state.complete(vs...)` or by `co_return {vs...}`): the final
continuation is called with `vs`; the liveness token of the record is
released exactly once in the run; in the order of the events the release
comes before the call of the final continuation (once before it, never
after it); and among the events of the record the release comes right
after the completion of the body, after the allocation of the frame and
all the steps that ended in an await and a resume, during which the token
is not released. -/
theorem C12_token_released_once_before_completion (return_type : Return) (has_slot : Bool)
    (body : Body) (rid : Nat) (vs : List Val)
    (h : vs ∈ completions rid (trace_of return_type has_slot body)) :
    Event.handler_invoked rid vs ∈ trace_of return_type has_slot body ∧
    released rid (trace_of return_type has_slot body) = 1 ∧
    (∀ pre post, trace_of return_type has_slot body = pre ++ .handler_invoked rid vs :: post →
      released rid pre = 1 ∧ released rid post = 0) ∧
    ∃ n ev fn, Event.completes rid vs ev ∧ Pending.completes fn ∧
      life rid (trace_of return_type has_slot body)
        = .frame_allocated rid ::
          (steps rid n ++ [ev, .work_released rid, .pending_invoked rid fn, .moved_out rid vs,
            .frame_destroyed rid, .handler_invoked rid vs]) ∧
      released rid (.frame_allocated rid :: steps rid n) = 0 := by
  have hi := invoked_of_completed return_type has_slot body rid vs h
  obtain ⟨n, ev, fn, hev, hfn, hl⟩ := life_of_invoked return_type has_slot body rid vs hi
  have hc := counts_of_life rid vs n ev fn _ hev hl
  have hrel : released rid (trace_of return_type has_slot body) = 1 := by
    unfold released
    rw [count_life rid _ (.work_released rid) rfl rfl]
    exact hc.1
  refine ⟨hi, hrel, ?_, n, ev, fn, hev, hfn, hl, ?_⟩
  · intro pre post heq
    have ho := trace_of_orderly return_type has_slot body
    rw [heq] at ho hrel
    have hpost := (phase_around_invoked rid vs pre post ho).2.2
    have h0 : released rid post = 0 := by
      unfold released
      rw [count_life rid _ (.work_released rid) rfl rfl, hpost]
      rfl
    unfold released at hrel h0 ⊢
    rw [List.count_append, List.count_cons, h0] at hrel
    simp at hrel
    exact ⟨hrel, h0⟩
  · unfold released
    simp [List.count_cons, (steps_counts rid n).1]

/-- C12 at the body of `post_loop` with one iteration, and at the composed
operation `nested_post` awaited by `nested_post_loop` (record `1` of the
run): in each the token is released once. -/
theorem C12_token_released_once_before_completion_witness :
    [Val.int 1] ∈ completions 0 (trace_of .void false (post_loop 1)) ∧
    released 0 (trace_of .void false (post_loop 1)) = 1 ∧
    [] ∈ completions 1 (trace_of .void false (nested_post_loop 1)) ∧
    released 1 (trace_of .void false (nested_post_loop 1)) = 1 :=
  ⟨by decide,
    (C12_token_released_once_before_completion .void false (post_loop 1) 0 [.int 1]
      (by decide)).2.1,
    by decide,
    (C12_token_released_once_before_completion .void false (nested_post_loop 1) 1 []
      (by decide)).2.1⟩

/-! ## The order of a completion -/

/-- An element that occurs once splits a list in one way only. -/
theorem append_cons_unique {α : Type} (a : α) :
    ∀ (l1 l2 X Y : List α), l1 ++ a :: l2 = X ++ a :: Y → a ∉ X → a ∉ Y →
      l1 = X ∧ l2 = Y := by
  intro l1
  induction l1 with
  | nil =>
    intro l2 X Y h hX hY
    cases X with
    | nil =>
      simp only [List.nil_append, List.cons.injEq, true_and] at h
      exact ⟨rfl, h⟩
    | cons x X =>
      simp only [List.nil_append, List.cons_append, List.cons.injEq] at h
      exact absurd (by simp [h.1]) hX
  | cons b l1 ih =>
    intro l2 X Y h hX hY
    cases X with
    | nil =>
      simp only [List.nil_append, List.cons_append, List.cons.injEq] at h
      exact absurd (by rw [← h.2]; simp) hY
    | cons x X =>
      simp only [List.cons_append, List.cons.injEq] at h
      obtain ⟨h1, h2⟩ := ih l2 X Y h.2 (fun hm => hX (by simp [hm])) hY
      exact ⟨by rw [h.1, h1], h2⟩

/-- The life of a record around one of its events. -/
theorem life_split (rid : Nat) (pre post : List Event) (ev : Event) (hr : ev.rid = rid)
    (hx : ev.is_driver_exit = false) :
    life rid (pre ++ ev :: post) = life rid pre ++ ev :: life rid post := by
  simp [life, List.filter_append, List.filter_cons, hr, hx]

/-- The events of the life of a record are events of the trace. -/
theorem mem_of_mem_life (rid : Nat) (t : List Event) (ev : Event) (h : ev ∈ life rid t) :
    ev ∈ t :=
  (List.mem_filter.mp h).1

/-- The events of the steps that end in an await. -/
theorem mem_steps (rid : Nat) (n : Nat) (ev : Event) (h : ev ∈ steps rid n) :
    ev = .pending_invoked rid .start_operation ∨ ev = .operation_started rid ∨
      ev = .resume rid := by
  induction n with
  | zero => simp [steps] at h
  | succ n ih =>
    rw [steps, List.mem_append] at h
    rcases h with h | h
    · exact ih h
    · simpa using h

/-- An event of a record is in the life of the record. -/
theorem mem_life (rid : Nat) (t : List Event) (ev : Event) (h : ev ∈ t) (hr : ev.rid = rid)
    (hx : ev.is_driver_exit = false) : ev ∈ life rid t :=
  List.mem_filter.mpr ⟨h, by simp [hr, hx]⟩

/-- C18: in every run of every body, for every record (the outermost one
or a nested one) whose body completes with payload `vs` (by
`co_yield state.complete(vs...)` or by `co_return {vs...}`): the events of
the record end with the completion of the body, the release of the token,
the driver firing the pending continuation that completes, the final
continuation and the payload moved out of the frame, the frame destroyed,
and the final continuation called with the payload that was moved out.  The
frame is destroyed exactly once; in the order of the events of the run the
destruction comes after the move and before the call, the call finds the
frame destroyed, and the record is not resumed after the call nor after the
completion of its body.  What follows a `co_yield state.complete(...)` in
the body has no effect on the run. -/
theorem C18_moved_out_destroyed_then_invoked (return_type : Return) (has_slot : Bool)
    (body : Body) (rid : Nat) (vs : List Val)
    (h : vs ∈ completions rid (trace_of return_type has_slot body)) :
    (∃ n ev fn, Event.completes rid vs ev ∧ Pending.completes fn ∧
      life rid (trace_of return_type has_slot body)
        = .frame_allocated rid ::
          (steps rid n ++ [ev, .work_released rid, .pending_invoked rid fn, .moved_out rid vs,
            .frame_destroyed rid, .handler_invoked rid vs])) ∧
    destroyed rid (trace_of return_type has_slot body) = 1 ∧
    invocations rid (trace_of return_type has_slot body) = [vs] ∧
    (∀ pre post, trace_of return_type has_slot body = pre ++ .frame_destroyed rid :: post →
      Event.moved_out rid vs ∈ pre ∧ Event.handler_invoked rid vs ∉ pre ∧
        Event.handler_invoked rid vs ∈ post) ∧
    (∀ pre post, trace_of return_type has_slot body = pre ++ .handler_invoked rid vs :: post →
      destroyed rid pre = 1 ∧ resumes rid post = 0) ∧
    (∀ ev pre post, Event.completes rid vs ev →
      trace_of return_type has_slot body = pre ++ ev :: post → resumes rid post = 0) ∧
    (∀ d p hd s w rest rest',
      run d (.co_yield vs rest) p hd s w = run d (.co_yield vs rest') p hd s w) := by
  have hi := invoked_of_completed return_type has_slot body rid vs h
  obtain ⟨n, ev, fn, hev, hfn, hl⟩ := life_of_invoked return_type has_slot body rid vs hi
  have hc := counts_of_life rid vs n ev fn _ hev hl
  have hsteps := mem_steps rid n
  refine ⟨⟨n, ev, fn, hev, hfn, hl⟩, ?_, ?_, ?_, ?_, ?_, ?_⟩
  · unfold destroyed
    rw [count_life rid _ (.frame_destroyed rid) rfl rfl]
    exact hc.2.1
  · rw [invocations_life]
    exact hc.2.2.2.1
  · intro pre post heq
    rw [heq, life_split rid pre post (.frame_destroyed rid) rfl rfl] at hl
    have hl' : life rid pre ++ .frame_destroyed rid :: life rid post
        = (.frame_allocated rid ::
            (steps rid n ++ [ev, .work_released rid, .pending_invoked rid fn,
              .moved_out rid vs])) ++ .frame_destroyed rid :: [.handler_invoked rid vs] := by
      rw [hl]; simp
    obtain ⟨h1, h2⟩ := append_cons_unique _ _ _ _ _ hl' (by
      intro hm
      simp only [List.mem_cons, List.mem_append, List.mem_singleton, List.not_mem_nil,
        or_false] at hm
      rcases hm with hm | hm | hm | hm | hm | hm
      · cases hm
      · rcases hsteps _ hm with h3 | h3 | h3 <;> cases h3
      · rcases hev with h3 | h3 <;> subst h3 <;> cases hm
      · cases hm
      · cases hm
      · cases hm) (by simp)
    refine ⟨?_, ?_, ?_⟩
    · exact mem_of_mem_life rid pre _ (by rw [h1]; simp)
    · intro hm
      have hm' := mem_life rid pre _ hm rfl rfl
      rw [h1] at hm'
      simp only [List.mem_cons, List.mem_append, List.mem_singleton, List.not_mem_nil,
        or_false] at hm'
      rcases hm' with hm | hm | hm | hm | hm | hm
      · cases hm
      · rcases hsteps _ hm with h3 | h3 | h3 <;> cases h3
      · rcases hev with h3 | h3 <;> subst h3 <;> cases hm
      · cases hm
      · cases hm
      · cases hm
    · exact mem_of_mem_life rid post _ (by rw [h2]; simp)
  · intro pre post heq
    have ho := trace_of_orderly return_type has_slot body
    rw [heq] at ho
    have hpost := (phase_around_invoked rid vs pre post ho).2.2
    have hd : destroyed rid (trace_of return_type has_slot body) = 1 := by
      unfold destroyed
      rw [count_life rid _ (.frame_destroyed rid) rfl rfl]
      exact hc.2.1
    have h0 : destroyed rid post = 0 := by
      unfold destroyed
      rw [count_life rid _ (.frame_destroyed rid) rfl rfl, hpost]
      rfl
    have h1 : resumes rid post = 0 := by
      unfold resumes
      rw [count_life rid _ (.resume rid) rfl rfl, hpost]
      rfl
    rw [heq] at hd
    unfold destroyed at hd h0 ⊢
    rw [List.count_append, List.count_cons, h0] at hd
    simp at hd
    exact ⟨hd, h1⟩
  · intro ev' pre post hev' heq
    have hx : ev'.is_driver_exit = false := by
      rcases hev' with h3 | h3 <;> subst h3 <;> rfl
    have hr : ev'.rid = rid := by
      rcases hev' with h3 | h3 <;> subst h3 <;> rfl
    have hmem : ev' ∈ life rid (trace_of return_type has_slot body) :=
      mem_life rid _ ev' (by rw [heq]; simp) hr hx
    have hsame : ev' = ev := by
      rw [hl] at hmem
      simp only [List.mem_cons, List.mem_append, List.mem_singleton, List.not_mem_nil,
        or_false] at hmem
      rcases hmem with hm | hm | hm | hm | hm | hm | hm | hm
      · rcases hev' with h3 | h3 <;> subst h3 <;> cases hm
      · rcases hsteps _ hm with h3 | h3 | h3 <;> rcases hev' with h4 | h4 <;> subst h4 <;>
          cases h3
      · exact hm
      all_goals rcases hev' with h3 | h3 <;> subst h3 <;> cases hm
    subst hsame
    rw [heq, life_split rid pre post _ hr hx] at hl
    have hl' : life rid pre ++ ev' :: life rid post
        = (.frame_allocated rid :: steps rid n) ++ ev' ::
            [.work_released rid, .pending_invoked rid fn, .moved_out rid vs,
              .frame_destroyed rid, .handler_invoked rid vs] := by
      rw [hl]; simp
    obtain ⟨_, h2⟩ := append_cons_unique _ _ _ _ _ hl' (by
      intro hm
      simp only [List.mem_cons] at hm
      rcases hm with hm | hm
      · rcases hev with h3 | h3 <;> subst h3 <;> cases hm
      · rcases hsteps _ hm with h3 | h3 | h3 <;> rcases hev with h4 | h4 <;> subst h4 <;>
          cases h3) (by
      rcases hev with h3 | h3 <;> subst h3 <;> simp)
    unfold resumes
    rw [count_life rid _ (.resume rid) rfl rfl, h2]
    simp [List.count_cons]
  · intro d p hd s w rest rest'
    rw [run, run]

/-- C18 at the body of `post_loop` with one iteration, and at the composed
operation `nested_post` awaited by `nested_post_loop` (record `1` of the
run): in each the frame is destroyed once. -/
theorem C18_moved_out_destroyed_then_invoked_witness :
    [Val.int 1] ∈ completions 0 (trace_of .void false (post_loop 1)) ∧
    destroyed 0 (trace_of .void false (post_loop 1)) = 1 ∧
    [] ∈ completions 1 (trace_of .void false (nested_post_loop 1)) ∧
    destroyed 1 (trace_of .void false (nested_post_loop 1)) = 1 :=
  ⟨by decide,
    (C18_moved_out_destroyed_then_invoked .void false (post_loop 1) 0 [.int 1]
      (by decide)).2.1,
    by decide,
    (C18_moved_out_destroyed_then_invoked .void false (nested_post_loop 1) 1 []
      (by decide)).2.1⟩

/-! ## The pending continuation and the steps of a record -/

/-- While a record waits, its events other than a resume keep it waiting,
and none of them is a pending continuation fired. -/
theorem waits_step (q q' : Phase) (ev : Event) (hq : q.waits = true)
    (hs : q.step ev = some q') (hr : ∀ r, ev ≠ .resume r) :
    q'.waits = true ∧ ∀ r fn, ev ≠ .pending_invoked r fn := by
  cases q <;> simp [Phase.waits] at hq <;> cases ev <;>
    simp [Phase.step, Event.is_driver_exit] at hs hr ⊢ <;>
    (try subst hs) <;> (try rfl) <;> (try simp [Phase.waits])
  all_goals (obtain ⟨_, h2⟩ := hs; subst h2; rfl)

/-- Once the body of a record has ended without completing, its events keep
it so, and none of them is a pending continuation fired or a resume. -/
theorem over_step (q q' : Phase) (ev : Event) (hq : q.over = true)
    (hs : q.step ev = some q') :
    q'.over = true ∧ (∀ r fn, ev ≠ .pending_invoked r fn) ∧ ∀ r, ev ≠ .resume r := by
  cases q <;> simp [Phase.over] at hq <;> cases ev <;>
    simp [Phase.step, Event.is_driver_exit] at hs ⊢ <;>
    (try subst hs) <;> (try rfl)

/-- While a record waits and is not resumed, no pending continuation of it
is fired. -/
theorem no_pending_while_waiting (rid : Nat) (post : List Event) :
    ∀ q, q.waits = true → (post.foldl (phase_after rid) (some q)).isSome = true →
      Event.resume rid ∉ post → ∀ fn, Event.pending_invoked rid fn ∉ post := by
  induction post with
  | nil => intro q _ _ _ fn h; cases h
  | cons ev post ih =>
    intro q hq hs hr fn hm
    rw [List.foldl_cons] at hs
    have hr1 : ev ≠ .resume rid := fun h => hr (by simp [h])
    have hr2 : Event.resume rid ∉ post := fun h => hr (by simp [h])
    by_cases hrid : ev.rid = rid
    · have h1 : phase_after rid (some q) ev = q.step ev := by simp [phase_after, hrid]
      rw [h1] at hs
      cases hqs : q.step ev with
      | none => rw [hqs, foldl_phase_after_none] at hs; cases hs
      | some q2 =>
        rw [hqs] at hs
        have hne : ∀ r, ev ≠ .resume r := by
          intro r h
          subst h
          simp only [Event.rid] at hrid
          subst hrid
          exact hr1 rfl
        obtain ⟨h2, h3⟩ := waits_step q q2 ev hq hqs hne
        rcases List.mem_cons.mp hm with h4 | h4
        · exact h3 rid fn h4.symm
        · exact ih q2 h2 hs hr2 fn h4
    · have h1 : phase_after rid (some q) ev = some q := by simp [phase_after, hrid]
      rw [h1] at hs
      rcases List.mem_cons.mp hm with h4 | h4
      · subst h4
        exact hrid rfl
      · exact ih q hq hs hr2 fn h4

/-- Once the body of a record has ended without completing, no pending
continuation of it is fired and it is not resumed. -/
theorem no_pending_when_over (rid : Nat) (post : List Event) :
    ∀ q, q.over = true → (post.foldl (phase_after rid) (some q)).isSome = true →
      (∀ fn, Event.pending_invoked rid fn ∉ post) ∧ Event.resume rid ∉ post := by
  induction post with
  | nil => intro q _ _; exact ⟨fun fn h => (by cases h), fun h => (by cases h)⟩
  | cons ev post ih =>
    intro q hq hs
    rw [List.foldl_cons] at hs
    by_cases hrid : ev.rid = rid
    · have h1 : phase_after rid (some q) ev = q.step ev := by simp [phase_after, hrid]
      rw [h1] at hs
      cases hqs : q.step ev with
      | none => rw [hqs, foldl_phase_after_none] at hs; cases hs
      | some q2 =>
        rw [hqs] at hs
        obtain ⟨h2, h3, h4⟩ := over_step q q2 ev hq hqs
        obtain ⟨h5, h6⟩ := ih q2 h2 hs
        refine ⟨?_, ?_⟩
        · intro fn hm
          rcases List.mem_cons.mp hm with h7 | h7
          · exact h3 rid fn h7.symm
          · exact h5 fn h7
        · intro hm
          rcases List.mem_cons.mp hm with h7 | h7
          · exact h4 rid h7.symm
          · exact h6 h7
    · have h1 : phase_after rid (some q) ev = some q := by simp [phase_after, hrid]
      rw [h1] at hs
      obtain ⟨h5, h6⟩ := ih q hq hs
      refine ⟨?_, ?_⟩
      · intro fn hm
        rcases List.mem_cons.mp hm with h7 | h7
        · subst h7; exact hrid rfl
        · exact h5 fn h7
      · intro hm
        rcases List.mem_cons.mp hm with h7 | h7
        · subst h7; exact hrid rfl
        · exact h6 h7

/-- In a trace in order, the phase of a record right after one of its
events. -/
theorem phase_after_event (rid : Nat) (pre post : List Event) (ev : Event) (hr : ev.rid = rid)
    (ho : Orderly (pre ++ ev :: post)) :
    ∃ q q2, phase_of rid pre = some q ∧ q.step ev = some q2 ∧
      (post.foldl (phase_after rid) (some q2)).isSome = true := by
  have h := ho rid
  rw [phase_of_append, List.foldl_cons] at h
  cases hq : phase_of rid pre with
  | none =>
    rw [hq] at h
    have h1 : phase_after rid none ev = none := by simp [phase_after]
    rw [h1, foldl_phase_after_none] at h
    cases h
  | some q =>
    rw [hq] at h
    have h1 : phase_after rid (some q) ev = q.step ev := by simp [phase_after, hr]
    rw [h1] at h
    cases hs : q.step ev with
    | none => rw [hs, foldl_phase_after_none] at h; cases h
    | some q2 =>
      rw [hs] at h
      exact ⟨q, q2, rfl, hs, h⟩

/-- The phase of a record after a beginning of what follows. -/
theorem foldl_phase_prefix (rid : Nat) (q : Option Phase) (t1 t2 : List Event)
    (h : ((t1 ++ t2).foldl (phase_after rid) q).isSome = true) :
    (t1.foldl (phase_after rid) q).isSome = true := by
  rw [List.foldl_append] at h
  cases h1 : t1.foldl (phase_after rid) q with
  | none => rw [h1, foldl_phase_after_none] at h; cases h
  | some ph => rfl

/-- In a trace in order, between two pending continuations of a record
fired by its drivers the record is resumed. -/
theorem resume_between_pendings (t : List Event) (ho : Orderly t) (rid : Nat)
    (pre mid post : List Event) (fn1 fn2 : Pending)
    (heq : t = pre ++ .pending_invoked rid fn1 :: (mid ++ .pending_invoked rid fn2 :: post)) :
    Event.resume rid ∈ mid := by
  rw [heq] at ho
  obtain ⟨q, q2, _, hs, hf⟩ := phase_after_event rid pre _ (Event.pending_invoked rid fn1) rfl ho
  have hw : q2.waits = true := by
    cases q <;> cases fn1 <;> simp [Phase.step, Event.is_driver_exit] at hs <;>
      subst hs <;> rfl
  by_contra hn
  have hf2 : ((mid ++ [Event.pending_invoked rid fn2]).foldl (phase_after rid) (some q2)).isSome
      = true := by
    apply foldl_phase_prefix rid (some q2) _ post
    simpa using hf
  have hno := no_pending_while_waiting rid (mid ++ [Event.pending_invoked rid fn2]) q2 hw hf2
    (by simpa using hn) fn2
  exact hno (by simp)

/-- In a trace in order, after the body of a record returned without
completing or an exception left it, no pending continuation of the record
is fired and the record is not resumed. -/
theorem nothing_fired_after_end (t : List Event) (ho : Orderly t) (rid : Nat)
    (pre post : List Event) (ev : Event)
    (hev : ev = .return_void rid ∨ (∃ e, ev = .unhandled_exception rid e) ∨ ev = .ill_formed rid)
    (heq : t = pre ++ ev :: post) :
    (∀ fn, Event.pending_invoked rid fn ∉ post) ∧ Event.resume rid ∉ post := by
  rw [heq] at ho
  have hr : ev.rid = rid := by
    rcases hev with h | ⟨e, h⟩ | h <;> subst h <;> rfl
  obtain ⟨q, q2, _, hs, hf⟩ := phase_after_event rid pre post ev hr ho
  have hov : q2.over = true := by
    rcases hev with h | ⟨e, h⟩ | h <;> subst h <;> cases q <;>
      simp [Phase.step, Event.is_driver_exit] at hs <;> subst hs <;> rfl
  exact no_pending_when_over rid post q2 hov hf

/-- The run of a body that completes without suspending before, for any
record in any context. -/
theorem run_reaches_completes {body rest : Body} (hr : Reaches body rest) :
    ∀ (d : Driver) (p : co_composed_promise) (h : Handler) (s : Stack) (w : World)
      (vs : List Val), p.state_.work_ = true → Completes p.return_type vs rest →
      ∃ p1 ev fn, p1.rid = p.rid ∧ Event.completes p.rid vs ev ∧ Pending.completes fn ∧
        run d body p h s w
          = (⟨w.trace ++ [ev, .work_released p.rid, .pending_invoked p.rid fn,
                .moved_out p.rid vs, .frame_destroyed p.rid, .handler_invoked p.rid vs],
              w.next_id⟩,
            .completed vs (⟨d, p1, h⟩ :: s)) := by
  induction hr with
  | here rest =>
    intro d p h s w vs hw hc
    cases hc with
    | by_yield rest' =>
      exact ⟨p.yield_await_suspend.move_handler, _, _, rfl, Or.inl rfl, Or.inl rfl,
        run_yield_at d vs rest' p h s w hw⟩
    | by_return signatures ht hv =>
      obtain ⟨i, hi, _⟩ := find_overload_of_mem _ _ hv
      have ho : p.return_overload vs = some i := by
        simp [co_composed_promise.return_overload, ht, hi]
      exact ⟨(p.return_value i vs).move_handler, _, _, rfl, Or.inr rfl, Or.inr ⟨i, rfl⟩,
        run_return_at d vs i p h s w hw ho⟩
  | throw_if_cancelled b body rest _ ih =>
    intro d p h s w vs hw hc
    obtain ⟨p1, ev, fn, h0, h1, h2, h3⟩ := ih d (p.set_throw_if_cancelled b) h s w vs hw hc
    exact ⟨p1, ev, fn, h0, h1, h2, by rw [run, h3]; rfl⟩
  | reset_cancellation_state body rest _ ih =>
    intro d p h s w vs hw hc
    obtain ⟨p1, ev, fn, h0, h1, h2, h3⟩ := ih d p.reset_cancellation_state h s w vs hw hc
    exact ⟨p1, ev, fn, h0, h1, h2, by rw [run, h3]; rfl⟩

/-- C17: in every run of every body.  The driver of a step starts from an
empty holder: the one the promise is constructed with, and the one each
resume installs.  A suspension arms one pending continuation (an await the
start of the sub-operation, a yield or a return the completion), and an
exception leaving the body arms none.  For every record, between two
pending continuations fired by its drivers the record is resumed, so a
driver fires at most one per step; after the body returned without
completing or an exception left it no pending continuation of the record
is fired; and a record whose body completes was resumed `n` times and had
`n + 1` pending continuations fired, one per step: `n` starts of
sub-operations and then the completion.  A body that completes without
awaiting has its final continuation called, with no resume, before the
initiating call returns, which is the last event of the run. -/
theorem C17_pending_fired_once_per_step (return_type : Return) (has_slot : Bool)
    (body : Body) :
    (∀ rid, (co_composed_promise.ctor rid return_type has_slot).state_.on_suspend_.fn_
      = none) ∧
    (∀ (p : co_composed_promise) result, (p.resume result).state_.on_suspend_.fn_ = none) ∧
    (∀ p : co_composed_promise,
      p.await_suspend.state_.on_suspend_.fn_ = some .start_operation ∧
      p.yield_await_suspend.state_.on_suspend_.fn_ = some .complete_yield ∧
      (∀ i value, (p.return_value i value).state_.on_suspend_.fn_
        = some (.complete_return i)) ∧
      p.unhandled_exception.state_.on_suspend_ = p.state_.on_suspend_) ∧
    (∀ rid pre mid post fn1 fn2,
      trace_of return_type has_slot body
        = pre ++ .pending_invoked rid fn1 :: (mid ++ .pending_invoked rid fn2 :: post) →
      Event.resume rid ∈ mid) ∧
    (∀ rid pre post ev,
      (ev = .return_void rid ∨ (∃ e, ev = .unhandled_exception rid e) ∨
        ev = .ill_formed rid) →
      trace_of return_type has_slot body = pre ++ ev :: post →
      (∀ fn, Event.pending_invoked rid fn ∉ post) ∧ Event.resume rid ∉ post) ∧
    (∀ rid vs, vs ∈ completions rid (trace_of return_type has_slot body) →
      ∃ n fn, Pending.completes fn ∧
        fired rid (trace_of return_type has_slot body)
          = List.replicate n .start_operation ++ [fn] ∧
        resumes rid (trace_of return_type has_slot body) = n) ∧
    (∀ rest vs, Reaches body rest → Completes return_type vs rest →
      ∃ ev fn, Event.completes 0 vs ev ∧ Pending.completes fn ∧
        trace_of return_type has_slot body
          = [.frame_allocated 0, ev, .work_released 0, .pending_invoked 0 fn,
              .moved_out 0 vs, .frame_destroyed 0, .handler_invoked 0 vs,
              .initiate_returned 0]) := by
  have ho := trace_of_orderly return_type has_slot body
  refine ⟨fun _ => rfl, fun _ _ => rfl, ?_, ?_, ?_, ?_, ?_⟩
  · intro p
    refine ⟨rfl, rfl, fun _ _ => rfl, ?_⟩
    unfold co_composed_promise.unhandled_exception
    split <;> rfl
  · intro rid pre mid post fn1 fn2 heq
    exact resume_between_pendings _ ho rid pre mid post fn1 fn2 heq
  · intro rid pre post ev hev heq
    exact nothing_fired_after_end _ ho rid pre post ev hev heq
  · intro rid vs h
    have hi := invoked_of_completed return_type has_slot body rid vs h
    obtain ⟨n, ev, fn, hev, hfn, hl⟩ := life_of_invoked return_type has_slot body rid vs hi
    have hc := counts_of_life rid vs n ev fn _ hev hl
    refine ⟨n, fn, hfn, ?_, ?_⟩
    · rw [fired_life]
      exact hc.2.2.2.2
    · unfold resumes
      rw [count_life rid _ (.resume rid) rfl rfl]
      exact hc.2.2.1
  · intro rest vs hr hc
    obtain ⟨p1, ev, fn, h0, h1, h2, h3⟩ := run_reaches_completes hr (driver_after 0)
      (co_composed_promise.ctor 0 return_type has_slot) .final []
      ⟨[Event.frame_allocated 0] ++ await_trace 0, 1⟩ vs rfl hc
    refine ⟨ev, fn, h1, h2, ?_⟩
    rw [trace_of_eq, h3]
    have h0' : p1.rid = 0 := h0
    simp [Stack.ret, Activation.leave, driver_after, World.emit, await_trace,
      co_composed_promise.ctor, h0']

/-- C17 at a body that completes at once, `co_yield state.complete(7);`:
the final continuation is called before the initiating call returns. -/
theorem C17_pending_fired_once_per_step_witness :
    Reaches (.co_yield [.int 7] .co_return_void) (.co_yield [.int 7] .co_return_void) ∧
    Completes .void [.int 7] (.co_yield [.int 7] .co_return_void) ∧
    ∃ ev fn, Event.completes 0 [.int 7] ev ∧ Pending.completes fn ∧
      trace_of .void false (.co_yield [.int 7] .co_return_void)
        = [.frame_allocated 0, ev, .work_released 0, .pending_invoked 0 fn,
            .moved_out 0 [.int 7], .frame_destroyed 0, .handler_invoked 0 [.int 7],
            .initiate_returned 0] :=
  ⟨Reaches.here _, Completes.by_yield _,
    (C17_pending_fired_once_per_step .void false (.co_yield [.int 7] .co_return_void)).2.2.2.2.2.2
      _ _ (Reaches.here _) (Completes.by_yield _)⟩

/-! ## Cancellation at an await -/

/-- The check made by an await, for both kinds of final continuation. -/
theorem check_for_cancellation_eq (c : co_composed_state_cancellation) :
    c.check_for_cancellation
      = (if c.throw_if_cancelled = true ∧ c.cancelled ≠ 0
          then .error (.system_error operation_aborted .co_await) else .ok ()) := by
  cases c with
  | unspecialised =>
    simp [co_composed_state_cancellation.check_for_cancellation,
      co_composed_state_cancellation.throw_if_cancelled]
  | slot cs flag =>
    simp only [co_composed_state_cancellation.check_for_cancellation,
      co_composed_state_cancellation.cancelled,
      co_composed_state_cancellation.throw_if_cancelled, throw_error_at, operation_aborted]
    by_cases h1 : flag = true <;> by_cases h2 : cs.cancelled_ = 0 <;> simp [h1, h2]

/-- Destroying a record reads its name, whether it still holds its final
continuation, and whether it still holds its token. -/
theorem destroy_congr (p q : co_composed_promise) (h : Handler) (w : World)
    (h1 : q.rid = p.rid) (h2 : q.state_.handler_ = p.state_.handler_)
    (h3 : q.state_.work_ = p.state_.work_) : q.destroy h w = p.destroy h w := by
  cases h <;> simp [co_composed_promise.destroy, release_work, h1, h2, h3]

/-- C16: for every await of a sub-operation, by any record in any context.
The await first makes the check: it raises the Cancelled failure
(`operation_aborted`, at `co_await`) exactly when `throw_if_cancelled` is
set and `cancelled()` is not `none`.  When it raises, the body goes on with
the failure at the await point, with the promise and the events as they
were: nothing is armed or fired and the sub-operation is not started.
Otherwise `await_ready()` is false, `await_suspend` arms the pending
continuation that starts the sub-operation, and the driver fires it, which
starts the sub-operation with a bridge to this record: if the initiation
raises, the bridge destroys this record while the exception unwinds the
drivers; if the operation completes later, the drivers return and the
bridge resumes this record with the result of the operation, whatever
cancellation request arrived in between; a composed operation gets the
bridge as its final continuation.  A cancellation request changes the
cancellation bookkeeping only; it does not change what a completion, a
return or an escaping exception does, and with `throw_if_cancelled` unset
the check passes whatever was requested. -/
theorem C16_await_checks_then_arms (p : co_composed_promise) (d : Driver) (h : Handler)
    (s : Stack) (w : World) (k : Except Exc Unwrapped → Body) :
    p.await_transform
      = (if p.state_.cancellation.throw_if_cancelled = true ∧
            p.state_.cancellation.cancelled ≠ 0
          then .error (.system_error operation_aborted .co_await) else .ok ()) ∧
    (p.state_.cancellation.throw_if_cancelled = true → p.state_.cancellation.cancelled ≠ 0 →
      (∀ op, run d (.co_await op k) p h s w
        = run d (k (.error (.system_error operation_aborted .co_await))) p h s w) ∧
      (∀ return_type inner, run d (.co_await_composed return_type inner k) p h s w
        = run d (k (.error (.system_error operation_aborted .co_await))) p h s w)) ∧
    (¬ (p.state_.cancellation.throw_if_cancelled = true ∧
          p.state_.cancellation.cancelled ≠ 0) →
      co_composed_promise.await_ready = false ∧
      p.await_suspend.state_.on_suspend_.fn_ = some .start_operation ∧
      (∀ e, run d (.co_await (.raises e) k) p h s w
        = (Stack.unwind (⟨d, p.await_suspend, h⟩ :: s) e
            (co_composed_handler_base_dtor true p.await_suspend h
              ((w.emit (.pending_invoked p.rid .start_operation)).emit
                (.operation_started p.rid))), .halted)) ∧
      (∀ ct c, run d (.co_await (.deferred ct c) k) p h s w
        = run .resume (k (await_resume (co_composed_handler_store c)))
            ((p.await_suspend.emit_cancel ct).resume (co_composed_handler_store c)) h []
            ((Stack.ret (⟨d, p.await_suspend, h⟩ :: s)
              ((w.emit (.pending_invoked p.rid .start_operation)).emit
                (.operation_started p.rid))).emit (.resume p.rid))) ∧
      (∀ return_type inner w2,
        run .initiate inner
            (coroutine_new return_type p.await_suspend.has_slot
              ((w.emit (.pending_invoked p.rid .start_operation)).emit
                (.operation_started p.rid))).1
            (.bridge p.await_suspend h) (⟨d, p.await_suspend, h⟩ :: s)
            (coroutine_new return_type p.await_suspend.has_slot
              ((w.emit (.pending_invoked p.rid .start_operation)).emit
                (.operation_started p.rid))).2 = (w2, .halted) →
        run d (.co_await_composed return_type inner k) p h s w = (w2, .halted)) ∧
      (∀ return_type inner w2 args s2,
        run .initiate inner
            (coroutine_new return_type p.await_suspend.has_slot
              ((w.emit (.pending_invoked p.rid .start_operation)).emit
                (.operation_started p.rid))).1
            (.bridge p.await_suspend h) (⟨d, p.await_suspend, h⟩ :: s)
            (coroutine_new return_type p.await_suspend.has_slot
              ((w.emit (.pending_invoked p.rid .start_operation)).emit
                (.operation_started p.rid))).2 = (w2, .completed args s2) →
        run d (.co_await_composed return_type inner k) p h s w
          = run .resume (k (await_resume (co_composed_handler_store (.plain args))))
              (p.await_suspend.resume (co_composed_handler_store (.plain args))) h s2
              (w2.emit (.resume p.rid)))) ∧
    (∀ ct,
      (p.emit_cancel ct).rid = p.rid ∧ (p.emit_cancel ct).return_type = p.return_type ∧
      (p.emit_cancel ct).state_.work_ = p.state_.work_ ∧
      (p.emit_cancel ct).state_.handler_ = p.state_.handler_ ∧
      (p.emit_cancel ct).state_.on_suspend_ = p.state_.on_suspend_ ∧
      (p.emit_cancel ct).owner_ = p.owner_ ∧ (p.emit_cancel ct).owner_p_ = p.owner_p_ ∧
      (p.emit_cancel ct).result_ = p.result_ ∧
      (p.emit_cancel ct).return_value_ = p.return_value_ ∧
      (p.emit_cancel ct).state_.cancellation.throw_if_cancelled
        = p.state_.cancellation.throw_if_cancelled ∧
      (∀ vs rest, (run d (.co_yield vs rest) (p.emit_cancel ct) h s w).1
        = (run d (.co_yield vs rest) p h s w).1) ∧
      (∀ vs, (run d (.co_return vs) (p.emit_cancel ct) h s w).1
        = (run d (.co_return vs) p h s w).1) ∧
      (run d .co_return_void (p.emit_cancel ct) h s w).1
        = (run d .co_return_void p h s w).1 ∧
      (∀ e, (run d (.raise e) (p.emit_cancel ct) h s w).1 = (run d (.raise e) p h s w).1) ∧
      (p.state_.cancellation.throw_if_cancelled = false →
        (p.emit_cancel ct).await_transform = .ok ())) := by
  have hchk := check_for_cancellation_eq p.state_.cancellation
  refine ⟨hchk, ?_, ?_, ?_⟩
  · intro h1 h2
    have he : p.await_transform = .error (.system_error operation_aborted .co_await) := by
      unfold co_composed_promise.await_transform
      rw [hchk]; simp [h1, h2]
    refine ⟨?_, ?_⟩
    · intro op
      rw [run, he]
    · intro return_type inner
      rw [run, he]
  · intro hn
    have hok : p.await_transform = .ok () := by
      unfold co_composed_promise.await_transform
      rw [hchk]; simp only [hn, if_false]
    refine ⟨rfl, rfl, ?_, ?_, ?_, ?_⟩
    · intro e
      rw [run, hok]
      rfl
    · intro ct c
      rw [run, hok]
      rfl
    · intro return_type inner w2 hrun
      rw [run, hok]
      simp only [await_suspend_fn]
      rw [hrun]
    · intro return_type inner w2 args s2 hrun
      rw [run, hok]
      simp only [await_suspend_fn]
      rw [hrun]
      rfl
  · intro ct
    refine ⟨rfl, rfl, rfl, rfl, rfl, rfl, rfl, rfl, rfl, ?_, ?_, ?_, ?_, ?_, ?_⟩
    · cases hc : p.state_.cancellation <;>
        simp [co_composed_promise.emit_cancel, hc, co_composed_state_cancellation.emit,
          co_composed_state_cancellation.throw_if_cancelled]
    · intro vs rest
      rw [run, run]
      cases h <;>
        simp [co_composed_promise.yield_await_suspend, co_composed_promise.work_reset,
          co_composed_promise.arm, release_work, World.emit, complete,
          co_composed_promise.move_handler, co_composed_handler_base_dtor,
          co_composed_promise.destroy, co_composed_promise.emit_cancel]
    · intro vs
      rw [run, run]
      have ho : (p.emit_cancel ct).return_overload vs = p.return_overload vs := rfl
      rw [ho]
      cases hi : p.return_overload vs with
      | none => rfl
      | some i =>
        cases h <;>
          simp [co_composed_promise.return_value, co_composed_promise.work_reset,
            co_composed_promise.arm, co_composed_promise.get_return_value, release_work,
            World.emit, complete, co_composed_promise.move_handler,
            co_composed_handler_base_dtor, co_composed_promise.destroy,
            co_composed_promise.emit_cancel]
    · rw [run, run]
      have ht : (p.emit_cancel ct).return_type = p.return_type := rfl
      rw [ht]
      split
      · rfl
      · rw [destroy_congr (p.emit_cancel ct) p h _ rfl rfl rfl]
        have hf : (p.emit_cancel ct).state_.on_suspend_.fn_ = p.state_.on_suspend_.fn_ := rfl
        rw [hf]
        split
        · simp only [Stack.ret, Activation.leave, co_composed_handler_base_dtor]
          cases d with
          | initiate => rfl
          | resume =>
            have hp : (p.emit_cancel ct).owner_p_ = p.owner_p_ := rfl
            simp only [hp]
            split
            · rw [destroy_congr (p.emit_cancel ct) p h _ rfl rfl rfl]; rfl
            · rfl
        · rfl
    · intro e
      rw [run, run]
      simp only [Stack.unwind, Activation.unwind, co_composed_handler_base_dtor]
      cases d with
      | initiate =>
        have hr : (p.emit_cancel ct).unhandled_exception.rid = p.unhandled_exception.rid := by
          unfold co_composed_promise.unhandled_exception
          have ho : (p.emit_cancel ct).owner_ = p.owner_ := rfl
          rw [ho]; split <;> rfl
        simp only [hr]
        rfl
      | resume =>
        have hu : ∀ q : co_composed_promise, q.unhandled_exception.rid = q.rid ∧
            q.unhandled_exception.owner_p_ = (q.owner_ || q.owner_p_) ∧
            q.unhandled_exception.state_ = q.state_ := by
          intro q
          unfold co_composed_promise.unhandled_exception
          split
          · rename_i ho; simp [ho]
          · rename_i ho; simp [ho]
        have h1 := hu p
        have h2 := hu (p.emit_cancel ct)
        have ho : (p.emit_cancel ct).owner_ = p.owner_ := rfl
        have hp : (p.emit_cancel ct).owner_p_ = p.owner_p_ := rfl
        simp only [h1.1, h2.1, h1.2.1, h2.2.1, ho, hp]
        have hr : (p.emit_cancel ct).rid = p.rid := rfl
        simp only [hr]
        split
        · rw [destroy_congr p.unhandled_exception (p.emit_cancel ct).unhandled_exception h _
            (h2.1.trans h1.1.symm) (by rw [h1.2.2, h2.2.2]; rfl) (by rw [h1.2.2, h2.2.2]; rfl)]
        · rfl
    · intro hq
      apply await_transform_of_flag
      cases hc : p.state_.cancellation with
      | unspecialised =>
        simp [co_composed_promise.emit_cancel, hc, co_composed_state_cancellation.emit,
          co_composed_state_cancellation.throw_if_cancelled]
      | slot cs b =>
        rw [hc] at hq
        simpa [co_composed_promise.emit_cancel, hc, co_composed_state_cancellation.emit,
          co_composed_state_cancellation.throw_if_cancelled] using hq

/-- C16 at a promise whose final continuation has a slot, after
`reset_cancellation_state()`, `throw_if_cancelled(true)` and a cancellation
request: the next await raises `operation_aborted` in the body and fires
nothing.  In a whole run: a request that arrives during the first await
leaves the result of that await alone and makes the second await raise. -/
theorem C16_await_checks_then_arms_witness :
    ((((co_composed_promise.ctor 0 .void true).reset_cancellation_state).set_throw_if_cancelled
      true).emit_cancel 1).state_.cancellation.throw_if_cancelled = true ∧
    ((((co_composed_promise.ctor 0 .void true).reset_cancellation_state).set_throw_if_cancelled
      true).emit_cancel 1).state_.cancellation.cancelled ≠ 0 ∧
    run .initiate (.co_await post (and_then (.co_yield [] .co_return_void)))
        ((((co_composed_promise.ctor 0 .void true).reset_cancellation_state).set_throw_if_cancelled
          true).emit_cancel 1) .final [] ⟨[.frame_allocated 0], 1⟩
      = run .initiate (.raise (.system_error operation_aborted .co_await))
        ((((co_composed_promise.ctor 0 .void true).reset_cancellation_state).set_throw_if_cancelled
          true).emit_cancel 1) .final [] ⟨[.frame_allocated 0], 1⟩ ∧
    trace_of .void true
        (.reset_cancellation_state (.throw_if_cancelled true
          (.co_await (.deferred 1 (.plain []))
            (and_then (.co_await post (and_then (.co_yield [] .co_return_void)))))))
      = [.frame_allocated 0, .pending_invoked 0 .start_operation, .operation_started 0,
          .initiate_returned 0, .resume 0,
          .unhandled_exception 0 (.system_error operation_aborted .co_await),
          .resume_raised 0 (.system_error operation_aborted .co_await),
          .frame_destroyed 0, .work_released 0] :=
  ⟨by decide, by decide,
    ((C16_await_checks_then_arms
      ((((co_composed_promise.ctor 0 .void true).reset_cancellation_state).set_throw_if_cancelled
        true).emit_cancel 1) .initiate .final [] ⟨[.frame_allocated 0], 1⟩
      (and_then (.co_yield [] .co_return_void))).2.1 (by decide) (by decide)).1 post,
    by rfl⟩

/-! ## Frames in a run -/

/-- In a trace in order the frame of a record is allocated once when the
record exists, and destroyed once when its phase says so, never twice. -/
theorem frames_of_phase (rid : Nat) (t : List Event) :
    ∀ ph, phase_of rid t = some ph →
      t.count (.frame_allocated rid) = (if ph = .fresh then 0 else 1) ∧
      t.count (.frame_destroyed rid) = (if ph.frame_gone = true then 1 else 0) := by
  induction t using List.reverseRecOn with
  | nil =>
    intro ph h
    simp only [phase_of, List.foldl_nil, Option.some.injEq] at h
    subst h
    simp [Phase.frame_gone]
  | append_singleton t ev ih =>
    intro ph h
    rw [phase_of_concat] at h
    unfold phase_after at h
    by_cases hrid : ev.rid = rid
    · simp only [hrid, if_true] at h
      cases hq : phase_of rid t with
      | none => rw [hq] at h; simp at h
      | some q =>
        rw [hq] at h
        simp only [Option.some_bind] at h
        obtain ⟨h1, h2⟩ := ih q hq
        rw [List.count_append, List.count_append, h1, h2]
        cases ev with
        | pending_invoked r fn =>
          cases fn <;> cases q <;>
            simp [Phase.step, Event.is_driver_exit, Event.rid] at h hrid <;>
            (try subst h) <;> (try subst hrid) <;>
            simp [Phase.frame_gone, List.count_cons]
        | moved_out r vs =>
          cases q <;> simp [Phase.step, Event.is_driver_exit, Event.rid] at h hrid
          obtain ⟨_, h3⟩ := h
          subst h3
          simp [Phase.frame_gone, List.count_cons]
        | handler_invoked r vs =>
          cases q <;> simp [Phase.step, Event.is_driver_exit, Event.rid] at h hrid
          obtain ⟨_, h3⟩ := h
          subst h3
          simp [Phase.frame_gone, List.count_cons]
        | _ =>
          cases q <;>
            simp [Phase.step, Event.is_driver_exit, Event.rid] at h hrid <;>
            (try subst h) <;> (try subst hrid) <;>
            simp [Phase.frame_gone, List.count_cons]
    · simp only [hrid, if_false] at h
      obtain ⟨h1, h2⟩ := ih ph h
      rw [List.count_append, List.count_append, h1, h2]
      have e1 : ev ≠ .frame_allocated rid := fun h3 => hrid (by rw [h3]; rfl)
      have e2 : ev ≠ .frame_destroyed rid := fun h3 => hrid (by rw [h3]; rfl)
      simp [List.count_cons, e1, e2]

/-- In every run of every body the frame of a record is allocated at most
once and destroyed at most once, and only a frame that was allocated is
destroyed. -/
theorem frames_of_run (return_type : Return) (has_slot : Bool) (body : Body) (rid : Nat) :
    (trace_of return_type has_slot body).count (.frame_allocated rid) ≤ 1 ∧
    destroyed rid (trace_of return_type has_slot body)
      ≤ (trace_of return_type has_slot body).count (.frame_allocated rid) := by
  have ho := trace_of_orderly return_type has_slot body rid
  cases hq : phase_of rid (trace_of return_type has_slot body) with
  | none => rw [hq] at ho; cases ho
  | some ph =>
    obtain ⟨h1, h2⟩ := frames_of_phase rid _ ph hq
    unfold destroyed
    rw [h1, h2]
    cases ph <;> simp [Phase.frame_gone]

/-- The record of a body that completed had its frame allocated once and
destroyed once. -/
theorem frames_of_completed (return_type : Return) (has_slot : Bool) (body : Body) (rid : Nat)
    (vs : List Val) (h : vs ∈ completions rid (trace_of return_type has_slot body)) :
    (trace_of return_type has_slot body).count (.frame_allocated rid) = 1 ∧
    destroyed rid (trace_of return_type has_slot body) = 1 := by
  have hi := invoked_of_completed return_type has_slot body rid vs h
  have ho := trace_of_orderly return_type has_slot body
  obtain ⟨pre, post, heq⟩ := List.append_of_mem hi
  rw [heq] at ho
  have hd := (phase_around_invoked rid vs pre post ho).2.1
  rw [← heq] at hd
  obtain ⟨h1, h2⟩ := frames_of_phase rid _ _ hd
  unfold destroyed
  rw [h1, h2]
  simp [Phase.frame_gone]

/-- C13, evaluated.  The two functions are balanced: for every allocator,
record size and heap, `operator delete` applied to the pointer returned by
`operator new`, with the same size, recovers the base address of the array,
finds there an allocator equal to the one `operator new` put there, and
gives the same number of blocks back to it, once (the heap is as before but
for one `allocate` and one `deallocate` in the log, and a second
`operator delete` of the same pointer is undefined).  In every run a frame
is allocated at most once and destroyed at most once and only after it was
allocated, and the frame of a record whose body completes is allocated once
and destroyed once.  But when the body lets an exception escape before its
first suspend point (as in `throw_first`), the frame of the outermost
record is allocated once and never destroyed: `operator delete` is not
called and the block that `operator new` allocated is never deallocated. -/
theorem C13_block_left_allocated_on_first_step (sizeof_block sizeof_allocator : Nat)
    (allocator : Allocator) (base size : Nat) (heap : Heap)
    (return_type : Return) (has_slot : Bool) (body : Body) (e : Exc)
    (h : Reaches body (.raise e)) :
    (trace_of return_type has_slot body).count (.frame_allocated 0) = 1 ∧
    destroyed 0 (trace_of return_type has_slot body) = 0 ∧
    operator_delete sizeof_block sizeof_allocator
        (operator_new sizeof_block sizeof_allocator allocator base size heap).1 size
        (operator_new sizeof_block sizeof_allocator allocator base size heap).2
      = some { heap with
          log := heap.log ++
            [.allocate allocator
                ((blocks sizeof_block sizeof_allocator + blocks sizeof_block size) % size_modulus)
                base,
              .deallocate allocator base
                ((blocks sizeof_block sizeof_allocator + blocks sizeof_block size)
                  % size_modulus)] } ∧
    (operator_new sizeof_block sizeof_allocator allocator base size heap).1
        - blocks sizeof_block sizeof_allocator * sizeof_block = base ∧
    (operator_new sizeof_block sizeof_allocator allocator base size heap).2.heads.lookup base
      = some allocator ∧
    (operator_new sizeof_block sizeof_allocator allocator base size heap).2.live
      = (allocator, base,
          (blocks sizeof_block sizeof_allocator + blocks sizeof_block size) % size_modulus)
        :: heap.live ∧
    (heap.heads.lookup base = none →
      ∀ heap1, operator_delete sizeof_block sizeof_allocator
          (operator_new sizeof_block sizeof_allocator allocator base size heap).1 size
          (operator_new sizeof_block sizeof_allocator allocator base size heap).2 = some heap1 →
        operator_delete sizeof_block sizeof_allocator
          (operator_new sizeof_block sizeof_allocator allocator base size heap).1 size heap1
          = none) ∧
    (∀ (return_type1 : Return) (has_slot1 : Bool) (body1 : Body) (rid : Nat),
      (trace_of return_type1 has_slot1 body1).count (.frame_allocated rid) ≤ 1 ∧
      destroyed rid (trace_of return_type1 has_slot1 body1)
        ≤ (trace_of return_type1 has_slot1 body1).count (.frame_allocated rid)) ∧
    (∀ (return_type1 : Return) (has_slot1 : Bool) (body1 : Body) (rid : Nat) (vs : List Val),
      vs ∈ completions rid (trace_of return_type1 has_slot1 body1) →
      (trace_of return_type1 has_slot1 body1).count (.frame_allocated rid) = 1 ∧
      destroyed rid (trace_of return_type1 has_slot1 body1) = 1) := by
  have ht := trace_of_reaches_raise return_type has_slot body e h
  have h1 : operator_delete sizeof_block sizeof_allocator
        (operator_new sizeof_block sizeof_allocator allocator base size heap).1 size
        (operator_new sizeof_block sizeof_allocator allocator base size heap).2
      = some { heap with
          log := heap.log ++
            [.allocate allocator
                ((blocks sizeof_block sizeof_allocator + blocks sizeof_block size) % size_modulus)
                base,
              .deallocate allocator base
                ((blocks sizeof_block sizeof_allocator + blocks sizeof_block size)
                  % size_modulus)] } := by
    simp [operator_delete, operator_new, Heap.allocate, Heap.deallocate, List.lookup]
  refine ⟨?_, ?_, h1, ?_, ?_, ?_, ?_, frames_of_run, frames_of_completed⟩
  · rw [ht]
    simp [List.count_cons]
  · rw [ht]
    simp [destroyed, List.count_cons]
  · simp [operator_new]
  · simp [operator_new, Heap.allocate, List.lookup]
  · simp [operator_new, Heap.allocate]
  · intro hnone heap1 hd
    rw [h1] at hd
    cases hd
    simp [operator_delete, operator_new, hnone]

/-- C13 at the body of `throw_first`, with blocks of 16 bytes, an allocator
of 1 byte and a record of 100 bytes on an empty heap: the frame is
allocated once and never destroyed, while `operator delete`, had it been
called, would have given the 8 blocks back. -/
theorem C13_block_left_allocated_on_first_step_witness :
    Reaches throw_first (.raise (.thrown 42)) ∧
    (trace_of .void false throw_first).count (.frame_allocated 0) = 1 ∧
    destroyed 0 (trace_of .void false throw_first) = 0 ∧
    operator_delete 16 1 (operator_new 16 1 ⟨0⟩ 4096 100 ⟨[], [], []⟩).1 100
        (operator_new 16 1 ⟨0⟩ 4096 100 ⟨[], [], []⟩).2
      = some ⟨[], [], [.allocate ⟨0⟩ 8 4096, .deallocate ⟨0⟩ 4096 8]⟩ :=
  ⟨Reaches.here _,
    (C13_block_left_allocated_on_first_step 16 1 ⟨0⟩ 4096 100 ⟨[], [], []⟩ .void false
      throw_first (.thrown 42) (Reaches.here _)).1,
    (C13_block_left_allocated_on_first_step 16 1 ⟨0⟩ 4096 100 ⟨[], [], []⟩ .void false
      throw_first (.thrown 42) (Reaches.here _)).2.1,
    by decide⟩

end CoComposed
